import Mathlib

/-!
# multipart-parser: a shallow embedding of `multipart_parser.c`

The embedding follows the C source function by function.

* A value of C type `char` is modelled by the integer it promotes to (`Int`).
  An input that a caller can really pass has all its elements in `-128 .. 255`
  (`-128 .. 127` where `char` is signed, `0 .. 255` where it is unsigned); the
  ASCII range `0 .. 127` means the same on both.  Comparisons such as
  `ch > ' '` are then the integer comparisons of the source.
* Pointers into the buffer handed to a call are offsets from the start of that
  buffer.  `p - parser->nread` may point before the buffer, so an offset is an
  `Int`.
* The call-local variables `body_start` and `body_end` are not initialised by
  the source; they are `Option Nat`, `none` standing for the indeterminate
  value.  Using an indeterminate value, calling a null function pointer and
  reading `boundary` out of bounds end the run with the undefined outcome.
* `parser->nread` is a `uint64_t`; `nread++` wraps at `2 ^ 64`.
* The length `body_end - body_start` handed to `on_body` is computed in the
  natural numbers; `step_cont_ordered` shows that `body_end` is never before
  `body_start` where `on_body` can be called.
* A callback is modelled by its return value, as a function of the callback
  invocations that precede it in the same call (this stands for whatever state
  the callback keeps behind `parser->data`) and of its own arguments.  Callbacks
  are assumed not to write to the parser structure.
-/

namespace Multipart

/-! ## Characters -/

/-- Carriage return, the macro `CR`. -/
def CR : Int := 13

/-- Line feed, the macro `LF`. -/
def LF : Int := 10

/-- The character `'-'`. -/
def DASH : Int := 45

/-- The character `' '`. -/
def SP : Int := 32

/-- The character `':'`. -/
def COLON : Int := 58

/-- The character `'='`. -/
def EQUALS : Int := 61

/-- The character `'"'`. -/
def QUOTE : Int := 34

/-- The macro `LOWER(c)`, that is `(unsigned char)(c | 0x20)`. -/
def LOWER (c : Int) : Int := (Int.lor c 0x20) % 256

/-- The test `(ch >= 'A' && ch <= 'Z') || (ch >= 'a' && ch <= 'z')` of the header states. -/
def is_letter (ch : Int) : Bool :=
  (decide (65 ≤ ch) && decide (ch ≤ 90)) || (decide (97 ≤ ch) && decide (ch ≤ 122))

/-- The bytes of an ASCII string literal, as `char` values. -/
def bytes (s : String) : List Int := s.toList.map (fun c => (c.toNat : Int))

/-! ## Data model -/

/-- The enumeration `enum state` of `multipart_parser.c`. -/
inductive state where
  | s_start
  | s_start_dash
  | s_boundary
  | s_boundary_cr
  | s_boundary_almost_done
  | s_header_field_start
  | s_header_field
  | s_header_value_discard_ws
  | s_header_value
  | s_header_value_lws
  | s_header_almost_done
  | s_headers_almost_done
  | s_headers_done
  | s_body_part_start
  | s_body_part
  | s_body_part_boundary
  | s_body_part_boundary_dash
  | s_body_part_boundary_dash_dash
  | s_body_part_boundary_compare
  deriving DecidableEq, Repr

open state

/-- The structure `struct multipart_parser` of the header file.  `data` is the opaque user pointer,
`boundary` the bytes that the pointer `boundary` points to. -/
structure multipart_parser_t where
  state : state
  nread : Nat
  multipart_errno : Nat
  data : Nat
  boundary : List Int
  boundary_len : Nat
  deriving DecidableEq, Repr

/-- One callback invocation, with the arguments the callback received: a span is
the offset of its first byte in the current buffer and its length. -/
inductive Event where
  | on_boundary_begin
  | on_header_field (off : Int) (length : Nat)
  | on_header_value (off : Int) (length : Nat)
  | on_headers_complete
  | on_body (off : Int) (length : Nat)
  | on_body_parts_complete
  deriving DecidableEq, Repr

/-- The type `multipart_cb`: return value, given the invocations made before. -/
abbrev multipart_cb := List Event → Int

/-- The type `multipart_data_cb`: return value, given the invocations made before,
the offset `at` and the length. -/
abbrev multipart_data_cb := List Event → Int → Nat → Int

/-- The structure `struct multipart_parser_settings`; `none` is a null pointer. -/
structure multipart_parser_settings where
  on_boundary_begin : Option multipart_cb
  on_header_field : Option multipart_data_cb
  on_header_value : Option multipart_data_cb
  on_headers_complete : Option multipart_cb
  on_body : Option multipart_data_cb
  on_body_parts_complete : Option multipart_cb
  on_debug : Option multipart_data_cb

/-- The function `multipart_parser_init`. -/
def multipart_parser_init (parser : multipart_parser_t) : multipart_parser_t :=
  { parser with state := s_start }

/-- The function `multipart_parser_settings_init`: `memset` to zero. -/
def multipart_parser_settings_init : multipart_parser_settings :=
  { on_boundary_begin := none, on_header_field := none, on_header_value := none,
    on_headers_complete := none, on_body := none, on_body_parts_complete := none,
    on_debug := none }

/-! ## The loop of `multipart_parser_execute` -/

/-- What `multipart_parser_execute` holds while it runs: the parser structure, the
two call-local pointers, and the callback invocations made so far (oldest first). -/
structure Frame where
  parser : multipart_parser_t
  body_start : Option Nat
  body_end : Option Nat
  trace : List Event
  deriving DecidableEq, Repr

/-- Effect of `parser->state = s`. -/
def Frame.goto (f : Frame) (s : state) : Frame :=
  { f with parser := { f.parser with state := s } }

/-- Effect of `parser->nread = n`. -/
def Frame.set_nread (f : Frame) (n : Nat) : Frame :=
  { f with parser := { f.parser with nread := n } }

/-- Effect of `body_end = p`. -/
def Frame.set_body_end (f : Frame) (p : Nat) : Frame :=
  { f with body_end := some p }

/-- Record a callback invocation. -/
def Frame.log (f : Frame) (e : Event) : Frame :=
  { f with trace := f.trace ++ [e] }

/-- The value of `nread` after `nread++` on a `uint64_t`. -/
def incr64 (n : Nat) : Nat := (n + 1) % 2 ^ 64

/-- What one pass through the body of the `for` loop does. -/
inductive Step where
  /-- Reached `continue`: the loop goes on with the next byte. -/
  | cont (f : Frame)
  /-- Reached `return r`. -/
  | ret (r : Int) (f : Frame)
  /-- Undefined behaviour: a null callback was called, an indeterminate
  pointer was used, or `boundary` was read out of bounds. -/
  | ub (f : Frame)
  deriving DecidableEq, Repr

/-- The body of `case s_header_field_start`, also reached by falling through from
`case s_headers_almost_done`. -/
def case_header_field_start (f : Frame) (ch : Int) : Step :=
  if is_letter ch then .cont ((f.set_nread 1).goto s_header_field)
  else .ret (-1) f

/-- The body of `case s_body_part`, also reached by falling through from
`case s_body_part_start`. -/
def case_body_part (f : Frame) (p : Nat) (ch : Int) : Step :=
  if ch ≠ CR then .cont f
  else .cont ((f.set_body_end p).goto s_body_part_boundary)

/-- The `switch (parser->state)` of `multipart_parser_execute`, for the byte `ch`
at offset `p`. -/
def step (settings : multipart_parser_settings) (f : Frame) (p : Nat) (ch : Int) : Step :=
  match f.parser.state with
  | s_start =>
    if ch = DASH then .cont (f.goto s_start_dash) else .cont f
  | s_start_dash =>
    if ch = DASH then .cont ((f.set_nread 0).goto s_boundary) else .ret (-1) f
  | s_boundary =>
    if f.parser.nread < f.parser.boundary_len then
      match f.parser.boundary[f.parser.nread]? with
      | none => .ub f
      | some b =>
        if ch = b then .cont (f.set_nread (incr64 f.parser.nread))
        else .ret (-1) (f.set_nread (incr64 f.parser.nread))
    else if ch = CR then .cont (f.goto s_boundary_cr)
    else if ch = DASH then .cont (f.goto s_boundary_almost_done)
    else .ret (-1) f
  | s_boundary_cr =>
    if ch = LF then
      match settings.on_boundary_begin with
      | none => .ub f
      | some cb =>
        if cb f.trace = 0 then .cont ((f.log .on_boundary_begin).goto s_header_field_start)
        else .ret (-1) (f.log .on_boundary_begin)
    else .ret (-1) f
  | s_boundary_almost_done =>
    if ch = DASH then
      match settings.on_body_parts_complete with
      | none => .ub f
      | some cb => .ret (cb f.trace) (f.log .on_body_parts_complete)
    else .ret (-1) f
  | s_headers_almost_done =>
    if ch = CR then .cont (f.goto s_headers_done)
    else case_header_field_start f ch
  | s_header_field_start => case_header_field_start f ch
  | s_header_field =>
    if is_letter ch ∨ ch = DASH then .cont (f.set_nread (incr64 f.parser.nread))
    else if ch = COLON then
      match settings.on_header_field with
      | none => .ub f
      | some cb =>
        let e := Event.on_header_field ((p : Int) - f.parser.nread) f.parser.nread
        if cb f.trace ((p : Int) - f.parser.nread) f.parser.nread = 0 then
          .cont ((f.log e).goto s_header_value_discard_ws)
        else .ret (-1) (f.log e)
    else .ret (-1) f
  | s_header_value_discard_ws =>
    if ch > SP then .cont ((f.set_nread 1).goto s_header_value)
    else if ch = SP then .cont f
    else .ret (-1) f
  | s_header_value =>
    if ch ≠ CR then .cont (f.set_nread (incr64 f.parser.nread))
    else
      match settings.on_header_value with
      | none => .ub f
      | some cb =>
        let e := Event.on_header_value ((p : Int) - f.parser.nread) f.parser.nread
        if cb f.trace ((p : Int) - f.parser.nread) f.parser.nread = 0 then
          .cont ((f.log e).goto s_header_almost_done)
        else .ret (-1) (f.log e)
  | s_header_almost_done =>
    if ch = LF then .cont (f.goto s_headers_almost_done)
    else .ret (-1) f
  | s_header_value_lws => .ret (-1) f
  | s_headers_done =>
    if ch = LF then
      match settings.on_headers_complete with
      | none => .ub f
      | some cb =>
        if cb f.trace = 0 then .cont ((f.log .on_headers_complete).goto s_body_part_start)
        else .ret (-1) (f.log .on_headers_complete)
    else .ret (-1) f
  | s_body_part_start =>
    case_body_part ({ f with body_start := some p }.goto s_body_part) p ch
  | s_body_part => case_body_part f p ch
  | s_body_part_boundary =>
    if ch = LF then .cont (f.goto s_body_part_boundary_dash)
    else if ch = CR then .cont (f.set_body_end p)
    else .cont (f.goto s_body_part)
  | s_body_part_boundary_dash =>
    if ch = DASH then .cont (f.goto s_body_part_boundary_dash_dash)
    else if ch = CR then .cont ((f.set_body_end p).goto s_body_part_boundary)
    else .cont (f.goto s_body_part)
  | s_body_part_boundary_dash_dash =>
    if ch = DASH then .cont ((f.set_nread 0).goto s_body_part_boundary_compare)
    else if ch = CR then .cont ((f.set_body_end p).goto s_body_part_boundary)
    else .cont (f.goto s_body_part)
  | s_body_part_boundary_compare =>
    if f.parser.nread < f.parser.boundary_len then
      match f.parser.boundary[f.parser.nread]? with
      | none => .ub f
      | some b =>
        if ch = b then .cont (f.set_nread (incr64 f.parser.nread))
        else if ch = CR then
          .cont (((f.set_nread (incr64 f.parser.nread)).set_body_end p).goto s_body_part_boundary)
        else .cont ((f.set_nread (incr64 f.parser.nread)).goto s_body_part)
    else
      match f.body_start, f.body_end with
      | some bs, some be =>
        match settings.on_body with
        | none => .ub f
        | some cb =>
          let e := Event.on_body (bs : Int) (be - bs)
          if cb f.trace (bs : Int) (be - bs) = 0 then
            if ch = CR then .cont ((f.log e).goto s_boundary_cr)
            else if ch = DASH then .cont ((f.log e).goto s_boundary_almost_done)
            else .ret (-1) (f.log e)
          else .ret (-1) (f.log e)
      | _, _ => .ub f

/-- What a call of `multipart_parser_execute` leaves behind: the value returned
(`none` when the call ran into undefined behaviour), the offset of the byte at
which the loop stopped (the length of the buffer when it was exhausted), the
parser structure, and the callback invocations in order. -/
structure Result where
  ret : Option Int
  pos : Nat
  parser : multipart_parser_t
  trace : List Event
  deriving DecidableEq, Repr

/-- The `for` loop of `multipart_parser_execute`, from offset `p`, over the rest
of the buffer.  Running off the end of the buffer reaches the final `return -1`. -/
def run (settings : multipart_parser_settings) (f : Frame) (p : Nat) : List Int → Result
  | [] => { ret := some (-1), pos := p, parser := f.parser, trace := f.trace }
  | ch :: rest =>
    match step settings f p ch with
    | .cont f1 => run settings f1 (p + 1) rest
    | .ret r f1 => { ret := some r, pos := p, parser := f1.parser, trace := f1.trace }
    | .ub f1 => { ret := none, pos := p, parser := f1.parser, trace := f1.trace }

/-- The frame at entry of `multipart_parser_execute`. -/
def Frame.entry (parser : multipart_parser_t) : Frame :=
  { parser := parser, body_start := none, body_end := none, trace := [] }

/-- The function `multipart_parser_execute` on the buffer `data` (of length `len`). -/
def multipart_parser_execute (parser : multipart_parser_t)
    (settings : multipart_parser_settings) (data : List Int) : Result :=
  run settings (Frame.entry parser) 0 data

/-! ## The extractors `multipart_get_name` and `multipart_get_filename` -/

/-- What an extractor returns: `NULL`, or the pointer `value_start` (as an offset
into `str`) together with the length stored in `*value_len`; `undefined` stands
for reaching `default: UNREACHABLE` or using `value_start` before it is set. -/
inductive Extract where
  | not_found
  | found (value_start : Nat) (value_len : Nat)
  | undefined
  deriving DecidableEq, Repr

/-- What one pass through the loop body of an extractor does, for a local state
type `σ`: `continue` with a new state and `value_start`, or leave the function. -/
inductive XStep (σ : Type) where
  | cont (st : σ) (value_start : Option Nat)
  | done (r : Extract)

namespace multipart_get_name

/-- The local enumeration `e_state` of `multipart_get_name`. -/
inductive e_state where
  | s_seek
  | s_N
  | s_NA
  | s_NAM
  | s_NAME
  | s_NAME_EQ
  | s_NAME_EQ_QUOT
  | s_value_start
  | s_value
  | s_value_end
  deriving DecidableEq, Repr

open e_state

/-- The code at the label `_reset`, reached with `state = s_seek`. -/
def reset (ch : Int) : e_state :=
  if LOWER ch = 110 then s_N else s_seek

/-- The `switch (state)` of `multipart_get_name` for the byte `ch` at offset `p`. -/
def step (st : e_state) (value_start : Option Nat) (p : Nat) (ch : Int) : XStep e_state :=
  match st with
  | s_seek => .cont (reset ch) value_start
  | s_N =>
    if ch = 97 ∨ ch = 65 then .cont s_NA value_start else .cont (reset ch) value_start
  | s_NA =>
    if ch = 109 ∨ ch = 77 then .cont s_NAM value_start else .cont (reset ch) value_start
  | s_NAM =>
    if ch = 101 ∨ ch = 69 then .cont s_NAME value_start else .cont (reset ch) value_start
  | s_NAME =>
    if ch = EQUALS then .cont s_NAME_EQ value_start
    else if ch = SP then .cont s_NAME value_start
    else .cont (reset ch) value_start
  | s_NAME_EQ =>
    if ch = QUOTE then .cont s_value_start value_start
    else if ch = SP then .cont s_NAME_EQ value_start
    else .cont (reset ch) value_start
  | s_value_start =>
    if ch ≠ QUOTE then .cont s_value (some p)
    else .done (.found p 0)
  | s_value =>
    if ch ≠ QUOTE then .cont s_value value_start
    else
      match value_start with
      | some v => .done (.found v (p - v))
      | none => .done .undefined
  | s_NAME_EQ_QUOT => .done .undefined
  | s_value_end => .done .undefined

/-- The `for` loop of `multipart_get_name` from offset `p`; the end of the
string reaches `return NULL`. -/
def loop (st : e_state) (value_start : Option Nat) (p : Nat) : List Int → Extract
  | [] => .not_found
  | ch :: rest =>
    match step st value_start p ch with
    | .cont st1 v1 => loop st1 v1 (p + 1) rest
    | .done r => r

end multipart_get_name

/-- The function `multipart_get_name` on the string `str` (of length `len`). -/
def multipart_get_name (str : List Int) : Extract :=
  multipart_get_name.loop .s_seek none 0 str

namespace multipart_get_filename

/-- The local enumeration `e_state` of `multipart_get_filename`. -/
inductive e_state where
  | s_F
  | s_FI
  | s_FIL
  | s_FILE
  | s_FILEN
  | s_FILENA
  | s_FILENAM
  | s_FILENAME
  | s_FILENAME_EQ
  | s_FILENAME_EQ_QUOT
  | s_value_start
  | s_value
  deriving DecidableEq, Repr

open e_state

/-- The code at the label `_reset`, reached with `state = s_F`. -/
def reset (ch : Int) : e_state :=
  if LOWER ch = 102 then s_FI else s_F

/-- The body of `case s_value`, also reached by falling through from
`case s_value_start`. -/
def case_value (value_start : Option Nat) (p : Nat) (ch : Int) : XStep e_state :=
  if ch ≠ QUOTE then .cont s_value value_start
  else
    match value_start with
    | some v => .done (.found v (p - v))
    | none => .done .undefined

/-- The `switch (state)` of `multipart_get_filename` for the byte `ch` at offset `p`. -/
def step (st : e_state) (value_start : Option Nat) (p : Nat) (ch : Int) : XStep e_state :=
  match st with
  | s_F => .cont (reset ch) value_start
  | s_FI =>
    if ch = 105 ∨ ch = 73 then .cont s_FIL value_start else .cont (reset ch) value_start
  | s_FIL =>
    if ch = 108 ∨ ch = 76 then .cont s_FILE value_start else .cont (reset ch) value_start
  | s_FILE =>
    if ch = 101 ∨ ch = 69 then .cont s_FILEN value_start else .cont (reset ch) value_start
  | s_FILEN =>
    if ch = 110 ∨ ch = 78 then .cont s_FILENA value_start else .cont (reset ch) value_start
  | s_FILENA =>
    if ch = 97 ∨ ch = 65 then .cont s_FILENAM value_start else .cont (reset ch) value_start
  | s_FILENAM =>
    if ch = 109 ∨ ch = 77 then .cont s_FILENAME value_start else .cont (reset ch) value_start
  | s_FILENAME =>
    if ch = 101 ∨ ch = 69 then .cont s_FILENAME_EQ value_start else .cont (reset ch) value_start
  | s_FILENAME_EQ =>
    if ch = EQUALS then .cont s_FILENAME_EQ_QUOT value_start
    else if ch = SP then .cont s_FILENAME_EQ value_start
    else .cont (reset ch) value_start
  | s_FILENAME_EQ_QUOT =>
    if ch = QUOTE then .cont s_value_start value_start
    else if ch = SP then .cont s_FILENAME_EQ_QUOT value_start
    else .cont (reset ch) value_start
  | s_value_start => case_value (some p) p ch
  | s_value => case_value value_start p ch

/-- The `for` loop of `multipart_get_filename` from offset `p`; the end of the
string reaches `return NULL`. -/
def loop (st : e_state) (value_start : Option Nat) (p : Nat) : List Int → Extract
  | [] => .not_found
  | ch :: rest =>
    match step st value_start p ch with
    | .cont st1 v1 => loop st1 v1 (p + 1) rest
    | .done r => r

end multipart_get_filename

/-- The function `multipart_get_filename` on the string `str` (of length `len`). -/
def multipart_get_filename (str : List Int) : Extract :=
  multipart_get_filename.loop .s_F none 0 str

/-! ## Reference definition of the extractors

These definitions follow the words of the specification, not the code: the
pattern `P` is the keyword compared without regard to case, zero or more
spaces, `=`, zero or more spaces and an opening `"`. -/

/-- The keyword `name`, in lower case. -/
def kw_name : List Int := [110, 97, 109, 101]

/-- The keyword `filename`, in lower case. -/
def kw_filename : List Int := [102, 105, 108, 101, 110, 97, 109, 101]

/-- Whether `c` is the lower-case keyword letter `k` or its upper-case form. -/
def eq_ignore_case (c k : Int) : Bool := decide (c = k) || decide (c = k - 32)

/-- Zero or more spaces, then `"`, at the head of the string: the number of
bytes this takes. -/
def ref_quote : List Int → Option Nat
  | [] => none
  | c :: t =>
    if c = QUOTE then some 1
    else if c = SP then (ref_quote t).map (· + 1)
    else none

/-- Zero or more spaces, `=`, zero or more spaces, then `"`, at the head of the
string: the number of bytes this takes. -/
def ref_assign : List Int → Option Nat
  | [] => none
  | c :: t =>
    if c = EQUALS then (ref_quote t).map (· + 1)
    else if c = SP then (ref_assign t).map (· + 1)
    else none

/-- An occurrence of the pattern for the keyword `K` at the head of the string:
the number of bytes it takes, up to and including the opening quote. -/
def ref_pattern : List Int → List Int → Option Nat
  | [], s => ref_assign s
  | _ :: _, [] => none
  | k :: K, c :: t =>
    if eq_ignore_case c k then (ref_pattern K t).map (· + 1) else none

/-- The leftmost occurrence of the pattern for `K` in the string: the offset just
after its opening quote. -/
def ref_leftmost (K : List Int) : List Int → Option Nat
  | [] => none
  | c :: t =>
    match ref_pattern K (c :: t) with
    | some n => some n
    | none => (ref_leftmost K t).map (· + 1)

/-- The distance to the next `"`. -/
def ref_next_quote : List Int → Option Nat
  | [] => none
  | c :: t => if c = QUOTE then some 0 else (ref_next_quote t).map (· + 1)

/-- The reference extractor for the keyword `K`: found exactly when the leftmost
occurrence of the pattern is followed by a further `"`; the value then starts
just after the opening quote and runs up to the next `"`. -/
def ref_extract (K : List Int) (s : List Int) : Extract :=
  match ref_leftmost K s with
  | none => .not_found
  | some o =>
    match ref_next_quote (s.drop o) with
    | none => .not_found
    | some l => .found o l

/-! ## Well-formed messages -/

/-- The delimiter that ends a body: CRLF, two dashes and the boundary. -/
def delimiter (b : List Int) : List Int := CR :: LF :: DASH :: DASH :: b

/-- A header line `name ":" spaces value CRLF`. -/
structure Header where
  name : List Int
  spaces : Nat
  value : List Int

/-- A header field name: an ASCII letter followed by letters or `-`. -/
def is_field_name : List Int → Bool
  | [] => false
  | c :: t => is_letter c && t.all (fun x => is_letter x || decide (x = DASH))

/-- A header value: not empty, first byte in `0x21 .. 0x7F`, no CR. -/
def is_field_value : List Int → Bool
  | [] => false
  | c :: t => decide (33 ≤ c) && decide (c ≤ 127) && (c :: t).all (fun x => decide (x ≠ CR))

/-- The bytes of a header line. -/
def Header.line (h : Header) : List Int :=
  h.name ++ COLON :: (List.replicate h.spaces SP ++ (h.value ++ [CR, LF]))

/-- A well-formed header line. -/
def Header.wf (h : Header) : Bool := is_field_name h.name && is_field_value h.value

/-- A body part: its header lines and its body. -/
structure Part where
  headers : List Header
  body : List Int

/-- The header lines of a part, one after the other. -/
def header_lines : List Header → List Int
  | [] => []
  | h :: hs => h.line ++ header_lines hs

/-- The bytes of a part: header lines, CRLF, body. -/
def Part.bytes (pt : Part) : List Int :=
  header_lines pt.headers ++ CR :: LF :: pt.body

/-- A well-formed part for the boundary `b`: one or more well-formed header
lines, and a body that does not contain CRLF `--` `b`. -/
def Part.wf (b : List Int) (pt : Part) : Prop :=
  pt.headers ≠ [] ∧ (∀ h ∈ pt.headers, h.wf = true) ∧ ¬ delimiter b <:+: pt.body

/-- What follows the opening `--` `b` of a message: for each part CRLF, the
part, CRLF `--` `b`; then the closing `--`. -/
def parts_bytes (b : List Int) : List Part → List Int
  | [] => [DASH, DASH]
  | pt :: pts => CR :: LF :: (pt.bytes ++ (delimiter b ++ parts_bytes b pts))

/-- The message `--` `b` CRLF part₁ CRLF `--` `b` CRLF part₂ … CRLF `--` `b` `--`. -/
def message (b : List Int) (parts : List Part) : List Int :=
  DASH :: DASH :: (b ++ parts_bytes b parts)

/-- A callback invocation with the bytes it was handed instead of their span;
`none` when the span does not lie inside the buffer. -/
inductive Call where
  | on_boundary_begin
  | on_header_field (s : Option (List Int))
  | on_header_value (s : Option (List Int))
  | on_headers_complete
  | on_body (s : Option (List Int))
  | on_body_parts_complete
  deriving DecidableEq, Repr

/-- The bytes of the span `(off, length)` of the buffer `data`. -/
def span (data : List Int) (off : Int) (length : Nat) : Option (List Int) :=
  if 0 ≤ off ∧ off.toNat + length ≤ data.length then
    some ((data.drop off.toNat).take length)
  else none

/-- The invocation `e` made on the buffer `data`, with the bytes of its span. -/
def Event.call (data : List Int) : Event → Call
  | .on_boundary_begin => .on_boundary_begin
  | .on_header_field off n => .on_header_field (span data off n)
  | .on_header_value off n => .on_header_value (span data off n)
  | .on_headers_complete => .on_headers_complete
  | .on_body off n => .on_body (span data off n)
  | .on_body_parts_complete => .on_body_parts_complete

/-- The end of the span of an invocation (0 for a callback without a span). -/
def Event.span_end : Event → Int
  | .on_header_field off n => off + n
  | .on_header_value off n => off + n
  | .on_body off n => off + n
  | _ => 0

/-- The invocations a list of header lines calls for. -/
def header_calls : List Header → List Call
  | [] => []
  | h :: hs => .on_header_field (some h.name) :: .on_header_value (some h.value) :: header_calls hs

/-- The invocations a list of parts calls for, and the final one. -/
def parts_calls : List Part → List Call
  | [] => [.on_body_parts_complete]
  | pt :: pts =>
    .on_boundary_begin :: (header_calls pt.headers ++
      (.on_headers_complete :: .on_body (some pt.body) :: parts_calls pts))

/-- The spans of the invocations for header lines that start at offset `p`. -/
def header_events (p : Nat) : List Header → List Event
  | [] => []
  | h :: hs =>
    .on_header_field (p : Nat) h.name.length ::
      .on_header_value ((p + h.name.length + 1 + h.spaces : Nat) : Int) h.value.length ::
      header_events (p + h.line.length) hs

/-- The spans of the invocations for `parts_bytes b parts` placed at offset `p`. -/
def parts_events (b : List Int) (p : Nat) : List Part → List Event
  | [] => [.on_body_parts_complete]
  | pt :: pts =>
    .on_boundary_begin :: (header_events (p + 2) pt.headers ++
      (.on_headers_complete ::
        .on_body ((p + 2 + (header_lines pt.headers).length + 2 : Nat) : Int) pt.body.length ::
        parts_events b (p + 2 + pt.bytes.length + (delimiter b).length) pts))

/-- All six parsing callbacks are set and return 0 whenever they are invoked. -/
structure accepts_all (settings : multipart_parser_settings) : Prop where
  boundary_begin : ∃ cb, settings.on_boundary_begin = some cb ∧ ∀ tr, cb tr = 0
  header_field : ∃ cb, settings.on_header_field = some cb ∧ ∀ tr off n, cb tr off n = 0
  header_value : ∃ cb, settings.on_header_value = some cb ∧ ∀ tr off n, cb tr off n = 0
  headers_complete : ∃ cb, settings.on_headers_complete = some cb ∧ ∀ tr, cb tr = 0
  body : ∃ cb, settings.on_body = some cb ∧ ∀ tr off n, cb tr off n = 0
  body_parts_complete : ∃ cb, settings.on_body_parts_complete = some cb ∧ ∀ tr, cb tr = 0

/-- The settings whose six parsing callbacks always return 0, except that
`on_body_parts_complete` returns `r`. -/
def settings_returning (r : Int) : multipart_parser_settings :=
  { on_boundary_begin := some (fun _ => 0), on_header_field := some (fun _ _ _ => 0),
    on_header_value := some (fun _ _ _ => 0), on_headers_complete := some (fun _ => 0),
    on_body := some (fun _ _ _ => 0), on_body_parts_complete := some (fun _ => r),
    on_debug := none }

/-- A parser structure as a caller sets it up for the boundary `b` before
`multipart_parser_init`: the other fields hold what they happen to hold. -/
def parser_for (b : List Int) : multipart_parser_t :=
  { state := s_header_value_lws, nread := 7, multipart_errno := 0, data := 0,
    boundary := b, boundary_len := b.length }

/-- The frame with parser fields `P`, except for the state `st` and `nread = n`,
and with the given locals and trace. -/
def mkF (P : multipart_parser_t) (st : state) (n : Nat) (body_start body_end : Option Nat)
    (tr : List Event) : Frame :=
  { parser := { P with state := st, nread := n }, body_start := body_start,
    body_end := body_end, trace := tr }

/-- The bounds that hold while the loop is at offset `p`: the local pointers and
the spans handed to callbacks do not reach beyond `p`, and
`on_body_parts_complete` has not been invoked. -/
def Frame.inv (f : Frame) (p : Nat) : Prop :=
  (∀ v, f.body_start = some v → v ≤ p) ∧ (∀ v, f.body_end = some v → v ≤ p) ∧
    (∀ e ∈ f.trace, e.span_end ≤ p ∧ e ≠ .on_body_parts_complete)

/-- The frame of the body scanner when the last `j` bytes read are the first `j`
bytes of the delimiter (`j = 0`: no candidate, state `s_body_part`); from `j = 4`
on, `nread` counts the boundary bytes matched. -/
def scanF (P : multipart_parser_t) (n : Nat) (bs : Nat) (be : Option Nat) (tr : List Event) :
    Nat → Frame
  | 0 => mkF P s_body_part n (some bs) be tr
  | 1 => mkF P s_body_part_boundary n (some bs) be tr
  | 2 => mkF P s_body_part_boundary_dash n (some bs) be tr
  | 3 => mkF P s_body_part_boundary_dash_dash n (some bs) be tr
  | k + 4 => mkF P s_body_part_boundary_compare k (some bs) be tr

/-- The frame in which the delimiter that follows the body `c`, scanned from
offset `p` by the frame `f`, has just been matched in full. -/
def Frame.matched (f : Frame) (p : Nat) (c : List Int) : Frame :=
  mkF f.parser s_body_part_boundary_compare f.parser.boundary.length (some p)
    (some (p + c.length)) f.trace

/-- The result of the reference extractor on a string `t` that starts at offset
`p`, when the occurrence of the pattern ends `n` bytes into `t`. -/
def ref_value (p : Nat) (t : List Int) (n : Nat) : Extract :=
  match ref_next_quote (t.drop n) with
  | none => .not_found
  | some l => .found (p + n) l

/-- Two bytes that are equal, or are the two cases of one ASCII letter. -/
def same_up_to_case (c d : Int) : Prop :=
  c = d ∨ (65 ≤ c ∧ c ≤ 90 ∧ d = c + 32) ∨ (97 ≤ c ∧ c ≤ 122 ∧ d = c - 32)

instance (c d : Int) : Decidable (same_up_to_case c d) := by
  unfold same_up_to_case
  infer_instance

/-- The string `s` begins with an occurrence, `n` bytes long, of the pattern for
the keyword `K`: the keyword without regard to case, zero or more spaces, `=`,
zero or more spaces, `"`. -/
def starts_with_pattern (K s : List Int) (n : Nat) : Prop :=
  ∃ (k : List Int) (a b : Nat) (rest : List Int),
    s = k ++ (List.replicate a SP ++ EQUALS :: (List.replicate b SP ++ QUOTE :: rest)) ∧
      List.Forall₂ (fun c x => eq_ignore_case c x = true) k K ∧ n = K.length + a + 1 + b + 1

/-- The value the callback for the invocation `e` returns when the invocations
`tr` precede it; `none` when that callback is not set. -/
def multipart_parser_settings.response (settings : multipart_parser_settings)
    (tr : List Event) : Event → Option Int
  | .on_boundary_begin => settings.on_boundary_begin.map (fun cb => cb tr)
  | .on_header_field off n => settings.on_header_field.map (fun cb => cb tr off n)
  | .on_header_value off n => settings.on_header_value.map (fun cb => cb tr off n)
  | .on_headers_complete => settings.on_headers_complete.map (fun cb => cb tr)
  | .on_body off n => settings.on_body.map (fun cb => cb tr off n)
  | .on_body_parts_complete => settings.on_body_parts_complete.map (fun cb => cb tr)

/-- Every callback invocation recorded in `tr` returned 0. -/
def all_accepted (settings : multipart_parser_settings) (tr : List Event) : Prop :=
  ∀ (i : Nat) (e : Event), tr[i]? = some e → settings.response (tr.take i) e = some 0

/-- The states of the boundary-confirmation chain of the body scanner. -/
def in_candidate : state → Bool
  | s_body_part_boundary => true
  | s_body_part_boundary_dash => true
  | s_body_part_boundary_dash_dash => true
  | s_body_part_boundary_compare => true
  | _ => false

/-- While a boundary candidate is being confirmed, `body_end` is not before
`body_start`. -/
def Frame.ordered (f : Frame) : Prop :=
  in_candidate f.parser.state = true →
    ∀ bs be, f.body_start = some bs → f.body_end = some be → bs ≤ be

/-- The frame a pass ends with, whatever its outcome. -/
def Step.frame : Step → Frame
  | .cont f => f
  | .ret _ f => f
  | .ub f => f

/-- The parser structures that can arise: one set up by `multipart_parser_init`,
or the one a call of `multipart_parser_execute` leaves behind when it was given
a parser that can arise (any settings, any buffer). -/
inductive reachable : multipart_parser_t → Prop where
  | init (P : multipart_parser_t) : reachable (multipart_parser_init P)
  | call (P : multipart_parser_t) (settings : multipart_parser_settings) (data : List Int) :
      reachable P → reachable (multipart_parser_execute P settings data).parser

/-- The values the local state of `multipart_get_name` can take: the initial
`s_seek`, and any state a pass of the loop continues with. -/
inductive multipart_get_name.reachable : multipart_get_name.e_state → Prop where
  | start : multipart_get_name.reachable .s_seek
  | pass (st st1 : multipart_get_name.e_state) (vs vs1 : Option Nat) (p : Nat) (ch : Int) :
      multipart_get_name.reachable st → multipart_get_name.step st vs p ch = .cont st1 vs1 →
      multipart_get_name.reachable st1

/-- The value of an enumerator of `enum state`, as stored in the
`unsigned char state` field. -/
def state.code : state → Nat
  | s_start => 0
  | s_start_dash => 1
  | s_boundary => 2
  | s_boundary_cr => 3
  | s_boundary_almost_done => 4
  | s_header_field_start => 5
  | s_header_field => 6
  | s_header_value_discard_ws => 7
  | s_header_value => 8
  | s_header_value_lws => 9
  | s_header_almost_done => 10
  | s_headers_almost_done => 11
  | s_headers_done => 12
  | s_body_part_start => 13
  | s_body_part => 14
  | s_body_part_boundary => 15
  | s_body_part_boundary_dash => 16
  | s_body_part_boundary_dash_dash => 17
  | s_body_part_boundary_compare => 18

/-- What the loops of the extractors need in order not to reach
`default: UNREACHABLE` or to use `value_start` before it is set, for
`multipart_get_name`. -/
def multipart_get_name.safe (st : multipart_get_name.e_state) (vs : Option Nat) : Prop :=
  st ≠ .s_NAME_EQ_QUOT ∧ st ≠ .s_value_end ∧ (st = .s_value → vs ≠ none)

/-- In `multipart_get_filename` every state has a case; what is needed is that
`value_start` is set in state `s_value`. -/
def multipart_get_filename.safe (st : multipart_get_filename.e_state) (vs : Option Nat) :
    Prop :=
  st = .s_value → vs ≠ none

/-- The settings in which each absent parsing callback is replaced by a function
that does nothing and returns 0; `on_debug`, which is never invoked, is left as
it is. -/
def fill_absent (settings : multipart_parser_settings) : multipart_parser_settings :=
  { on_boundary_begin := some (settings.on_boundary_begin.getD (fun _ => 0)),
    on_header_field := some (settings.on_header_field.getD (fun _ _ _ => 0)),
    on_header_value := some (settings.on_header_value.getD (fun _ _ _ => 0)),
    on_headers_complete := some (settings.on_headers_complete.getD (fun _ => 0)),
    on_body := some (settings.on_body.getD (fun _ _ _ => 0)),
    on_body_parts_complete := some (settings.on_body_parts_complete.getD (fun _ => 0)),
    on_debug := settings.on_debug }

/-- The header value of the comment on `multipart_get_filename` in the header
file, `form-data; name="file1"; filename="我a私aaaa\"xxx\"abc"`, in UTF-8. -/
def doc_filename_input : List Int :=
  bytes "form-data; name=\"file1\"; filename=\"" ++ [230, 136, 145] ++ bytes "a" ++
    [231, 167, 129] ++ bytes "aaaa\\\"xxx\\\"abc\""

/-- The result that comment documents: `我a私aaaa"xxx"abc`, in UTF-8. -/
def doc_filename_result : List Int :=
  [230, 136, 145] ++ bytes "a" ++ [231, 167, 129] ++ bytes "aaaa\"xxx\"abc"

/-! ## Basic facts about the loop -/

theorem incr64_of_lt (n : Nat) (h : n + 1 < 2 ^ 64) : incr64 n = n + 1 := by
  unfold incr64
  exact Nat.mod_eq_of_lt h

theorem getElem?_mid (pre r : List Int) (x : Int) : (pre ++ x :: r)[pre.length]? = some x := by
  rw [List.getElem?_append_right (Nat.le_refl _)]
  simp

theorem entry_init (P : multipart_parser_t) :
    Frame.entry (multipart_parser_init P) = mkF P s_start P.nread none none [] := rfl

theorem mkF_self (f : Frame) :
    mkF f.parser f.parser.state f.parser.nread f.body_start f.body_end f.trace = f := rfl

theorem run_nil (settings : multipart_parser_settings) (f : Frame) (p : Nat) :
    run settings f p [] = { ret := some (-1), pos := p, parser := f.parser, trace := f.trace } :=
  rfl

theorem run_cons (settings : multipart_parser_settings) (f : Frame) (p : Nat) (ch : Int)
    (rest : List Int) :
    run settings f p (ch :: rest) =
      match step settings f p ch with
      | .cont f1 => run settings f1 (p + 1) rest
      | .ret r f1 => { ret := some r, pos := p, parser := f1.parser, trace := f1.trace }
      | .ub f1 => { ret := none, pos := p, parser := f1.parser, trace := f1.trace } := rfl

theorem run_of_cont (settings : multipart_parser_settings) (f f1 : Frame) (p : Nat) (ch : Int)
    (rest : List Int) (h : step settings f p ch = .cont f1) :
    run settings f p (ch :: rest) = run settings f1 (p + 1) rest := by
  rw [run_cons, h]

theorem run_of_ret (settings : multipart_parser_settings) (f f1 : Frame) (p : Nat) (ch r : Int)
    (rest : List Int) (h : step settings f p ch = .ret r f1) :
    run settings f p (ch :: rest) =
      { ret := some r, pos := p, parser := f1.parser, trace := f1.trace } := by
  rw [run_cons, h]

/-- The two dashes that open a message, read by a parser in state `s_start`. -/
theorem run_start_dashes (settings : multipart_parser_settings) (P : multipart_parser_t)
    (n : Nat) (bs be : Option Nat) (tr : List Event) (p : Nat) (rest : List Int) :
    run settings (mkF P s_start n bs be tr) p (DASH :: DASH :: rest) =
      run settings (mkF P s_boundary 0 bs be tr) (p + 1 + 1) rest := by
  rw [run_of_cont settings _ (mkF P s_start_dash n bs be tr) p DASH _ (by simp [step, mkF, Frame.goto]),
    run_of_cont settings _ (mkF P s_boundary 0 bs be tr) (p + 1) DASH _
      (by simp [step, mkF, Frame.goto, Frame.set_nread])]

/-- Matching a stretch `r` of the boundary in state `s_boundary`. -/
theorem run_boundary (settings : multipart_parser_settings) (P : multipart_parser_t)
    (bs be : Option Nat) (tr : List Event) (rest post : List Int) :
    ∀ (r pre : List Int) (p : Nat), P.boundary = pre ++ (r ++ post) →
      pre.length + r.length ≤ P.boundary_len → P.boundary_len < 2 ^ 64 →
      run settings (mkF P s_boundary pre.length bs be tr) p (r ++ rest) =
        run settings (mkF P s_boundary (pre.length + r.length) bs be tr) (p + r.length) rest := by
  intro r
  induction r with
  | nil => intro pre p _ _ _; simp
  | cons x r ih =>
    intro pre p hb hl h64
    have h1 : step settings (mkF P s_boundary pre.length bs be tr) p x =
        .cont (mkF P s_boundary (pre.length + 1) bs be tr) := by
      have hi : incr64 pre.length = pre.length + 1 := by
        apply incr64_of_lt; simp at hl; omega
      have hg := getElem?_mid pre (r ++ post) x
      have hlt : pre.length < P.boundary_len := by simp at hl; omega
      simp only [List.cons_append] at hb
      simp only [step, mkF, hb, hlt, Frame.set_nread, hi, hg]
      simp
    have h2 := ih (pre ++ [x]) (p + 1) (by simpa using hb) (by simp at hl ⊢; omega) h64
    simp only [List.length_append, List.length_singleton] at h2
    simp only [List.cons_append, run_cons, h1, h2, List.length_cons]
    have e1 : pre.length + 1 + r.length = pre.length + (r.length + 1) := by omega
    have e2 : p + 1 + r.length = p + (r.length + 1) := by omega
    rw [e1, e2]

/-! ## Opening boundary and preamble -/

/-- C7: on a freshly initialised parser, an input `--` followed by the first `i`
bytes of the boundary and a byte that differs from the boundary's byte `i`
returns -1 at that byte (offset `2 + i`), with no callback invoked; the result
does not depend on the tail `t`, nor on the settings. -/
theorem mismatched_opening_boundary (P : multipart_parser_t)
    (settings : multipart_parser_settings) (b : List Int) (i : Nat) (c : Int) (t : List Int)
    (hb : P.boundary = b) (hl : P.boundary_len = b.length) (h64 : b.length < 2 ^ 64)
    (hi : i < b.length) (hc : b[i]? ≠ some c) :
    multipart_parser_execute (multipart_parser_init P) settings
        (DASH :: DASH :: (b.take i ++ c :: t)) =
      { ret := some (-1), pos := 2 + i,
        parser := { P with state := s_boundary, nread := i + 1 }, trace := [] } := by
  have hlen : (b.take i).length = i := by simp; omega
  have hsplit : P.boundary = [] ++ (b.take i ++ b.drop i) := by simp [hb]
  have h1 := run_boundary settings P none none [] (c :: t) (b.drop i) (b.take i) [] (0 + 1 + 1)
    hsplit (by simp only [List.length_nil, hlen, hl]; omega) (by omega)
  simp only [List.length_nil, Nat.zero_add, hlen] at h1
  obtain ⟨x, hx⟩ : ∃ x, b[i]? = some x := ⟨b[i], by simp [hi]⟩
  have hne : c ≠ x := by
    intro h; apply hc; rw [hx, h]
  have h2 : step settings (mkF P s_boundary i none none []) (1 + 1 + i) c =
      .ret (-1) (mkF P s_boundary (i + 1) none none []) := by
    have hinc : incr64 i = i + 1 := incr64_of_lt i (by omega)
    have hlt : i < P.boundary_len := by omega
    simp only [step, mkF, hlt, hb, hx, Frame.set_nread, hinc]
    simp [hne]
  unfold multipart_parser_execute
  rw [entry_init, run_start_dashes, h1, run_of_ret settings _ _ _ _ _ _ h2]
  simp [mkF]

/-- C7, witness: boundary `boundary`, input `--boundarYY`. -/
theorem mismatched_opening_boundary_witness :
    multipart_parser_execute (multipart_parser_init (parser_for (bytes "boundary")))
        multipart_parser_settings_init (bytes "--boundarYY") =
      { ret := some (-1), pos := 9,
        parser := { parser_for (bytes "boundary") with state := s_boundary, nread := 8 },
        trace := [] } :=
  mismatched_opening_boundary (parser_for (bytes "boundary")) multipart_parser_settings_init
    (bytes "boundary") 7 89 [89] rfl rfl (by decide) (by decide) (by decide)

/-- C9, as stated, fails: with boundary `B` the input `x--B--` is not rejected;
the byte `x` is skipped, `on_body_parts_complete` is invoked and the call
returns what it returns, here 0. -/
theorem strict_preamble_counterexample :
    multipart_parser_execute (multipart_parser_init (parser_for (bytes "B")))
        (settings_returning 0) (bytes "x--B--") =
      { ret := some 0, pos := 5,
        parser := { parser_for (bytes "B") with state := s_boundary_almost_done, nread := 1 },
        trace := [.on_body_parts_complete] } := by
  decide

/-- C9, amended: on a freshly initialised parser a first byte other than `-` is
skipped (the loop goes on with the next byte, the parser still in state
`s_start` and no callback invoked), and a first byte `-` followed by a byte
other than `-` returns -1 at that second byte without invoking any callback,
whatever follows. -/
theorem preamble (P : multipart_parser_t) (settings : multipart_parser_settings) (c : Int)
    (t : List Int) (hc : c ≠ DASH) :
    multipart_parser_execute (multipart_parser_init P) settings (c :: t) =
        run settings (Frame.entry (multipart_parser_init P)) 1 t ∧
      multipart_parser_execute (multipart_parser_init P) settings (DASH :: c :: t) =
        { ret := some (-1), pos := 1, parser := { P with state := s_start_dash }, trace := [] } := by
  constructor
  · unfold multipart_parser_execute
    rw [run_of_cont settings _ (Frame.entry (multipart_parser_init P)) 0 c t
      (by simp [step, Frame.entry, multipart_parser_init, hc])]
  · unfold multipart_parser_execute
    rw [entry_init,
      run_of_cont settings _ (mkF P s_start_dash P.nread none none []) 0 DASH _
        (by simp [step, mkF, Frame.goto]),
      run_of_ret settings _ (mkF P s_start_dash P.nread none none []) _ c (-1) t
        (by simp [step, mkF, hc])]
    rfl

/-- C9 amended, witness: the byte `x`, boundary `B`. -/
theorem preamble_witness :
    multipart_parser_execute (multipart_parser_init (parser_for (bytes "B")))
        (settings_returning 0) (120 :: bytes "--B--") =
        run (settings_returning 0) (Frame.entry (multipart_parser_init (parser_for (bytes "B"))))
          1 (bytes "--B--") ∧
      multipart_parser_execute (multipart_parser_init (parser_for (bytes "B")))
        (settings_returning 0) (DASH :: 120 :: bytes "--B--") =
        { ret := some (-1), pos := 1,
          parser := { parser_for (bytes "B") with state := s_start_dash }, trace := [] } :=
  preamble (parser_for (bytes "B")) (settings_returning 0) 120 (bytes "--B--") (by decide)

/-! ## Invariants of the loop -/

theorem Frame.inv_mono (f : Frame) (p : Nat) (h : f.inv p) : f.inv (p + 1) := by
  obtain ⟨h1, h2, h3⟩ := h
  refine ⟨fun v hv => ?_, fun v hv => ?_, fun e he => ⟨?_, (h3 e he).2⟩⟩
  · have := h1 v hv; omega
  · have := h2 v hv; omega
  · have := (h3 e he).1; push_cast; omega

theorem Frame.inv_log (f : Frame) (p : Nat) (e : Event) (h : f.inv p) (h1 : e.span_end ≤ p)
    (h2 : e ≠ .on_body_parts_complete) : (f.log e).inv p := by
  obtain ⟨a, b, c⟩ := h
  refine ⟨a, b, fun x hx => ?_⟩
  simp only [Frame.log, List.mem_append, List.mem_singleton] at hx
  rcases hx with hx | hx
  · exact c x hx
  · subst hx; exact ⟨h1, h2⟩

theorem step_cont_inv (settings : multipart_parser_settings) (f f1 : Frame) (p : Nat) (ch : Int)
    (h : step settings f p ch = .cont f1) (hi : f.inv p) : f1.inv (p + 1) := by
  apply Frame.inv_mono
  rcases f with ⟨⟨st, n, e, d, b, bl⟩, bs, be, tr⟩
  cases st <;>
    simp only [step, case_header_field_start, case_body_part] at h <;>
    (repeat' split at h) <;> (try cases h) <;>
    first
    | exact hi
    | (obtain ⟨h1, h2, h3⟩ := hi
       simp only [Frame.inv, Frame.goto, Frame.log, Frame.set_body_end, Frame.set_nread,
         List.mem_append, List.mem_singleton] at h1 h2 h3 ⊢
       refine ⟨?_, ?_, ?_⟩
       · intro v hv; first | exact h1 v hv | (cases hv; exact Nat.le_refl _)
       · intro v hv; first | exact h2 v hv | (cases hv; exact Nat.le_refl _)
       · intro x hx
         first
         | exact h3 x hx
         | (rcases hx with hx | hx
            · exact h3 x hx
            · subst hx
              refine ⟨?_, by simp⟩
              simp only [Event.span_end]
              first
              | omega
              | (rename_i hbs hbe _ _ _
                 have a1 := h1 _ rfl
                 have a2 := h2 _ rfl
                 omega)))


/-- A pass that returns either returns -1, or is the pass of state
`s_boundary_almost_done` on a dash, which returns what
`on_body_parts_complete` returns; at most one callback is invoked. -/
theorem step_ret_cases (settings : multipart_parser_settings) (f f1 : Frame) (p : Nat)
    (ch r : Int) (h : step settings f p ch = .ret r f1) :
    (r = -1 ∧ (f1.trace = f.trace ∨ ∃ e : Event, f1.trace = f.trace ++ [e] ∧
        e ≠ .on_body_parts_complete ∧ (f.inv p → e.span_end ≤ p))) ∨
      (∃ cb, settings.on_body_parts_complete = some cb ∧ r = cb f.trace ∧
        f1.trace = f.trace ++ [.on_body_parts_complete] ∧ ch = DASH ∧
        f.parser.state = s_boundary_almost_done) := by
  rcases f with ⟨⟨st, n, e, d, b, bl⟩, bs, be, tr⟩
  cases st <;>
    simp only [step, case_header_field_start, case_body_part] at h <;>
    (repeat' split at h) <;> (try cases h) <;>
    first
    | exact Or.inl ⟨rfl, Or.inl rfl⟩
    | (refine Or.inr ⟨_, ?_, rfl, rfl, ?_, rfl⟩ <;> assumption)
    | (refine Or.inl ⟨rfl, Or.inr ⟨_, rfl, by simp, ?_⟩⟩
       intro hi
       obtain ⟨h1, h2, h3⟩ := hi
       simp only [Event.span_end]
       first
       | omega
       | (have a1 := h1 _ rfl
          have a2 := h2 _ rfl
          omega))

/-- A pass that runs into undefined behaviour invokes no callback. -/
theorem step_ub_trace (settings : multipart_parser_settings) (f f1 : Frame) (p : Nat)
    (ch : Int) (h : step settings f p ch = .ub f1) : f1 = f := by
  rcases f with ⟨⟨st, n, e, d, b, bl⟩, bs, be, tr⟩
  cases st <;>
    simp only [step, case_header_field_start, case_body_part] at h <;>
    (repeat' split at h) <;> (try cases h) <;> rfl

theorem entry_inv (parser : multipart_parser_t) : (Frame.entry parser).inv 0 := by
  refine ⟨?_, ?_, ?_⟩ <;> simp [Frame.entry]

/-- Once `on_body_parts_complete` has been invoked the loop has returned: bytes
after the one it stopped at play no part. -/
theorem run_complete (settings : multipart_parser_settings) (t : List Int) :
    ∀ (d : List Int) (f : Frame) (p : Nat), f.inv p →
      Event.on_body_parts_complete ∈ (run settings f p d).trace →
      run settings f p (d ++ t) = run settings f p d ∧
        (run settings f p d).pos < p + d.length ∧
        (∀ e ∈ (run settings f p d).trace, e.span_end ≤ (run settings f p d).pos) ∧
        (run settings f p d).trace.getLast? = some Event.on_body_parts_complete := by
  intro d
  induction d with
  | nil =>
    intro f p hi hm
    rw [run_nil] at hm
    exact absurd rfl (hi.2.2 _ hm).2
  | cons ch rest ih =>
    intro f p hi hm
    rw [List.cons_append, run_cons, run_cons]
    rw [run_cons] at hm
    cases hs : step settings f p ch with
    | cont f1 =>
      rw [hs] at hm
      simp only at hm ⊢
      obtain ⟨a, b, c, e⟩ := ih f1 (p + 1) (step_cont_inv settings f f1 p ch hs hi) hm
      refine ⟨a, ?_, c, e⟩
      simp only [List.length_cons]
      omega
    | ret r f1 =>
      rw [hs] at hm
      simp only at hm ⊢
      refine ⟨trivial, by simp, ?_, ?_⟩
      · intro e he
        rcases step_ret_cases settings f f1 p ch r hs with ⟨-, h1 | ⟨x, h1, -, h2⟩⟩ | ⟨cb, -, -, h1, -⟩
        · rw [h1] at he; exact (hi.2.2 e he).1
        · rw [h1] at he
          simp only [List.mem_append, List.mem_singleton] at he
          rcases he with he | he
          · exact (hi.2.2 e he).1
          · subst he; exact h2 hi
        · rw [h1] at he
          simp only [List.mem_append, List.mem_singleton] at he
          rcases he with he | he
          · exact (hi.2.2 e he).1
          · subst he; simp [Event.span_end]
      · rcases step_ret_cases settings f f1 p ch r hs with ⟨-, h1 | ⟨x, h1, h2, -⟩⟩ | ⟨cb, -, -, h1, -⟩
        · rw [h1] at hm; exact absurd rfl (hi.2.2 _ hm).2
        · rw [h1] at hm
          simp only [List.mem_append, List.mem_singleton] at hm
          rcases hm with hm | hm
          · exact absurd rfl (hi.2.2 _ hm).2
          · exact absurd hm.symm h2
        · rw [h1]; simp
    | ub f1 =>
      rw [hs] at hm
      simp only at hm
      rw [step_ub_trace settings f f1 p ch hs] at hm
      exact absurd rfl (hi.2.2 _ hm).2

/-- C8: when a call on the buffer `d` invokes `on_body_parts_complete`, a call
on `d ++ t` from the same parser gives exactly the same result (return value,
stopping offset, parser structure, callbacks and spans); the call stopped at a
byte of `d`, no span handed to a callback reaches beyond that byte, and
`on_body_parts_complete` is the last callback invoked. -/
theorem trailing_bytes_ignored (parser : multipart_parser_t)
    (settings : multipart_parser_settings) (d t : List Int)
    (h : Event.on_body_parts_complete ∈ (multipart_parser_execute parser settings d).trace) :
    multipart_parser_execute parser settings (d ++ t) =
        multipart_parser_execute parser settings d ∧
      (multipart_parser_execute parser settings d).pos < d.length ∧
      (∀ e ∈ (multipart_parser_execute parser settings d).trace,
        e.span_end ≤ (multipart_parser_execute parser settings d).pos) ∧
      (multipart_parser_execute parser settings d).trace.getLast? =
        some Event.on_body_parts_complete := by
  have := run_complete settings t d (Frame.entry parser) 0 (entry_inv parser) h
  simpa [multipart_parser_execute] using this

/-- C8, witness: boundary `B`, buffer `--B--`, trailing bytes `\r\nepilogue`. -/
theorem trailing_bytes_ignored_witness :
    multipart_parser_execute (multipart_parser_init (parser_for (bytes "B")))
          (settings_returning 0) (bytes "--B--" ++ bytes "\r\nepilogue") =
        multipart_parser_execute (multipart_parser_init (parser_for (bytes "B")))
          (settings_returning 0) (bytes "--B--") ∧
      (multipart_parser_execute (multipart_parser_init (parser_for (bytes "B")))
          (settings_returning 0) (bytes "--B--")).pos < (bytes "--B--").length ∧
      (∀ e ∈ (multipart_parser_execute (multipart_parser_init (parser_for (bytes "B")))
          (settings_returning 0) (bytes "--B--")).trace,
        e.span_end ≤ (multipart_parser_execute (multipart_parser_init (parser_for (bytes "B")))
          (settings_returning 0) (bytes "--B--")).pos) ∧
      (multipart_parser_execute (multipart_parser_init (parser_for (bytes "B")))
          (settings_returning 0) (bytes "--B--")).trace.getLast? =
        some Event.on_body_parts_complete :=
  trailing_bytes_ignored (multipart_parser_init (parser_for (bytes "B"))) (settings_returning 0)
    (bytes "--B--") (bytes "\r\nepilogue") (by decide)

/-- What `multipart_parser_execute` can return: -1, or what
`on_body_parts_complete` returned when it was invoked, as the last callback of
the call, on the second of two dashes in state `s_boundary_almost_done`. -/
theorem run_ret_cases (settings : multipart_parser_settings) :
    ∀ (d : List Int) (f : Frame) (p : Nat) (r : Int), (run settings f p d).ret = some r →
      r = -1 ∨ ∃ cb tr, settings.on_body_parts_complete = some cb ∧ r = cb tr ∧
        (run settings f p d).trace = tr ++ [Event.on_body_parts_complete] := by
  intro d
  induction d with
  | nil =>
    intro f p r h
    rw [run_nil] at h
    simp only [Option.some.injEq] at h
    exact Or.inl h.symm
  | cons ch rest ih =>
    intro f p r h
    rw [run_cons] at h ⊢
    cases hs : step settings f p ch with
    | cont f1 =>
      rw [hs] at h
      exact ih f1 (p + 1) r h
    | ret r1 f1 =>
      rw [hs] at h
      simp only [Option.some.injEq] at h
      subst h
      rcases step_ret_cases settings f f1 p ch r1 hs with ⟨h1, -⟩ | ⟨cb, h1, h2, h3, -⟩
      · exact Or.inl h1
      · exact Or.inr ⟨cb, f.trace, h1, h2, h3⟩
    | ub f1 =>
      rw [hs] at h
      simp at h

/-! ## Return value and callback veto -/

/-- C4, evaluated where the code departs from it: with boundary `B`, on the
complete message `--B\r\nA: b\r\n\r\nhello\r\n--B--` and with an
`on_body_parts_complete` that returns 7, the call returns 7: neither 0 nor the
-1 that the claim gives for every case other than success. -/
theorem execute_returns_callback_value :
    multipart_parser_execute (multipart_parser_init (parser_for (bytes "B")))
        (settings_returning 7) (bytes "--B\r\nA: b\r\n\r\nhello\r\n--B--") =
      { ret := some 7, pos := 24,
        parser := { parser_for (bytes "B") with state := s_boundary_almost_done, nread := 1 },
        trace := [.on_boundary_begin, .on_header_field 5 1, .on_header_value 8 1,
          .on_headers_complete, .on_body 13 5, .on_body_parts_complete] } := by
  decide

/-- C5, evaluated where the code departs from it: with boundary `B` and input
`--B--`, when `on_body_parts_complete` returns `r` the call returns `r` itself,
not -1. -/
theorem veto_of_body_parts_complete (r : Int) :
    multipart_parser_execute (multipart_parser_init (parser_for (bytes "B")))
        (settings_returning r) (bytes "--B--") =
      { ret := some r, pos := 4,
        parser := { parser_for (bytes "B") with state := s_boundary_almost_done, nread := 1 },
        trace := [.on_body_parts_complete] } := by
  rfl

/-! ## Two calls -/

/-- C6, evaluated where the code departs from it: boundary `B`, message
`--B\r\nA: b\r\n\r\nhello\r\n--B--` split inside the body as
`…hel` | `lo\r\n--B--`.  One call on the whole message delivers
`on_body(13, 5)`, the bytes `hello`.  The first of the two calls stops at the end
of its buffer in state `s_body_part`; the second reaches the call of `on_body`
with `body_start` never assigned in that call, which is undefined behaviour:
no `on_body` and no `on_body_parts_complete` is delivered. -/
theorem split_inside_body :
    (multipart_parser_execute (multipart_parser_init (parser_for (bytes "B")))
        (settings_returning 0) (bytes "--B\r\nA: b\r\n\r\nhello\r\n--B--")).trace =
      [.on_boundary_begin, .on_header_field 5 1, .on_header_value 8 1,
        .on_headers_complete, .on_body 13 5, .on_body_parts_complete] ∧
    multipart_parser_execute (multipart_parser_init (parser_for (bytes "B")))
        (settings_returning 0) (bytes "--B\r\nA: b\r\n\r\nhel") =
      { ret := some (-1), pos := 16,
        parser := { parser_for (bytes "B") with state := s_body_part, nread := 1 },
        trace := [.on_boundary_begin, .on_header_field 5 1, .on_header_value 8 1,
          .on_headers_complete] } ∧
    multipart_parser_execute
        (multipart_parser_execute (multipart_parser_init (parser_for (bytes "B")))
          (settings_returning 0) (bytes "--B\r\nA: b\r\n\r\nhel")).parser
        (settings_returning 0) (bytes "lo\r\n--B--") =
      { ret := none, pos := 7,
        parser := { parser_for (bytes "B") with state := s_body_part_boundary_compare, nread := 1 },
        trace := [] } := by
  decide

/-! ## The body scanner -/

theorem delimiter_length (b : List Int) : (delimiter b).length = b.length + 4 := by
  simp [delimiter]

/-- One pass of the body scanner: a CR starts a new candidate, a byte that
continues the candidate advances it, any other byte drops it. -/
theorem step_scan (settings : multipart_parser_settings) (P : multipart_parser_t)
    (hl : P.boundary_len = P.boundary.length) (h64 : P.boundary.length < 2 ^ 64)
    (hcr : CR ∉ P.boundary) (n bs : Nat) (be : Option Nat) (tr : List Event) (j p : Nat)
    (x : Int) (hj : j < (delimiter P.boundary).length) :
    ∃ n1 be1 j1, step settings (scanF P n bs be tr j) p x = .cont (scanF P n1 bs be1 tr j1) ∧
      ((x = CR ∧ j1 = 1 ∧ be1 = some p) ∨
       (x ≠ CR ∧ (delimiter P.boundary)[j]? = some x ∧ 1 ≤ j ∧ j1 = j + 1 ∧ be1 = be) ∨
       (x ≠ CR ∧ ¬ ((delimiter P.boundary)[j]? = some x ∧ 1 ≤ j) ∧ j1 = 0)) := by
  rw [delimiter_length] at hj
  by_cases hx : x = CR
  · -- a CR: new candidate
    subst hx
    match j, hj with
    | 0, _ => exact ⟨n, some p, 1, by simp [step, scanF, mkF, case_body_part, Frame.goto,
        Frame.set_body_end], Or.inl ⟨rfl, rfl, rfl⟩⟩
    | 1, _ => exact ⟨n, some p, 1, by simp [step, scanF, mkF, Frame.goto,
        Frame.set_body_end, CR, LF], Or.inl ⟨rfl, rfl, rfl⟩⟩
    | 2, _ => exact ⟨n, some p, 1, by simp [step, scanF, mkF, Frame.goto,
        Frame.set_body_end, CR, DASH], Or.inl ⟨rfl, rfl, rfl⟩⟩
    | 3, _ => exact ⟨n, some p, 1, by simp [step, scanF, mkF, Frame.goto,
        Frame.set_body_end, CR, DASH], Or.inl ⟨rfl, rfl, rfl⟩⟩
    | k + 4, hk =>
      have hk1 : k < P.boundary.length := by omega
      have hg : P.boundary[k]? = some P.boundary[k] := by simp [hk1]
      have hne : CR ≠ P.boundary[k] := by
        intro h; apply hcr; rw [h]; exact List.getElem_mem _
      refine ⟨incr64 k, some p, 1, ?_, Or.inl ⟨rfl, rfl, rfl⟩⟩
      simp only [step, scanF, mkF, hl, hk1, hg, Frame.goto, Frame.set_body_end, Frame.set_nread]
      simp [hne]
  · match j, hj with
    | 0, _ => exact ⟨n, be, 0, by simp [step, scanF, mkF, case_body_part, hx],
        Or.inr (Or.inr ⟨hx, by simp, rfl⟩)⟩
    | 1, _ =>
      by_cases h : x = LF
      · exact ⟨n, be, 2, by simp [step, scanF, mkF, Frame.goto, h],
          Or.inr (Or.inl ⟨hx, by simp [delimiter, h], by omega, rfl, rfl⟩)⟩
      · exact ⟨n, be, 0, by simp [step, scanF, mkF, Frame.goto, h, hx],
          Or.inr (Or.inr ⟨hx, by simp [delimiter, Ne.symm h], rfl⟩)⟩
    | 2, _ =>
      by_cases h : x = DASH
      · exact ⟨n, be, 3, by simp [step, scanF, mkF, Frame.goto, h],
          Or.inr (Or.inl ⟨hx, by simp [delimiter, h], by omega, rfl, rfl⟩)⟩
      · exact ⟨n, be, 0, by simp [step, scanF, mkF, Frame.goto, h, hx],
          Or.inr (Or.inr ⟨hx, by simp [delimiter, Ne.symm h], rfl⟩)⟩
    | 3, _ =>
      by_cases h : x = DASH
      · exact ⟨n, be, 4, by simp [step, scanF, mkF, Frame.goto, Frame.set_nread, h],
          Or.inr (Or.inl ⟨hx, by simp [delimiter, h], by omega, rfl, rfl⟩)⟩
      · exact ⟨n, be, 0, by simp [step, scanF, mkF, Frame.goto, h, hx],
          Or.inr (Or.inr ⟨hx, by simp [delimiter, Ne.symm h], rfl⟩)⟩
    | k + 4, hk =>
      have hk1 : k < P.boundary.length := by omega
      have hg : P.boundary[k]? = some P.boundary[k] := by simp [hk1]
      have hinc : incr64 k = k + 1 := incr64_of_lt k (by omega)
      by_cases h : x = P.boundary[k]
      · refine ⟨0, be, k + 1 + 4, ?_, Or.inr (Or.inl ⟨hx, ?_, by omega, rfl, rfl⟩)⟩
        · simp only [step, scanF, mkF, hl, hk1, hg, Frame.set_nread, hinc]
          simp [h]
        · simp [delimiter, hg, h]
      · refine ⟨incr64 k, be, 0, ?_, Or.inr (Or.inr ⟨hx, ?_, rfl⟩)⟩
        · simp only [step, scanF, mkF, hl, hk1, hg, Frame.set_nread, Frame.goto]
          simp [h, hx]
        · simp [delimiter, hg, Ne.symm h]

theorem delimiter_getElem_ne_CR (b : List Int) (hcr : CR ∉ b) (j : Nat) (hj : 1 ≤ j)
    (x : Int) (h : (delimiter b)[j]? = some x) : x ≠ CR := by
  match j, hj with
  | 1, _ => simp [delimiter] at h; subst h; decide
  | 2, _ => simp [delimiter] at h; subst h; decide
  | 3, _ => simp [delimiter] at h; subst h; decide
  | k + 4, _ =>
    simp [delimiter] at h
    intro hx
    subst hx
    exact hcr (List.getElem?_mem h)

/-- Reading the rest of the delimiter completes the candidate. -/
theorem run_match (settings : multipart_parser_settings) (P : multipart_parser_t)
    (hl : P.boundary_len = P.boundary.length) (h64 : P.boundary.length < 2 ^ 64)
    (hcr : CR ∉ P.boundary) (bs : Nat) (be : Option Nat) (tr : List Event) (rest : List Int) :
    ∀ (m j n p : Nat), 1 ≤ j → j + m = (delimiter P.boundary).length →
      run settings (scanF P n bs be tr j) p ((delimiter P.boundary).drop j ++ rest) =
        run settings (mkF P s_body_part_boundary_compare P.boundary.length (some bs) be tr)
          (p + m) rest := by
  intro m
  induction m with
  | zero =>
    intro j n p hj hm
    have hd : (delimiter P.boundary).drop j = [] := by
      apply List.drop_eq_nil_of_le; omega
    rw [delimiter_length] at hm
    obtain ⟨k, rfl⟩ : ∃ k, j = k + 4 := ⟨j - 4, by omega⟩
    have hk : k = P.boundary.length := by omega
    subst hk
    simp [hd, scanF]
  | succ m ih =>
    intro j n p hj hm
    have hlt : j < (delimiter P.boundary).length := by omega
    have hd : (delimiter P.boundary).drop j =
        (delimiter P.boundary)[j] :: (delimiter P.boundary).drop (j + 1) :=
      List.drop_eq_getElem_cons hlt
    have hg : (delimiter P.boundary)[j]? = some (delimiter P.boundary)[j] := by simp [hlt]
    have hne := delimiter_getElem_ne_CR P.boundary hcr j hj _ hg
    obtain ⟨n1, be1, j1, hs, hc⟩ :=
      step_scan settings P hl h64 hcr n bs be tr j p (delimiter P.boundary)[j] hlt
    rcases hc with ⟨h1, -⟩ | ⟨-, -, -, h2, h3⟩ | ⟨-, h2, -⟩
    · exact absurd h1 hne
    · subst h2 h3
      rw [hd, List.cons_append, run_of_cont settings _ _ _ _ _ hs,
        ih (j + 1) n1 (p + 1) (by omega) (by omega)]
      congr 1
      omega
    · exact absurd ⟨hg, hj⟩ h2

theorem delimiter_take_lt (b c : List Int) (j : Nat)
    (h : ¬ delimiter b <:+: (delimiter b).take j ++ c) : j < (delimiter b).length := by
  by_contra hj
  apply h
  rw [List.take_of_length_le (by omega)]
  exact (List.prefix_append _ _).isInfix

/-- Scanning a body `c` that does not contain the delimiter, followed by the
delimiter: no callback is invoked, and the scanner ends with the whole boundary
matched and `body_end` at the end of `c`. -/
theorem run_scan (settings : multipart_parser_settings) (P : multipart_parser_t)
    (hl : P.boundary_len = P.boundary.length) (h64 : P.boundary.length < 2 ^ 64)
    (hcr : CR ∉ P.boundary) (bs : Nat) (tr : List Event) (rest : List Int) :
    ∀ (c : List Int) (j n : Nat) (be : Option Nat) (p : Nat), j ≤ p →
      (1 ≤ j → be = some (p - j)) →
      ¬ delimiter P.boundary <:+: (delimiter P.boundary).take j ++ c →
      run settings (scanF P n bs be tr j) p (c ++ (delimiter P.boundary ++ rest)) =
        run settings
          (mkF P s_body_part_boundary_compare P.boundary.length (some bs)
            (some (p + c.length)) tr)
          (p + c.length + (delimiter P.boundary).length) rest := by
  intro c
  induction c with
  | nil =>
    intro j n be p _ _ hno
    have hj := delimiter_take_lt _ _ _ hno
    obtain ⟨n1, be1, j1, hs, hc⟩ := step_scan settings P hl h64 hcr n bs be tr j p CR hj
    rcases hc with ⟨-, h2, h3⟩ | ⟨h1, -⟩ | ⟨h1, -⟩
    · subst h2 h3
      have hd : delimiter P.boundary = CR :: (delimiter P.boundary).drop 1 := by
        simp [delimiter]
      have hm := run_match settings P hl h64 hcr bs (some p) tr rest
        ((delimiter P.boundary).length - 1) 1 n1 (p + 1) (by omega)
        (by rw [delimiter_length]; omega)
      rw [List.nil_append, List.length_nil, Nat.add_zero]
      conv => lhs; rw [hd]
      rw [List.cons_append, run_of_cont settings _ _ _ _ _ hs, hm]
      congr 1
      rw [delimiter_length]
      omega
    · exact absurd rfl h1
    · exact absurd rfl h1
  | cons x c ih =>
    intro j n be p hjp hbe hno
    have hj := delimiter_take_lt _ _ _ hno
    obtain ⟨n1, be1, j1, hs, hc⟩ := step_scan settings P hl h64 hcr n bs be tr j p x hj
    have key : j1 ≤ p + 1 ∧ (1 ≤ j1 → be1 = some (p + 1 - j1)) ∧
        ¬ delimiter P.boundary <:+: (delimiter P.boundary).take j1 ++ c := by
      rcases hc with ⟨h1, h2, h3⟩ | ⟨-, h1, h2, h3, h4⟩ | ⟨-, -, h3⟩
      · subst h1 h2 h3
        refine ⟨by omega, fun _ => by simp, fun h => hno ?_⟩
        have hd : (delimiter P.boundary).take 1 = [CR] := by simp [delimiter]
        rw [hd] at h
        exact h.trans (List.suffix_append _ _).isInfix
      · subst h3 h4
        refine ⟨by omega, fun _ => ?_, fun h => hno ?_⟩
        · rw [hbe h2]; congr 1; omega
        · have hd : (delimiter P.boundary).take (j + 1) = (delimiter P.boundary).take j ++ [x] := by
            rw [List.take_succ, h1]; rfl
          rw [hd, List.append_assoc] at h
          exact h
      · subst h3
        refine ⟨by omega, fun h => absurd h (by omega), fun h => hno ?_⟩
        rw [List.take_zero, List.nil_append] at h
        exact h.trans ((List.suffix_cons x c).trans (List.suffix_append _ _)).isInfix
    rw [List.cons_append, run_of_cont settings _ _ _ _ _ hs, ih j1 n1 be1 (p + 1) key.1 key.2.1 key.2.2]
    simp only [List.length_cons]
    have e1 : p + 1 + c.length = p + (c.length + 1) := by omega
    rw [e1]

theorem step_body_part_start (settings : multipart_parser_settings) (f : Frame) (p : Nat)
    (ch : Int) (hst : f.parser.state = s_body_part_start) :
    step settings f p ch =
      step settings (scanF f.parser f.parser.nread p f.body_end f.trace 0) p ch := by
  rcases f with ⟨⟨st, n, e, d, b, bl⟩, bs, be, tr⟩
  simp only at hst
  subst hst
  simp [step, scanF, mkF, Frame.goto]

theorem run_body_part_start (settings : multipart_parser_settings) (f : Frame) (p : Nat)
    (ch : Int) (rest : List Int) (hst : f.parser.state = s_body_part_start) :
    run settings f p (ch :: rest) =
      run settings (scanF f.parser f.parser.nread p f.body_end f.trace 0) p (ch :: rest) := by
  rw [run_cons, run_cons, step_body_part_start settings f p ch hst]

/-- A body `c` that does not contain the delimiter, then the delimiter, read from
state `s_body_part_start` at offset `p`: no callback is invoked, and the loop
arrives after the delimiter with the boundary matched in full, `body_start = p`
and `body_end = p + |c|`. -/
theorem run_body (settings : multipart_parser_settings) (f : Frame) (p : Nat)
    (c : List Int) (x : Int) (rest : List Int)
    (hst : f.parser.state = s_body_part_start)
    (hl : f.parser.boundary_len = f.parser.boundary.length)
    (h64 : f.parser.boundary.length < 2 ^ 64) (hcr : CR ∉ f.parser.boundary)
    (hc : ¬ delimiter f.parser.boundary <:+: c) :
    run settings f p (c ++ (delimiter f.parser.boundary ++ x :: rest)) =
      run settings (f.matched p c) (p + c.length + (delimiter f.parser.boundary).length)
        (x :: rest) := by
  have hne : c ++ (delimiter f.parser.boundary ++ x :: rest) ≠ [] := by simp [delimiter]
  obtain ⟨ch, w, hw⟩ := List.exists_cons_of_ne_nil hne
  rw [hw, run_body_part_start settings f p ch w hst, ← hw]
  exact run_scan settings f.parser hl h64 hcr p f.trace (x :: rest) c 0 f.parser.nread
    f.body_end p (Nat.zero_le _) (fun h => absurd h (by omega)) (by simpa using hc)

/-- C2: when the loop is in state `s_body_part_start` at offset `p` and the buffer
goes on with a byte string `c` that does not contain CRLF `--` boundary, then
that delimiter, then a byte `x`, the loop reaches `x` without having invoked any
callback, with the boundary matched in full, `body_start = p` and
`body_end = p + |c|`; the pass for `x` then invokes `on_body` once, with the span
`(p, |c|)`, and leaves the body states (to `s_boundary_cr` on CR, to
`s_boundary_almost_done` on `-`, returning -1 otherwise). -/
theorem body_delivered_verbatim (settings : multipart_parser_settings) (f : Frame) (p : Nat)
    (c : List Int) (x : Int) (rest : List Int)
    (hst : f.parser.state = s_body_part_start)
    (hl : f.parser.boundary_len = f.parser.boundary.length)
    (h64 : f.parser.boundary.length < 2 ^ 64) (hcr : CR ∉ f.parser.boundary)
    (hc : ¬ delimiter f.parser.boundary <:+: c) :
    run settings f p (c ++ (delimiter f.parser.boundary ++ x :: rest)) =
        run settings (f.matched p c) (p + c.length + (delimiter f.parser.boundary).length)
          (x :: rest) ∧
      step settings (f.matched p c) (p + c.length + (delimiter f.parser.boundary).length) x =
        match settings.on_body with
        | none => .ub (f.matched p c)
        | some cb =>
          if cb f.trace p c.length = 0 then
            if x = CR then
              .cont (((f.matched p c).log (.on_body p c.length)).goto s_boundary_cr)
            else if x = DASH then
              .cont (((f.matched p c).log (.on_body p c.length)).goto s_boundary_almost_done)
            else .ret (-1) ((f.matched p c).log (.on_body p c.length))
          else .ret (-1) ((f.matched p c).log (.on_body p c.length)) := by
  refine ⟨run_body settings f p c x rest hst hl h64 hcr hc, ?_⟩
  simp only [step, Frame.matched, mkF, hl, Nat.lt_irrefl, ↓reduceIte]
  cases settings.on_body with
  | none => rfl
  | some cb => simp

/-- C2, witness: boundary `B`, body bytes `a\r\n--Xb` followed by `\r\n--B--`. -/
theorem body_delivered_verbatim_witness :
    run (settings_returning 0)
        (mkF (parser_for (bytes "B")) s_body_part_start 0 none none []) 0
        (bytes "a\r\n--Xb" ++ (delimiter (bytes "B") ++ 45 :: [45])) =
      run (settings_returning 0)
        ((mkF (parser_for (bytes "B")) s_body_part_start 0 none none []).matched 0
          (bytes "a\r\n--Xb")) (0 + 7 + 5) (45 :: [45]) ∧
    step (settings_returning 0)
        ((mkF (parser_for (bytes "B")) s_body_part_start 0 none none []).matched 0
          (bytes "a\r\n--Xb")) (0 + 7 + 5) 45 =
      .cont ((((mkF (parser_for (bytes "B")) s_body_part_start 0 none none []).matched 0
          (bytes "a\r\n--Xb")).log (.on_body 0 7)).goto s_boundary_almost_done) ∧
    (multipart_parser_execute { parser_for (bytes "B") with state := s_body_part_start }
        (settings_returning 0) (bytes "a\r\n--Xb\r\n--B--")).trace.map
        (Event.call (bytes "a\r\n--Xb\r\n--B--")) =
      [.on_body (some (bytes "a\r\n--Xb")), .on_body_parts_complete] :=
  ⟨(body_delivered_verbatim (settings_returning 0)
      (mkF (parser_for (bytes "B")) s_body_part_start 0 none none []) 0 (bytes "a\r\n--Xb") 45
      [45] rfl rfl (by decide) (by decide) (by decide)).1,
    (body_delivered_verbatim (settings_returning 0)
      (mkF (parser_for (bytes "B")) s_body_part_start 0 none none []) 0 (bytes "a\r\n--Xb") 45
      [45] rfl rfl (by decide) (by decide) (by decide)).2, by decide⟩

/-! ## Header lines -/

theorem is_letter_ne (x : Int) (h : is_letter x = true) :
    x ≠ CR ∧ x ≠ COLON ∧ x ≠ DASH ∧ x > SP := by
  simp only [is_letter, Bool.or_eq_true, Bool.and_eq_true, decide_eq_true_eq] at h
  simp only [CR, COLON, DASH, SP]
  omega

/-- The rest of a field name, read in state `s_header_field`. -/
theorem run_field_tail (settings : multipart_parser_settings) (P : multipart_parser_t)
    (bs be : Option Nat) (tr : List Event) (rest : List Int) :
    ∀ (t : List Int) (k p : Nat), (∀ x ∈ t, is_letter x = true ∨ x = DASH) →
      k + t.length < 2 ^ 64 →
      run settings (mkF P s_header_field k bs be tr) p (t ++ rest) =
        run settings (mkF P s_header_field (k + t.length) bs be tr) (p + t.length) rest := by
  intro t
  induction t with
  | nil => intro k p _ _; simp
  | cons x t ih =>
    intro k p hx h64
    simp only [List.length_cons] at h64
    have hs : step settings (mkF P s_header_field k bs be tr) p x =
        .cont (mkF P s_header_field (k + 1) bs be tr) := by
      have hi : incr64 k = k + 1 := incr64_of_lt k (by omega)
      have h1 := hx x (List.mem_cons_self _ _)
      simp only [step, mkF, Frame.set_nread, hi]
      simp [h1]
    rw [List.cons_append, run_of_cont settings _ _ _ _ _ hs,
      ih (k + 1) (p + 1) (fun y hy => hx y (List.mem_cons_of_mem _ hy)) (by omega)]
    simp only [List.length_cons]
    have e1 : k + 1 + t.length = k + (t.length + 1) := by omega
    have e2 : p + 1 + t.length = p + (t.length + 1) := by omega
    rw [e1, e2]

/-- The rest of a header value, read in state `s_header_value`. -/
theorem run_value_tail (settings : multipart_parser_settings) (P : multipart_parser_t)
    (bs be : Option Nat) (tr : List Event) (rest : List Int) :
    ∀ (t : List Int) (k p : Nat), (∀ x ∈ t, x ≠ CR) → k + t.length < 2 ^ 64 →
      run settings (mkF P s_header_value k bs be tr) p (t ++ rest) =
        run settings (mkF P s_header_value (k + t.length) bs be tr) (p + t.length) rest := by
  intro t
  induction t with
  | nil => intro k p _ _; simp
  | cons x t ih =>
    intro k p hx h64
    simp only [List.length_cons] at h64
    have hs : step settings (mkF P s_header_value k bs be tr) p x =
        .cont (mkF P s_header_value (k + 1) bs be tr) := by
      have hi : incr64 k = k + 1 := incr64_of_lt k (by omega)
      have h1 := hx x (List.mem_cons_self _ _)
      simp only [step, mkF, Frame.set_nread, hi]
      simp [h1]
    rw [List.cons_append, run_of_cont settings _ _ _ _ _ hs,
      ih (k + 1) (p + 1) (fun y hy => hx y (List.mem_cons_of_mem _ hy)) (by omega)]
    simp only [List.length_cons]
    have e1 : k + 1 + t.length = k + (t.length + 1) := by omega
    have e2 : p + 1 + t.length = p + (t.length + 1) := by omega
    rw [e1, e2]

/-- The spaces before a header value, read in state `s_header_value_discard_ws`. -/
theorem run_spaces (settings : multipart_parser_settings) (P : multipart_parser_t) (n : Nat)
    (bs be : Option Nat) (tr : List Event) (rest : List Int) :
    ∀ (m p : Nat),
      run settings (mkF P s_header_value_discard_ws n bs be tr) p (List.replicate m SP ++ rest) =
        run settings (mkF P s_header_value_discard_ws n bs be tr) (p + m) rest := by
  intro m
  induction m with
  | zero => intro p; simp
  | succ m ih =>
    intro p
    have hs : step settings (mkF P s_header_value_discard_ws n bs be tr) p SP =
        .cont (mkF P s_header_value_discard_ws n bs be tr) := by
      simp [step, mkF]
    rw [List.replicate_succ, List.cons_append, run_of_cont settings _ _ _ _ _ hs, ih (p + 1)]
    have e2 : p + 1 + m = p + (m + 1) := by omega
    rw [e2]

theorem Header.line_length (h : Header) :
    h.line.length = h.name.length + 1 + h.spaces + h.value.length + 2 := by
  simp [Header.line]
  omega

/-- A well-formed header line, read in state `s_header_field_start` or
`s_headers_almost_done`: `on_header_field` gets the span of the name,
`on_header_value` the span of the value, and the loop is in state
`s_headers_almost_done` after the line. -/
theorem run_header_line (settings : multipart_parser_settings) (hs : accepts_all settings)
    (P : multipart_parser_t) (st : state)
    (hst : st = s_header_field_start ∨ st = s_headers_almost_done) (h : Header)
    (hwf : h.wf = true) (h64 : h.line.length < 2 ^ 64) (n : Nat) (bs be : Option Nat)
    (tr : List Event) (p : Nat) (rest : List Int) :
    run settings (mkF P st n bs be tr) p (h.line ++ rest) =
      run settings
        (mkF P s_headers_almost_done h.value.length bs be
          (tr ++ [.on_header_field (p : Nat) h.name.length,
            .on_header_value ((p + h.name.length + 1 + h.spaces : Nat) : Int) h.value.length]))
        (p + h.line.length) rest := by
  obtain ⟨name, spaces, value⟩ := h
  rw [Header.line_length] at h64
  simp only [Header.wf, Bool.and_eq_true] at hwf
  obtain ⟨hn, hv⟩ := hwf
  simp only at hn hv h64
  obtain ⟨cbf, hcbf, hcbf0⟩ := hs.header_field
  obtain ⟨cbv, hcbv, hcbv0⟩ := hs.header_value
  match name, hn with
  | c :: t, hn =>
  match value, hv with
  | v :: vt, hv =>
  simp only [is_field_name, Bool.and_eq_true, List.all_eq_true, Bool.or_eq_true,
    decide_eq_true_eq] at hn
  simp only [is_field_value, Bool.and_eq_true, List.all_eq_true, decide_eq_true_eq,
    List.mem_cons, forall_eq_or_imp] at hv
  obtain ⟨hc, ht⟩ := hn
  obtain ⟨⟨hv1, hv2⟩, hv3, hvt⟩ := hv
  simp only [List.length_cons] at h64
  have s1 : step settings (mkF P st n bs be tr) p c = .cont (mkF P s_header_field 1 bs be tr) := by
    have hcr := (is_letter_ne c hc).1
    rcases hst with rfl | rfl <;>
      simp [step, mkF, case_header_field_start, hc, hcr, Frame.goto, Frame.set_nread]
  have s2 : step settings (mkF P s_header_field (1 + t.length) bs be tr) (p + 1 + t.length) COLON =
      .cont (mkF P s_header_value_discard_ws (1 + t.length) bs be
        (tr ++ [.on_header_field (p : Nat) (t.length + 1)])) := by
    have e : ((p + 1 + t.length : Nat) : Int) - ((1 + t.length : Nat) : Int) = (p : Int) := by
      push_cast; ring
    have e2 : 1 + t.length = t.length + 1 := by omega
    simp only [step, mkF, hcbf, hcbf0, e, Frame.log, Frame.goto]
    simp [is_letter, COLON, DASH, e2]
  have s3 : step settings (mkF P s_header_value_discard_ws (1 + t.length) bs be
        (tr ++ [.on_header_field (p : Nat) (t.length + 1)])) (p + 1 + t.length + 1 + spaces) v =
      .cont (mkF P s_header_value 1 bs be (tr ++ [.on_header_field (p : Nat) (t.length + 1)])) := by
    have : v > SP := by simp only [SP]; omega
    simp [step, mkF, this, Frame.goto, Frame.set_nread]
  have s4 : step settings (mkF P s_header_value (1 + vt.length) bs be
        (tr ++ [.on_header_field (p : Nat) (t.length + 1)]))
        (p + 1 + t.length + 1 + spaces + 1 + vt.length) CR =
      .cont (mkF P s_header_almost_done (1 + vt.length) bs be
        (tr ++ [.on_header_field (p : Nat) (t.length + 1),
          .on_header_value ((p + (t.length + 1) + 1 + spaces : Nat) : Int) (vt.length + 1)])) := by
    have e : ((p + 1 + t.length + 1 + spaces + 1 + vt.length : Nat) : Int) -
        ((1 + vt.length : Nat) : Int) = ((p + (t.length + 1) + 1 + spaces : Nat) : Int) := by
      push_cast; ring
    have e2 : 1 + vt.length = vt.length + 1 := by omega
    simp only [step, mkF, hcbv, hcbv0, e, Frame.log, Frame.goto]
    simp [e2]
  have s5 : step settings (mkF P s_header_almost_done (1 + vt.length) bs be
        (tr ++ [.on_header_field (p : Nat) (t.length + 1),
          .on_header_value ((p + (t.length + 1) + 1 + spaces : Nat) : Int) (vt.length + 1)]))
        (p + 1 + t.length + 1 + spaces + 1 + vt.length + 1) LF =
      .cont (mkF P s_headers_almost_done (1 + vt.length) bs be
        (tr ++ [.on_header_field (p : Nat) (t.length + 1),
          .on_header_value ((p + (t.length + 1) + 1 + spaces : Nat) : Int) (vt.length + 1)])) := by
    simp [step, mkF, Frame.goto]
  have e3 : 1 + vt.length = vt.length + 1 := by omega
  simp only [Header.line, List.cons_append, List.append_assoc, List.length_cons]
  rw [run_of_cont settings _ _ _ _ _ s1,
    run_field_tail settings P bs be tr _ t 1 (p + 1) ht (by omega),
    run_of_cont settings _ _ _ _ _ s2, run_spaces,
    run_of_cont settings _ _ _ _ _ s3,
    run_value_tail settings P bs be _ _ vt 1 _ hvt (by omega),
    run_of_cont settings _ _ _ _ _ s4,
    run_of_cont settings _ _ _ _ _ s5, e3]
  congr 1
  simp only [List.length_append, List.length_cons, List.length_replicate, List.length_nil]
  omega

theorem header_lines_length_cons (h : Header) (hs : List Header) :
    (header_lines (h :: hs)).length = h.line.length + (header_lines hs).length := by
  simp [header_lines]

/-- One or more well-formed header lines, read in state `s_header_field_start`
or `s_headers_almost_done`. -/
theorem run_header_lines (settings : multipart_parser_settings) (hs : accepts_all settings)
    (P : multipart_parser_t) (bs be : Option Nat) (rest : List Int) :
    ∀ (l : List Header) (h0 : Header) (st : state) (n : Nat) (tr : List Event) (p : Nat),
      (st = s_header_field_start ∨ st = s_headers_almost_done) →
      (∀ h ∈ h0 :: l, h.wf = true) → (header_lines (h0 :: l)).length < 2 ^ 64 →
      ∃ n1, run settings (mkF P st n bs be tr) p (header_lines (h0 :: l) ++ rest) =
        run settings (mkF P s_headers_almost_done n1 bs be (tr ++ header_events p (h0 :: l)))
          (p + (header_lines (h0 :: l)).length) rest := by
  intro l
  induction l with
  | nil =>
    intro h0 st n tr p hst hwf h64
    refine ⟨h0.value.length, ?_⟩
    simp only [header_lines, List.append_nil] at h64 ⊢
    rw [run_header_line settings hs P st hst h0 (hwf h0 (List.mem_cons_self _ _)) h64]
    simp [header_events]
  | cons h1 l ih =>
    intro h0 st n tr p hst hwf h64
    rw [header_lines_length_cons] at h64
    obtain ⟨n1, h2⟩ := ih h1 s_headers_almost_done h0.value.length
      (tr ++ [.on_header_field (p : Nat) h0.name.length,
        .on_header_value ((p + h0.name.length + 1 + h0.spaces : Nat) : Int) h0.value.length])
      (p + h0.line.length) (Or.inr rfl) (fun h hh => hwf h (List.mem_cons_of_mem _ hh))
      (by omega)
    refine ⟨n1, ?_⟩
    have e : header_lines (h0 :: h1 :: l) = h0.line ++ header_lines (h1 :: l) := rfl
    rw [e, List.append_assoc,
      run_header_line settings hs P st hst h0 (hwf h0 (List.mem_cons_self _ _)) (by omega), h2]
    simp only [header_events, List.append_assoc, List.cons_append, List.nil_append,
      List.length_append, Nat.add_assoc]

theorem mkF_boundary (P : multipart_parser_t) (st : state) (n : Nat) (bs be : Option Nat)
    (tr : List Event) : (mkF P st n bs be tr).parser.boundary = P.boundary := rfl

/-- A well-formed part between two delimiters, from state `s_boundary_cr`: the
callbacks of the part up to `on_headers_complete` are invoked, and the loop
arrives after the closing delimiter with the boundary matched in full and the
body span recorded. -/
theorem run_part (settings : multipart_parser_settings) (hs : accepts_all settings)
    (P : multipart_parser_t) (hl : P.boundary_len = P.boundary.length)
    (h64 : P.boundary.length < 2 ^ 64) (hcr : CR ∉ P.boundary) (pt : Part)
    (hwf : pt.wf P.boundary) (hlen : pt.bytes.length < 2 ^ 64) (n : Nat) (bs be : Option Nat)
    (tr : List Event) (p : Nat) (x : Int) (rest : List Int) :
    run settings (mkF P s_boundary_cr n bs be tr) p
        (LF :: (pt.bytes ++ (delimiter P.boundary ++ x :: rest))) =
      run settings
        (mkF P s_body_part_boundary_compare P.boundary.length
          (some (p + 1 + (header_lines pt.headers).length + 2))
          (some (p + 1 + (header_lines pt.headers).length + 2 + pt.body.length))
          (tr ++ (.on_boundary_begin :: (header_events (p + 1) pt.headers ++
            [.on_headers_complete]))))
        (p + 1 + pt.bytes.length + (delimiter P.boundary).length) (x :: rest) := by
  obtain ⟨headers, body⟩ := pt
  obtain ⟨hne, hh, hbody⟩ := hwf
  simp only at hne hh hbody
  simp only [Part.bytes, List.length_append, List.length_cons] at hlen ⊢
  obtain ⟨cb1, hcb1, hcb10⟩ := hs.boundary_begin
  obtain ⟨cb2, hcb2, hcb20⟩ := hs.headers_complete
  match headers, hne with
  | h0 :: l, _ =>
  have s1 : step settings (mkF P s_boundary_cr n bs be tr) p LF =
      .cont (mkF P s_header_field_start n bs be (tr ++ [.on_boundary_begin])) := by
    simp [step, mkF, hcb1, hcb10, Frame.log, Frame.goto]
  obtain ⟨n1, h2⟩ := run_header_lines settings hs P bs be (CR :: LF :: (body ++
      (delimiter P.boundary ++ x :: rest))) l h0 s_header_field_start n
      (tr ++ [.on_boundary_begin]) (p + 1) (Or.inl rfl) hh (by omega)
  have s3 : ∀ q tr1, step settings (mkF P s_headers_almost_done n1 bs be tr1) q CR =
      .cont (mkF P s_headers_done n1 bs be tr1) := by
    intro q tr1; simp [step, mkF, Frame.goto]
  have s4 : ∀ q tr1, step settings (mkF P s_headers_done n1 bs be tr1) q LF =
      .cont (mkF P s_body_part_start n1 bs be (tr1 ++ [.on_headers_complete])) := by
    intro q tr1; simp [step, mkF, hcb2, hcb20, Frame.log, Frame.goto]
  have h5 := run_body settings
    (mkF P s_body_part_start n1 bs be
      (tr ++ [.on_boundary_begin] ++ header_events (p + 1) (h0 :: l) ++ [.on_headers_complete]))
    (p + 1 + (header_lines (h0 :: l)).length + 1 + 1) body x rest rfl hl h64 hcr hbody
  simp only [mkF_boundary] at h5
  simp only [List.cons_append, List.append_assoc]
  rw [run_of_cont settings _ _ _ _ _ s1, h2,
    run_of_cont settings _ _ _ _ _ (s3 _ _), run_of_cont settings _ _ _ _ _ (s4 _ _), h5]
  simp only [Frame.matched, mkF, List.append_assoc, List.cons_append, List.nil_append]
  congr 1
  omega

/-! ## Whole messages -/

theorem parts_bytes_eq_cons (b : List Int) (pts : List Part) :
    ∃ x rest, parts_bytes b pts = x :: rest := by
  cases pts with
  | nil => exact ⟨DASH, [DASH], rfl⟩
  | cons pt pts => exact ⟨CR, _, rfl⟩

/-- The pass that follows a body whose delimiter has matched in full, when
`on_body` returns 0. -/
theorem step_matched (settings : multipart_parser_settings) (hs : accepts_all settings)
    (P : multipart_parser_t) (hl : P.boundary_len = P.boundary.length) (s e : Nat)
    (tr : List Event) (q : Nat) :
    step settings (mkF P s_body_part_boundary_compare P.boundary.length (some s) (some e) tr)
        q CR =
      .cont (mkF P s_boundary_cr P.boundary.length (some s) (some e)
        (tr ++ [.on_body (s : Nat) (e - s)])) ∧
    step settings (mkF P s_body_part_boundary_compare P.boundary.length (some s) (some e) tr)
        q DASH =
      .cont (mkF P s_boundary_almost_done P.boundary.length (some s) (some e)
        (tr ++ [.on_body (s : Nat) (e - s)])) := by
  obtain ⟨cb, hcb, hcb0⟩ := hs.body
  constructor
  · simp only [step, mkF, hl, Nat.lt_irrefl, ↓reduceIte, hcb, hcb0, Frame.log, Frame.goto]
  · simp only [step, mkF, hl, Nat.lt_irrefl, ↓reduceIte, hcb, hcb0, Frame.log, Frame.goto]
    simp [DASH, CR]

/-- The parts of a well-formed message and its closing dashes, read from a frame
`J` that stands right after a boundary matched in full (its passes for CR and
for `-` lead to `s_boundary_cr` and `s_boundary_almost_done`, invoking the
callbacks `ev`): the call returns 0 and invokes exactly the callbacks of the
parts, then `on_body_parts_complete`. -/
theorem run_parts (settings : multipart_parser_settings) (hs : accepts_all settings)
    (P : multipart_parser_t) (hl : P.boundary_len = P.boundary.length)
    (h64 : P.boundary.length < 2 ^ 64) (hcr : CR ∉ P.boundary) :
    ∀ (pts : List Part) (J : Frame) (ev : List Event) (p : Nat),
      (∀ q, ∃ n bs be,
        step settings J q CR = .cont (mkF P s_boundary_cr n bs be (J.trace ++ ev))) →
      (∀ q, ∃ n bs be,
        step settings J q DASH = .cont (mkF P s_boundary_almost_done n bs be (J.trace ++ ev))) →
      (∀ pt ∈ pts, pt.wf P.boundary) → (parts_bytes P.boundary pts).length < 2 ^ 64 →
      (run settings J p (parts_bytes P.boundary pts)).ret = some 0 ∧
        (run settings J p (parts_bytes P.boundary pts)).trace =
          J.trace ++ ev ++ parts_events P.boundary p pts := by
  intro pts
  induction pts with
  | nil =>
    intro J ev p _ hd _ _
    obtain ⟨n, bs, be, h1⟩ := hd p
    obtain ⟨cb, hcb, hcb0⟩ := hs.body_parts_complete
    have h2 : step settings (mkF P s_boundary_almost_done n bs be (J.trace ++ ev)) (p + 1) DASH =
        .ret 0 (mkF P s_boundary_almost_done n bs be
          (J.trace ++ ev ++ [.on_body_parts_complete])) := by
      simp [step, mkF, hcb, hcb0, Frame.log]
    simp only [parts_bytes, parts_events]
    rw [run_of_cont settings _ _ _ _ _ h1, run_of_ret settings _ _ _ _ _ _ h2]
    exact ⟨rfl, rfl⟩
  | cons pt pts ih =>
    intro J ev p hc _ hwf hlen
    obtain ⟨n, bs, be, h1⟩ := hc p
    obtain ⟨x, rest, hx⟩ := parts_bytes_eq_cons P.boundary pts
    simp only [parts_bytes, List.length_cons, List.length_append] at hlen
    have h2 := run_part settings hs P hl h64 hcr pt (hwf pt (List.mem_cons_self _ _))
      (by omega) n bs be (J.trace ++ ev) (p + 1) x rest
    have hm := fun q => step_matched settings hs P hl
      (p + 1 + 1 + (header_lines pt.headers).length + 2)
      (p + 1 + 1 + (header_lines pt.headers).length + 2 + pt.body.length)
      (J.trace ++ ev ++ (.on_boundary_begin :: (header_events (p + 1 + 1) pt.headers ++
          [.on_headers_complete]))) q
    simp only [Nat.add_sub_cancel_left] at hm
    have h3 := ih
      (mkF P s_body_part_boundary_compare P.boundary.length
        (some (p + 1 + 1 + (header_lines pt.headers).length + 2))
        (some (p + 1 + 1 + (header_lines pt.headers).length + 2 + pt.body.length))
        (J.trace ++ ev ++ (.on_boundary_begin :: (header_events (p + 1 + 1) pt.headers ++
          [.on_headers_complete]))))
      [.on_body ((p + 1 + 1 + (header_lines pt.headers).length + 2 : Nat) : Int) pt.body.length]
      (p + 1 + 1 + pt.bytes.length + (delimiter P.boundary).length)
      (fun q => ⟨_, _, _, (hm q).1⟩) (fun q => ⟨_, _, _, (hm q).2⟩)
      (fun q hq => hwf q (List.mem_cons_of_mem _ hq)) (by omega)
    simp only [parts_bytes, parts_events]
    rw [run_of_cont settings _ _ _ _ _ h1, hx, h2, ← hx]
    refine ⟨h3.1, ?_⟩
    rw [h3.2]
    simp only [mkF, List.append_assoc, List.cons_append, List.nil_append]

/-- A well-formed message in one call on a fresh parser: return value 0, and the
spans of the callbacks. -/
theorem execute_message_events (settings : multipart_parser_settings)
    (hs : accepts_all settings) (P : multipart_parser_t) (b : List Int) (hb : P.boundary = b)
    (hl : P.boundary_len = b.length) (hcr : CR ∉ b) (parts : List Part)
    (hwf : ∀ pt ∈ parts, pt.wf b) (hlen : (message b parts).length < 2 ^ 64) :
    (multipart_parser_execute (multipart_parser_init P) settings (message b parts)).ret = some 0 ∧
    (multipart_parser_execute (multipart_parser_init P) settings (message b parts)).trace =
      parts_events b (2 + b.length) parts := by
  subst hb
  simp only [message, List.length_cons, List.length_append] at hlen
  have h1 := run_boundary settings P none none [] (parts_bytes P.boundary parts) []
    P.boundary [] (0 + 1 + 1) (by simp) (by simp [hl]) (by omega)
  simp only [List.length_nil, Nat.zero_add] at h1
  have h2 := run_parts settings hs P hl (by omega) hcr parts
    (mkF P s_boundary P.boundary.length none none []) [] (1 + 1 + P.boundary.length)
    (fun q => ⟨P.boundary.length, none, none, by simp [step, mkF, hl, Frame.goto]⟩)
    (fun q => ⟨P.boundary.length, none, none, by simp [step, mkF, hl, Frame.goto, DASH, CR]⟩)
    hwf (by omega)
  have e1 : 1 + 1 + P.boundary.length = 2 + P.boundary.length := rfl
  unfold multipart_parser_execute message
  rw [entry_init, run_start_dashes, h1, ← e1]
  simpa [mkF] using h2

/-- The span `(|pre|, |s|)` of a buffer `pre ++ s ++ post` holds the bytes `s`. -/
theorem span_mid (data pre s post : List Int) (h : data = pre ++ (s ++ post)) (off n : Nat)
    (hoff : off = pre.length) (hn : n = s.length) : span data (off : Int) n = some s := by
  subst h hoff hn
  have h1 : (0 : Int) ≤ (pre.length : Int) := Int.ofNat_nonneg _
  simp only [span, Int.toNat_ofNat, List.length_append, h1, true_and]
  rw [if_pos (by omega)]
  simp

/-- The spans of `header_events` hold the names and values of the header lines. -/
theorem header_events_call :
    ∀ (l : List Header) (data pre post : List Int) (p : Nat),
      data = pre ++ (header_lines l ++ post) → p = pre.length →
      (header_events p l).map (Event.call data) = header_calls l := by
  intro l
  induction l with
  | nil => intro data pre post p _ _; rfl
  | cons h l ih =>
    intro data pre post p hd hp
    have h1 : span data (p : Nat) h.name.length = some h.name :=
      span_mid data pre h.name
        (COLON :: (List.replicate h.spaces SP ++ (h.value ++ [CR, LF])) ++
          (header_lines l ++ post))
        (by rw [hd]; simp [header_lines, Header.line]) p h.name.length hp rfl
    have h2 : span data ((p + h.name.length + 1 + h.spaces : Nat) : Int) h.value.length =
        some h.value :=
      span_mid data (pre ++ h.name ++ COLON :: List.replicate h.spaces SP) h.value
        ([CR, LF] ++ (header_lines l ++ post))
        (by rw [hd]; simp [header_lines, Header.line]) _ h.value.length
        (by simp [hp]; omega) rfl
    have h3 := ih data (pre ++ h.line) post (p + h.line.length)
      (by rw [hd]; simp [header_lines]) (by simp [hp])
    simp only [header_events, List.map_cons, Event.call, h1, h2, h3, header_calls]

/-- The spans of `parts_events` hold the header names, header values and bodies
of the parts. -/
theorem parts_events_call (b : List Int) :
    ∀ (pts : List Part) (data pre post : List Int) (p : Nat),
      data = pre ++ (parts_bytes b pts ++ post) → p = pre.length →
      (parts_events b p pts).map (Event.call data) = parts_calls pts := by
  intro pts
  induction pts with
  | nil => intro data pre post p _ _; rfl
  | cons pt pts ih =>
    intro data pre post p hd hp
    have h1 := header_events_call pt.headers data (pre ++ [CR, LF])
      (CR :: LF :: pt.body ++ (delimiter b ++ parts_bytes b pts) ++ post) (p + 2)
      (by rw [hd]; simp [parts_bytes, Part.bytes]) (by simp [hp])
    have h2 : span data ((p + 2 + (header_lines pt.headers).length + 2 : Nat) : Int)
        pt.body.length = some pt.body :=
      span_mid data (pre ++ [CR, LF] ++ header_lines pt.headers ++ [CR, LF]) pt.body
        (delimiter b ++ parts_bytes b pts ++ post)
        (by rw [hd]; simp [parts_bytes, Part.bytes]) _ pt.body.length (by simp [hp]; omega) rfl
    have h3 := ih data (pre ++ CR :: LF :: (pt.bytes ++ delimiter b)) post
      (p + 2 + pt.bytes.length + (delimiter b).length)
      (by rw [hd]; simp [parts_bytes]) (by simp [hp]; omega)
    simp only [parts_events, List.map_cons, List.map_append, Event.call, h1, h2, h3, parts_calls]

/-- C1: for every boundary `b` without CR and every message
`--` `b` CRLF part₁ CRLF `--` `b` CRLF part₂ … CRLF `--` `b` `--` made of
well-formed parts (one or more header lines `name ":" spaces value CRLF`, CRLF, a
body that does not contain CRLF `--` `b`), passed in one call to a parser freshly
set up by `multipart_parser_init` with callbacks that all return 0: the call
returns 0 and the callbacks invoked are, in order and with nothing else, for
each part `on_boundary_begin`, `on_header_field(name)` and
`on_header_value(value)` for each header, `on_headers_complete`,
`on_body(body)`, and finally one `on_body_parts_complete`.  (The length bound
says that the message fits a `size_t` length; the statement also covers the
message without parts.) -/
theorem execute_well_formed_message (settings : multipart_parser_settings)
    (hs : accepts_all settings) (P : multipart_parser_t) (b : List Int) (hb : P.boundary = b)
    (hl : P.boundary_len = b.length) (hcr : CR ∉ b) (parts : List Part)
    (hwf : ∀ pt ∈ parts, pt.wf b) (hlen : (message b parts).length < 2 ^ 64) :
    (multipart_parser_execute (multipart_parser_init P) settings (message b parts)).ret = some 0 ∧
    (multipart_parser_execute (multipart_parser_init P) settings (message b parts)).trace.map
      (Event.call (message b parts)) = parts_calls parts := by
  obtain ⟨h1, h2⟩ := execute_message_events settings hs P b hb hl hcr parts hwf hlen
  refine ⟨h1, ?_⟩
  rw [h2]
  exact parts_events_call b parts (message b parts) (DASH :: DASH :: b) [] (2 + b.length)
    (by simp [message]) (by simp; omega)

theorem accepts_all_settings_returning : accepts_all (settings_returning 0) :=
  ⟨⟨_, rfl, fun _ => rfl⟩, ⟨_, rfl, fun _ _ _ => rfl⟩, ⟨_, rfl, fun _ _ _ => rfl⟩,
    ⟨_, rfl, fun _ => rfl⟩, ⟨_, rfl, fun _ _ _ => rfl⟩, ⟨_, rfl, fun _ => rfl⟩⟩

/-- C1, witness: boundary `B`, message
`--B\r\nContent-Disposition: form-data; name="f"\r\n\r\nhello\r\n--B--`. -/
theorem execute_well_formed_message_witness :
    (multipart_parser_execute (multipart_parser_init (parser_for (bytes "B")))
        (settings_returning 0)
        (bytes "--B\r\nContent-Disposition: form-data; name=\"f\"\r\n\r\nhello\r\n--B--")).ret =
      some 0 ∧
    (multipart_parser_execute (multipart_parser_init (parser_for (bytes "B")))
        (settings_returning 0)
        (bytes "--B\r\nContent-Disposition: form-data; name=\"f\"\r\n\r\nhello\r\n--B--")).trace.map
        (Event.call
          (bytes "--B\r\nContent-Disposition: form-data; name=\"f\"\r\n\r\nhello\r\n--B--")) =
      [.on_boundary_begin, .on_header_field (some (bytes "Content-Disposition")),
        .on_header_value (some (bytes "form-data; name=\"f\"")), .on_headers_complete,
        .on_body (some (bytes "hello")), .on_body_parts_complete] :=
  execute_well_formed_message (settings_returning 0) accepts_all_settings_returning
    (parser_for (bytes "B")) (bytes "B") rfl rfl (by decide)
    [{ headers := [{ name := bytes "Content-Disposition", spaces := 1,
                     value := bytes "form-data; name=\"f\"" }],
       body := bytes "hello" }]
    (by
      intro pt hpt
      simp only [List.mem_singleton] at hpt
      subst hpt
      exact ⟨List.cons_ne_nil _ _, by decide, by decide⟩)
    (by decide)

/-! ## The extractors -/

set_option maxRecDepth 100000 in
theorem LOWER_nonneg : ∀ n : Nat, n < 256 →
    ((LOWER (n : Int) = 110 ↔ ((n : Int) = 110 ∨ (n : Int) = 78)) ∧
      (LOWER (n : Int) = 102 ↔ ((n : Int) = 102 ∨ (n : Int) = 70))) := by
  decide

theorem LOWER_neg (n : Nat) (h : n < 128) : 128 ≤ LOWER (Int.negSucc n) := by
  have h1 : Int.lor (Int.negSucc n) 32 = Int.negSucc (Nat.ldiff n 32) := rfl
  have h2 : Nat.ldiff n 32 < 2 ^ 7 :=
    Nat.bitwise_lt_two_pow (by omega) (by omega)
  unfold LOWER
  rw [h1, Int.negSucc_eq]
  omega

/-- On a `char` value, `LOWER(c) == 'n'` says that `c` is `n` or `N`, and
`LOWER(c) == 'f'` that `c` is `f` or `F`. -/
theorem LOWER_eq_iff (c : Int) (h1 : -128 ≤ c) (h2 : c ≤ 255) :
    (LOWER c = 110 ↔ (c = 110 ∨ c = 78)) ∧ (LOWER c = 102 ↔ (c = 102 ∨ c = 70)) := by
  cases c with
  | ofNat n =>
    simp only [Int.ofNat_eq_coe] at h1 h2 ⊢
    exact LOWER_nonneg n (by omega)
  | negSucc n =>
    have h := LOWER_neg n (by simp only [Int.negSucc_eq] at h1; omega)
    simp only [Int.negSucc_eq] at h ⊢
    constructor
    · constructor
      · intro h3; omega
      · intro h3; omega
    · constructor
      · intro h3; omega
      · intro h3; omega

theorem ref_value_succ (p : Nat) (c : Int) (t : List Int) (n : Nat) :
    ref_value p (c :: t) (n + 1) = ref_value (p + 1) t n := by
  simp only [ref_value, List.drop_succ_cons]
  have e : p + (n + 1) = p + 1 + n := by omega
  rw [e]

theorem name_loop_cons (st : multipart_get_name.e_state) (vs : Option Nat) (p : Nat) (ch : Int)
    (rest : List Int) :
    multipart_get_name.loop st vs p (ch :: rest) =
      match multipart_get_name.step st vs p ch with
      | .cont st1 v1 => multipart_get_name.loop st1 v1 (p + 1) rest
      | .done r => r := rfl

/-- In state `s_value` the loop returns the span up to the next quote. -/
theorem name_value : ∀ (t : List Int) (v p : Nat), v ≤ p →
    multipart_get_name.loop .s_value (some v) p t =
      match ref_next_quote t with
      | none => .not_found
      | some l => .found v (p + l - v) := by
  intro t
  induction t with
  | nil => intro v p _; rfl
  | cons c t ih =>
    intro v p hv
    by_cases hc : c = QUOTE
    · simp [name_loop_cons, multipart_get_name.step, ref_next_quote, hc]
    · rw [name_loop_cons]
      simp only [multipart_get_name.step, ne_eq, hc, not_false_eq_true, ↓reduceIte,
        ref_next_quote]
      rw [ih v (p + 1) (by omega)]
      cases ref_next_quote t with
      | none => rfl
      | some l =>
        simp only [Option.map_some']
        congr 1
        omega

/-- In state `s_value_start` the loop returns the span from the current offset up
to the next quote. -/
theorem name_value_start (t : List Int) (vs : Option Nat) (p : Nat) :
    multipart_get_name.loop .s_value_start vs p t = ref_value p t 0 := by
  cases t with
  | nil => rfl
  | cons c t =>
    by_cases hc : c = QUOTE
    · simp [name_loop_cons, multipart_get_name.step, ref_value, ref_next_quote, hc]
    · rw [name_loop_cons]
      simp only [multipart_get_name.step, ne_eq, hc, not_false_eq_true, ↓reduceIte]
      rw [name_value t p (p + 1) (by omega)]
      simp only [ref_value, List.drop_zero, ref_next_quote, hc, ↓reduceIte]
      cases ref_next_quote t with
      | none => rfl
      | some l =>
        simp only [Option.map_some']
        congr 1
        omega

theorem name_reset_of_ne (c : Int) (h1 : c ≠ 110) (h2 : c ≠ 78) (h3 : -128 ≤ c) (h4 : c ≤ 255) :
    multipart_get_name.reset c = .s_seek := by
  have := (LOWER_eq_iff c h3 h4).1
  simp only [multipart_get_name.reset]
  rw [if_neg]
  intro h
  rcases this.mp h with h | h
  · exact h1 h
  · exact h2 h

/-- In state `s_seek` the pass for a byte is the code at `_reset`. -/
theorem name_seek_cons (vs : Option Nat) (p : Nat) (c : Int) (t : List Int) :
    multipart_get_name.loop .s_seek vs p (c :: t) =
      multipart_get_name.loop (multipart_get_name.reset c) vs (p + 1) t := rfl

/-- State `s_NAME_EQ`: spaces and the opening quote, or back to seeking. -/
theorem name_after_eq : ∀ (t : List Int) (vs : Option Nat) (p : Nat),
    (∀ c ∈ t, -128 ≤ c ∧ c ≤ 255) →
    multipart_get_name.loop .s_NAME_EQ vs p t =
      match ref_quote t with
      | some n => ref_value p t n
      | none => multipart_get_name.loop .s_seek vs p t := by
  intro t
  induction t with
  | nil => intro vs p _; rfl
  | cons c t ih =>
    intro vs p hr
    have hc := hr c (List.mem_cons_self _ _)
    have ht : ∀ x ∈ t, -128 ≤ x ∧ x ≤ 255 := fun x hx => hr x (List.mem_cons_of_mem _ hx)
    by_cases h1 : c = QUOTE
    · subst h1
      rw [name_loop_cons]
      simp only [multipart_get_name.step, ↓reduceIte, ref_quote]
      rw [name_value_start, ref_value_succ]
    · by_cases h2 : c = SP
      · subst h2
        rw [name_loop_cons]
        simp only [multipart_get_name.step, h1, ↓reduceIte, ref_quote]
        rw [ih vs (p + 1) ht, name_seek_cons,
          name_reset_of_ne SP (by decide) (by decide) (by decide) (by decide)]
        cases ref_quote t with
        | none => rfl
        | some n => simp only [Option.map_some', ref_value_succ]
      · rw [name_loop_cons, name_seek_cons]
        simp only [multipart_get_name.step, h1, h2, ↓reduceIte, ref_quote]

/-- State `s_NAME`: spaces and `=`, then as in `s_NAME_EQ`, or back to seeking. -/
theorem name_after_keyword : ∀ (t : List Int) (vs : Option Nat) (p : Nat),
    (∀ c ∈ t, -128 ≤ c ∧ c ≤ 255) →
    multipart_get_name.loop .s_NAME vs p t =
      match ref_assign t with
      | some n => ref_value p t n
      | none => multipart_get_name.loop .s_seek vs p t := by
  intro t
  induction t with
  | nil => intro vs p _; rfl
  | cons c t ih =>
    intro vs p hr
    have ht : ∀ x ∈ t, -128 ≤ x ∧ x ≤ 255 := fun x hx => hr x (List.mem_cons_of_mem _ hx)
    by_cases h1 : c = EQUALS
    · subst h1
      rw [name_loop_cons]
      simp only [multipart_get_name.step, ↓reduceIte, ref_pattern, ref_assign]
      rw [name_after_eq t vs (p + 1) ht, name_seek_cons,
        name_reset_of_ne EQUALS (by decide) (by decide) (by decide) (by decide)]
      cases ref_quote t with
      | none => rfl
      | some n => simp only [Option.map_some', ref_value_succ]
    · by_cases h2 : c = SP
      · subst h2
        rw [name_loop_cons]
        simp only [multipart_get_name.step, h1, ↓reduceIte, ref_pattern, ref_assign]
        rw [ih vs (p + 1) ht, name_seek_cons,
          name_reset_of_ne SP (by decide) (by decide) (by decide) (by decide)]
        cases ref_assign t with
        | none => rfl
        | some n => simp only [Option.map_some', ref_value_succ]
      · rw [name_loop_cons, name_seek_cons]
        simp only [multipart_get_name.step, h1, h2, ↓reduceIte, ref_pattern, ref_assign]

/-- State `s_NAM`: the letter `e`, then as in `s_NAME`, or back to seeking. -/
theorem name_after_nam (t : List Int) (vs : Option Nat) (p : Nat)
    (hr : ∀ c ∈ t, -128 ≤ c ∧ c ≤ 255) :
    multipart_get_name.loop .s_NAM vs p t =
      match ref_pattern [101] t with
      | some n => ref_value p t n
      | none => multipart_get_name.loop .s_seek vs p t := by
  cases t with
  | nil => rfl
  | cons c t =>
    have ht : ∀ x ∈ t, -128 ≤ x ∧ x ≤ 255 := fun x hx => hr x (List.mem_cons_of_mem _ hx)
    rw [name_loop_cons, name_seek_cons]
    by_cases h : c = 101 ∨ c = 69
    · have hreset : multipart_get_name.reset c = .s_seek := by
        rcases h with h | h <;> subst h <;>
          exact name_reset_of_ne _ (by decide) (by decide) (by decide) (by decide)
      have hci : eq_ignore_case c 101 = true := by
        rcases h with h | h <;> subst h <;> decide
      simp only [multipart_get_name.step, h, ↓reduceIte, ref_pattern, hci, hreset]
      rw [name_after_keyword t vs (p + 1) ht]
      cases ref_assign t with
      | none => rfl
      | some n => simp only [Option.map_some', ref_value_succ]
    · have hci : eq_ignore_case c 101 = false := by
        simp only [eq_ignore_case, Bool.or_eq_false_iff, decide_eq_false_iff_not]
        constructor <;> intro h1 <;> apply h <;> omega
      simp only [multipart_get_name.step, h, ↓reduceIte, ref_pattern, hci, Bool.false_eq_true]

/-- State `s_NA`: the letter `m`, then as in `s_NAM`, or back to seeking. -/
theorem name_after_na (t : List Int) (vs : Option Nat) (p : Nat)
    (hr : ∀ c ∈ t, -128 ≤ c ∧ c ≤ 255) :
    multipart_get_name.loop .s_NA vs p t =
      match ref_pattern [109, 101] t with
      | some n => ref_value p t n
      | none => multipart_get_name.loop .s_seek vs p t := by
  cases t with
  | nil => rfl
  | cons c t =>
    have ht : ∀ x ∈ t, -128 ≤ x ∧ x ≤ 255 := fun x hx => hr x (List.mem_cons_of_mem _ hx)
    rw [name_loop_cons, name_seek_cons]
    by_cases h : c = 109 ∨ c = 77
    · have hreset : multipart_get_name.reset c = .s_seek := by
        rcases h with h | h <;> subst h <;>
          exact name_reset_of_ne _ (by decide) (by decide) (by decide) (by decide)
      have hci : eq_ignore_case c 109 = true := by
        rcases h with h | h <;> subst h <;> decide
      simp only [multipart_get_name.step, h, ↓reduceIte, ref_pattern, hci, hreset]
      rw [name_after_nam t vs (p + 1) ht]
      cases ref_pattern [101] t with
      | none => rfl
      | some n => simp only [Option.map_some', ref_value_succ]
    · have hci : eq_ignore_case c 109 = false := by
        simp only [eq_ignore_case, Bool.or_eq_false_iff, decide_eq_false_iff_not]
        constructor <;> intro h1 <;> apply h <;> omega
      simp only [multipart_get_name.step, h, ↓reduceIte, ref_pattern, hci, Bool.false_eq_true]

/-- State `s_N`: the letter `a`, then as in `s_NA`, or back to seeking. -/
theorem name_after_n (t : List Int) (vs : Option Nat) (p : Nat)
    (hr : ∀ c ∈ t, -128 ≤ c ∧ c ≤ 255) :
    multipart_get_name.loop .s_N vs p t =
      match ref_pattern [97, 109, 101] t with
      | some n => ref_value p t n
      | none => multipart_get_name.loop .s_seek vs p t := by
  cases t with
  | nil => rfl
  | cons c t =>
    have ht : ∀ x ∈ t, -128 ≤ x ∧ x ≤ 255 := fun x hx => hr x (List.mem_cons_of_mem _ hx)
    rw [name_loop_cons, name_seek_cons]
    by_cases h : c = 97 ∨ c = 65
    · have hreset : multipart_get_name.reset c = .s_seek := by
        rcases h with h | h <;> subst h <;>
          exact name_reset_of_ne _ (by decide) (by decide) (by decide) (by decide)
      have hci : eq_ignore_case c 97 = true := by
        rcases h with h | h <;> subst h <;> decide
      simp only [multipart_get_name.step, h, ↓reduceIte, ref_pattern, hci, hreset]
      rw [name_after_na t vs (p + 1) ht]
      cases ref_pattern [109, 101] t with
      | none => rfl
      | some n => simp only [Option.map_some', ref_value_succ]
    · have hci : eq_ignore_case c 97 = false := by
        simp only [eq_ignore_case, Bool.or_eq_false_iff, decide_eq_false_iff_not]
        constructor <;> intro h1 <;> apply h <;> omega
      simp only [multipart_get_name.step, h, ↓reduceIte, ref_pattern, hci, Bool.false_eq_true]

/-- State `s_seek`: the loop finds the leftmost occurrence of the pattern. -/
theorem name_seek : ∀ (t : List Int) (vs : Option Nat) (p : Nat),
    (∀ c ∈ t, -128 ≤ c ∧ c ≤ 255) →
    multipart_get_name.loop .s_seek vs p t =
      match ref_leftmost kw_name t with
      | some n => ref_value p t n
      | none => .not_found := by
  intro t
  induction t with
  | nil => intro vs p _; rfl
  | cons c t ih =>
    intro vs p hr
    have hc := hr c (List.mem_cons_self _ _)
    have ht : ∀ x ∈ t, -128 ≤ x ∧ x ≤ 255 := fun x hx => hr x (List.mem_cons_of_mem _ hx)
    have hL := (LOWER_eq_iff c hc.1 hc.2).1
    rw [name_seek_cons]
    by_cases h : LOWER c = 110
    · have hci : eq_ignore_case c 110 = true := by
        rcases hL.mp h with h | h <;> subst h <;> decide
      simp only [multipart_get_name.reset, h, ↓reduceIte, ref_leftmost, kw_name, ref_pattern, hci]
      rw [name_after_n t vs (p + 1) ht]
      cases ref_pattern [97, 109, 101] t with
      | some n => simp only [Option.map_some', ref_value_succ]
      | none =>
        simp only [Option.map_none']
        rw [ih vs (p + 1) ht]
        simp only [kw_name]
        cases ref_leftmost [110, 97, 109, 101] t with
        | none => rfl
        | some n => simp only [Option.map_some', ref_value_succ]
    · have hci : eq_ignore_case c 110 = false := by
        simp only [eq_ignore_case, Bool.or_eq_false_iff, decide_eq_false_iff_not]
        constructor <;> intro h1 <;> apply h <;> apply hL.mpr <;> omega
      simp only [multipart_get_name.reset, h, ↓reduceIte, ref_leftmost, kw_name, ref_pattern, hci,
        Bool.false_eq_true]
      rw [ih vs (p + 1) ht]
      simp only [kw_name]
      cases ref_leftmost [110, 97, 109, 101] t with
      | none => rfl
      | some n => simp only [Option.map_some', ref_value_succ]

/-- The function `multipart_get_name` agrees with the reference extractor. -/
theorem get_name_eq_ref (s : List Int) (hr : ∀ c ∈ s, -128 ≤ c ∧ c ≤ 255) :
    multipart_get_name s = ref_extract kw_name s := by
  unfold multipart_get_name ref_extract
  rw [name_seek s none 0 hr]
  cases ref_leftmost kw_name s with
  | none => rfl
  | some n => simp only [ref_value, Nat.zero_add]

theorem filename_loop_cons (st : multipart_get_filename.e_state) (vs : Option Nat) (p : Nat)
    (ch : Int) (rest : List Int) :
    multipart_get_filename.loop st vs p (ch :: rest) =
      match multipart_get_filename.step st vs p ch with
      | .cont st1 v1 => multipart_get_filename.loop st1 v1 (p + 1) rest
      | .done r => r := rfl

/-- In state `s_value` the loop returns the span up to the next quote. -/
theorem filename_value : ∀ (t : List Int) (v p : Nat), v ≤ p →
    multipart_get_filename.loop .s_value (some v) p t =
      match ref_next_quote t with
      | none => .not_found
      | some l => .found v (p + l - v) := by
  intro t
  induction t with
  | nil => intro v p _; rfl
  | cons c t ih =>
    intro v p hv
    by_cases hc : c = QUOTE
    · simp [filename_loop_cons, multipart_get_filename.step, multipart_get_filename.case_value,
        ref_next_quote, hc]
    · rw [filename_loop_cons]
      simp only [multipart_get_filename.step, multipart_get_filename.case_value, ne_eq, hc,
        not_false_eq_true, ↓reduceIte, ref_next_quote]
      rw [ih v (p + 1) (by omega)]
      cases ref_next_quote t with
      | none => rfl
      | some l =>
        simp only [Option.map_some']
        congr 1
        omega

/-- In state `s_value_start` the loop returns the span from the current offset up
to the next quote. -/
theorem filename_value_start (t : List Int) (vs : Option Nat) (p : Nat) :
    multipart_get_filename.loop .s_value_start vs p t = ref_value p t 0 := by
  cases t with
  | nil => rfl
  | cons c t =>
    by_cases hc : c = QUOTE
    · simp [filename_loop_cons, multipart_get_filename.step, multipart_get_filename.case_value,
        ref_value, ref_next_quote, hc]
    · rw [filename_loop_cons]
      simp only [multipart_get_filename.step, multipart_get_filename.case_value, ne_eq, hc,
        not_false_eq_true, ↓reduceIte]
      rw [filename_value t p (p + 1) (by omega)]
      simp only [ref_value, List.drop_zero, ref_next_quote, hc, ↓reduceIte]
      cases ref_next_quote t with
      | none => rfl
      | some l =>
        simp only [Option.map_some']
        congr 1
        omega

theorem filename_reset_of_ne (c : Int) (h1 : c ≠ 102) (h2 : c ≠ 70) (h3 : -128 ≤ c)
    (h4 : c ≤ 255) : multipart_get_filename.reset c = .s_F := by
  have := (LOWER_eq_iff c h3 h4).2
  simp only [multipart_get_filename.reset]
  rw [if_neg]
  intro h
  rcases this.mp h with h | h
  · exact h1 h
  · exact h2 h

/-- In state `s_F` the pass for a byte is the code at `_reset`. -/
theorem filename_seek_cons (vs : Option Nat) (p : Nat) (c : Int) (t : List Int) :
    multipart_get_filename.loop .s_F vs p (c :: t) =
      multipart_get_filename.loop (multipart_get_filename.reset c) vs (p + 1) t := rfl

/-- State `s_FILENAME_EQ_QUOT`: spaces and the opening quote, or back to seeking. -/
theorem filename_after_eq : ∀ (t : List Int) (vs : Option Nat) (p : Nat),
    (∀ c ∈ t, -128 ≤ c ∧ c ≤ 255) →
    multipart_get_filename.loop .s_FILENAME_EQ_QUOT vs p t =
      match ref_quote t with
      | some n => ref_value p t n
      | none => multipart_get_filename.loop .s_F vs p t := by
  intro t
  induction t with
  | nil => intro vs p _; rfl
  | cons c t ih =>
    intro vs p hr
    have ht : ∀ x ∈ t, -128 ≤ x ∧ x ≤ 255 := fun x hx => hr x (List.mem_cons_of_mem _ hx)
    by_cases h1 : c = QUOTE
    · subst h1
      rw [filename_loop_cons]
      simp only [multipart_get_filename.step, ↓reduceIte, ref_quote]
      rw [filename_value_start, ref_value_succ]
    · by_cases h2 : c = SP
      · subst h2
        rw [filename_loop_cons]
        simp only [multipart_get_filename.step, h1, ↓reduceIte, ref_quote]
        rw [ih vs (p + 1) ht, filename_seek_cons,
          filename_reset_of_ne SP (by decide) (by decide) (by decide) (by decide)]
        cases ref_quote t with
        | none => rfl
        | some n => simp only [Option.map_some', ref_value_succ]
      · rw [filename_loop_cons, filename_seek_cons]
        simp only [multipart_get_filename.step, h1, h2, ↓reduceIte, ref_quote]

/-- State `s_FILENAME_EQ`: spaces and `=`, then as in `s_FILENAME_EQ_QUOT`, or
back to seeking. -/
theorem filename_after_keyword : ∀ (t : List Int) (vs : Option Nat) (p : Nat),
    (∀ c ∈ t, -128 ≤ c ∧ c ≤ 255) →
    multipart_get_filename.loop .s_FILENAME_EQ vs p t =
      match ref_assign t with
      | some n => ref_value p t n
      | none => multipart_get_filename.loop .s_F vs p t := by
  intro t
  induction t with
  | nil => intro vs p _; rfl
  | cons c t ih =>
    intro vs p hr
    have ht : ∀ x ∈ t, -128 ≤ x ∧ x ≤ 255 := fun x hx => hr x (List.mem_cons_of_mem _ hx)
    by_cases h1 : c = EQUALS
    · subst h1
      rw [filename_loop_cons]
      simp only [multipart_get_filename.step, ↓reduceIte, ref_assign]
      rw [filename_after_eq t vs (p + 1) ht, filename_seek_cons,
        filename_reset_of_ne EQUALS (by decide) (by decide) (by decide) (by decide)]
      cases ref_quote t with
      | none => rfl
      | some n => simp only [Option.map_some', ref_value_succ]
    · by_cases h2 : c = SP
      · subst h2
        rw [filename_loop_cons]
        simp only [multipart_get_filename.step, h1, ↓reduceIte, ref_assign]
        rw [ih vs (p + 1) ht, filename_seek_cons,
          filename_reset_of_ne SP (by decide) (by decide) (by decide) (by decide)]
        cases ref_assign t with
        | none => rfl
        | some n => simp only [Option.map_some', ref_value_succ]
      · rw [filename_loop_cons, filename_seek_cons]
        simp only [multipart_get_filename.step, h1, h2, ↓reduceIte, ref_assign]

/-- State `s_FILENAME`: the letter `e`, then as in `s_FILENAME_EQ`, or back to seeking. -/
theorem filename_after_filenam (t : List Int) (vs : Option Nat) (p : Nat)
    (hr : ∀ c ∈ t, -128 ≤ c ∧ c ≤ 255) :
    multipart_get_filename.loop .s_FILENAME vs p t =
      match ref_pattern [101] t with
      | some n => ref_value p t n
      | none => multipart_get_filename.loop .s_F vs p t := by
  cases t with
  | nil => rfl
  | cons c t =>
    have ht : ∀ x ∈ t, -128 ≤ x ∧ x ≤ 255 := fun x hx => hr x (List.mem_cons_of_mem _ hx)
    rw [filename_loop_cons, filename_seek_cons]
    by_cases h : c = 101 ∨ c = 69
    · have hreset : multipart_get_filename.reset c = .s_F := by
        rcases h with h | h <;> subst h <;>
          exact filename_reset_of_ne _ (by decide) (by decide) (by decide) (by decide)
      have hci : eq_ignore_case c 101 = true := by
        rcases h with h | h <;> subst h <;> decide
      simp only [multipart_get_filename.step, h, ↓reduceIte, ref_pattern, hci, hreset]
      rw [filename_after_keyword t vs (p + 1) ht]
      cases ref_assign t with
      | none => rfl
      | some n => simp only [Option.map_some', ref_value_succ]
    · have hci : eq_ignore_case c 101 = false := by
        simp only [eq_ignore_case, Bool.or_eq_false_iff, decide_eq_false_iff_not]
        constructor <;> intro h1 <;> apply h <;> omega
      simp only [multipart_get_filename.step, h, ↓reduceIte, ref_pattern, hci, Bool.false_eq_true]

/-- State `s_FILENAM`: the letter `m`, then as in `s_FILENAME`, or back to seeking. -/
theorem filename_after_filena (t : List Int) (vs : Option Nat) (p : Nat)
    (hr : ∀ c ∈ t, -128 ≤ c ∧ c ≤ 255) :
    multipart_get_filename.loop .s_FILENAM vs p t =
      match ref_pattern [109, 101] t with
      | some n => ref_value p t n
      | none => multipart_get_filename.loop .s_F vs p t := by
  cases t with
  | nil => rfl
  | cons c t =>
    have ht : ∀ x ∈ t, -128 ≤ x ∧ x ≤ 255 := fun x hx => hr x (List.mem_cons_of_mem _ hx)
    rw [filename_loop_cons, filename_seek_cons]
    by_cases h : c = 109 ∨ c = 77
    · have hreset : multipart_get_filename.reset c = .s_F := by
        rcases h with h | h <;> subst h <;>
          exact filename_reset_of_ne _ (by decide) (by decide) (by decide) (by decide)
      have hci : eq_ignore_case c 109 = true := by
        rcases h with h | h <;> subst h <;> decide
      simp only [multipart_get_filename.step, h, ↓reduceIte, ref_pattern, hci, hreset]
      rw [filename_after_filenam t vs (p + 1) ht]
      cases ref_pattern [101] t with
      | none => rfl
      | some n => simp only [Option.map_some', ref_value_succ]
    · have hci : eq_ignore_case c 109 = false := by
        simp only [eq_ignore_case, Bool.or_eq_false_iff, decide_eq_false_iff_not]
        constructor <;> intro h1 <;> apply h <;> omega
      simp only [multipart_get_filename.step, h, ↓reduceIte, ref_pattern, hci, Bool.false_eq_true]

/-- State `s_FILENA`: the letter `a`, then as in `s_FILENAM`, or back to seeking. -/
theorem filename_after_filen (t : List Int) (vs : Option Nat) (p : Nat)
    (hr : ∀ c ∈ t, -128 ≤ c ∧ c ≤ 255) :
    multipart_get_filename.loop .s_FILENA vs p t =
      match ref_pattern [97, 109, 101] t with
      | some n => ref_value p t n
      | none => multipart_get_filename.loop .s_F vs p t := by
  cases t with
  | nil => rfl
  | cons c t =>
    have ht : ∀ x ∈ t, -128 ≤ x ∧ x ≤ 255 := fun x hx => hr x (List.mem_cons_of_mem _ hx)
    rw [filename_loop_cons, filename_seek_cons]
    by_cases h : c = 97 ∨ c = 65
    · have hreset : multipart_get_filename.reset c = .s_F := by
        rcases h with h | h <;> subst h <;>
          exact filename_reset_of_ne _ (by decide) (by decide) (by decide) (by decide)
      have hci : eq_ignore_case c 97 = true := by
        rcases h with h | h <;> subst h <;> decide
      simp only [multipart_get_filename.step, h, ↓reduceIte, ref_pattern, hci, hreset]
      rw [filename_after_filena t vs (p + 1) ht]
      cases ref_pattern [109, 101] t with
      | none => rfl
      | some n => simp only [Option.map_some', ref_value_succ]
    · have hci : eq_ignore_case c 97 = false := by
        simp only [eq_ignore_case, Bool.or_eq_false_iff, decide_eq_false_iff_not]
        constructor <;> intro h1 <;> apply h <;> omega
      simp only [multipart_get_filename.step, h, ↓reduceIte, ref_pattern, hci, Bool.false_eq_true]

/-- State `s_FILEN`: the letter `n`, then as in `s_FILENA`, or back to seeking. -/
theorem filename_after_file (t : List Int) (vs : Option Nat) (p : Nat)
    (hr : ∀ c ∈ t, -128 ≤ c ∧ c ≤ 255) :
    multipart_get_filename.loop .s_FILEN vs p t =
      match ref_pattern [110, 97, 109, 101] t with
      | some n => ref_value p t n
      | none => multipart_get_filename.loop .s_F vs p t := by
  cases t with
  | nil => rfl
  | cons c t =>
    have ht : ∀ x ∈ t, -128 ≤ x ∧ x ≤ 255 := fun x hx => hr x (List.mem_cons_of_mem _ hx)
    rw [filename_loop_cons, filename_seek_cons]
    by_cases h : c = 110 ∨ c = 78
    · have hreset : multipart_get_filename.reset c = .s_F := by
        rcases h with h | h <;> subst h <;>
          exact filename_reset_of_ne _ (by decide) (by decide) (by decide) (by decide)
      have hci : eq_ignore_case c 110 = true := by
        rcases h with h | h <;> subst h <;> decide
      simp only [multipart_get_filename.step, h, ↓reduceIte, ref_pattern, hci, hreset]
      rw [filename_after_filen t vs (p + 1) ht]
      cases ref_pattern [97, 109, 101] t with
      | none => rfl
      | some n => simp only [Option.map_some', ref_value_succ]
    · have hci : eq_ignore_case c 110 = false := by
        simp only [eq_ignore_case, Bool.or_eq_false_iff, decide_eq_false_iff_not]
        constructor <;> intro h1 <;> apply h <;> omega
      simp only [multipart_get_filename.step, h, ↓reduceIte, ref_pattern, hci, Bool.false_eq_true]

/-- State `s_FILE`: the letter `e`, then as in `s_FILEN`, or back to seeking. -/
theorem filename_after_fil (t : List Int) (vs : Option Nat) (p : Nat)
    (hr : ∀ c ∈ t, -128 ≤ c ∧ c ≤ 255) :
    multipart_get_filename.loop .s_FILE vs p t =
      match ref_pattern [101, 110, 97, 109, 101] t with
      | some n => ref_value p t n
      | none => multipart_get_filename.loop .s_F vs p t := by
  cases t with
  | nil => rfl
  | cons c t =>
    have ht : ∀ x ∈ t, -128 ≤ x ∧ x ≤ 255 := fun x hx => hr x (List.mem_cons_of_mem _ hx)
    rw [filename_loop_cons, filename_seek_cons]
    by_cases h : c = 101 ∨ c = 69
    · have hreset : multipart_get_filename.reset c = .s_F := by
        rcases h with h | h <;> subst h <;>
          exact filename_reset_of_ne _ (by decide) (by decide) (by decide) (by decide)
      have hci : eq_ignore_case c 101 = true := by
        rcases h with h | h <;> subst h <;> decide
      simp only [multipart_get_filename.step, h, ↓reduceIte, ref_pattern, hci, hreset]
      rw [filename_after_file t vs (p + 1) ht]
      cases ref_pattern [110, 97, 109, 101] t with
      | none => rfl
      | some n => simp only [Option.map_some', ref_value_succ]
    · have hci : eq_ignore_case c 101 = false := by
        simp only [eq_ignore_case, Bool.or_eq_false_iff, decide_eq_false_iff_not]
        constructor <;> intro h1 <;> apply h <;> omega
      simp only [multipart_get_filename.step, h, ↓reduceIte, ref_pattern, hci, Bool.false_eq_true]

/-- State `s_FIL`: the letter `l`, then as in `s_FILE`, or back to seeking. -/
theorem filename_after_fi (t : List Int) (vs : Option Nat) (p : Nat)
    (hr : ∀ c ∈ t, -128 ≤ c ∧ c ≤ 255) :
    multipart_get_filename.loop .s_FIL vs p t =
      match ref_pattern [108, 101, 110, 97, 109, 101] t with
      | some n => ref_value p t n
      | none => multipart_get_filename.loop .s_F vs p t := by
  cases t with
  | nil => rfl
  | cons c t =>
    have ht : ∀ x ∈ t, -128 ≤ x ∧ x ≤ 255 := fun x hx => hr x (List.mem_cons_of_mem _ hx)
    rw [filename_loop_cons, filename_seek_cons]
    by_cases h : c = 108 ∨ c = 76
    · have hreset : multipart_get_filename.reset c = .s_F := by
        rcases h with h | h <;> subst h <;>
          exact filename_reset_of_ne _ (by decide) (by decide) (by decide) (by decide)
      have hci : eq_ignore_case c 108 = true := by
        rcases h with h | h <;> subst h <;> decide
      simp only [multipart_get_filename.step, h, ↓reduceIte, ref_pattern, hci, hreset]
      rw [filename_after_fil t vs (p + 1) ht]
      cases ref_pattern [101, 110, 97, 109, 101] t with
      | none => rfl
      | some n => simp only [Option.map_some', ref_value_succ]
    · have hci : eq_ignore_case c 108 = false := by
        simp only [eq_ignore_case, Bool.or_eq_false_iff, decide_eq_false_iff_not]
        constructor <;> intro h1 <;> apply h <;> omega
      simp only [multipart_get_filename.step, h, ↓reduceIte, ref_pattern, hci, Bool.false_eq_true]

/-- State `s_FI`: the letter `i`, then as in `s_FIL`, or back to seeking. -/
theorem filename_after_f (t : List Int) (vs : Option Nat) (p : Nat)
    (hr : ∀ c ∈ t, -128 ≤ c ∧ c ≤ 255) :
    multipart_get_filename.loop .s_FI vs p t =
      match ref_pattern [105, 108, 101, 110, 97, 109, 101] t with
      | some n => ref_value p t n
      | none => multipart_get_filename.loop .s_F vs p t := by
  cases t with
  | nil => rfl
  | cons c t =>
    have ht : ∀ x ∈ t, -128 ≤ x ∧ x ≤ 255 := fun x hx => hr x (List.mem_cons_of_mem _ hx)
    rw [filename_loop_cons, filename_seek_cons]
    by_cases h : c = 105 ∨ c = 73
    · have hreset : multipart_get_filename.reset c = .s_F := by
        rcases h with h | h <;> subst h <;>
          exact filename_reset_of_ne _ (by decide) (by decide) (by decide) (by decide)
      have hci : eq_ignore_case c 105 = true := by
        rcases h with h | h <;> subst h <;> decide
      simp only [multipart_get_filename.step, h, ↓reduceIte, ref_pattern, hci, hreset]
      rw [filename_after_fi t vs (p + 1) ht]
      cases ref_pattern [108, 101, 110, 97, 109, 101] t with
      | none => rfl
      | some n => simp only [Option.map_some', ref_value_succ]
    · have hci : eq_ignore_case c 105 = false := by
        simp only [eq_ignore_case, Bool.or_eq_false_iff, decide_eq_false_iff_not]
        constructor <;> intro h1 <;> apply h <;> omega
      simp only [multipart_get_filename.step, h, ↓reduceIte, ref_pattern, hci, Bool.false_eq_true]

/-- State `s_F`: the loop finds the leftmost occurrence of the pattern. -/
theorem filename_seek : ∀ (t : List Int) (vs : Option Nat) (p : Nat),
    (∀ c ∈ t, -128 ≤ c ∧ c ≤ 255) →
    multipart_get_filename.loop .s_F vs p t =
      match ref_leftmost kw_filename t with
      | some n => ref_value p t n
      | none => .not_found := by
  intro t
  induction t with
  | nil => intro vs p _; rfl
  | cons c t ih =>
    intro vs p hr
    have hc := hr c (List.mem_cons_self _ _)
    have ht : ∀ x ∈ t, -128 ≤ x ∧ x ≤ 255 := fun x hx => hr x (List.mem_cons_of_mem _ hx)
    have hL := (LOWER_eq_iff c hc.1 hc.2).2
    rw [filename_seek_cons]
    by_cases h : LOWER c = 102
    · have hci : eq_ignore_case c 102 = true := by
        rcases hL.mp h with h | h <;> subst h <;> decide
      simp only [multipart_get_filename.reset, h, ↓reduceIte, ref_leftmost, kw_filename,
        ref_pattern, hci]
      rw [filename_after_f t vs (p + 1) ht]
      cases ref_pattern [105, 108, 101, 110, 97, 109, 101] t with
      | some n => simp only [Option.map_some', ref_value_succ]
      | none =>
        simp only [Option.map_none']
        rw [ih vs (p + 1) ht]
        simp only [kw_filename]
        cases ref_leftmost [102, 105, 108, 101, 110, 97, 109, 101] t with
        | none => rfl
        | some n => simp only [Option.map_some', ref_value_succ]
    · have hci : eq_ignore_case c 102 = false := by
        simp only [eq_ignore_case, Bool.or_eq_false_iff, decide_eq_false_iff_not]
        constructor <;> intro h1 <;> apply h <;> apply hL.mpr <;> omega
      simp only [multipart_get_filename.reset, h, ↓reduceIte, ref_leftmost, kw_filename,
        ref_pattern, hci, Bool.false_eq_true]
      rw [ih vs (p + 1) ht]
      simp only [kw_filename]
      cases ref_leftmost [102, 105, 108, 101, 110, 97, 109, 101] t with
      | none => rfl
      | some n => simp only [Option.map_some', ref_value_succ]

/-- The function `multipart_get_filename` agrees with the reference extractor. -/
theorem get_filename_eq_ref (s : List Int) (hr : ∀ c ∈ s, -128 ≤ c ∧ c ≤ 255) :
    multipart_get_filename s = ref_extract kw_filename s := by
  unfold multipart_get_filename ref_extract
  rw [filename_seek s none 0 hr]
  cases ref_leftmost kw_filename s with
  | none => rfl
  | some n => simp only [ref_value, Nat.zero_add]

/-- The examples of the specification: an empty value, an input without the
keyword, an input that ends before the closing quote, and the two inputs on
which the matcher restarts inside a partial match. -/
theorem extractors_examples :
    multipart_get_filename (bytes "filename=\"\"") = .found 10 0 ∧
    multipart_get_name (bytes "form-data; filter=\"x\"") = .not_found ∧
    multipart_get_name (bytes "name=\"abc") = .not_found ∧
    multipart_get_name (bytes "nname=\"x\"") = .found 7 1 ∧
    multipart_get_filename (bytes "filefilename=\"x\"") = .found 14 1 := by
  decide

/-! ## Case of letters -/

theorem name_step_congr (c d : Int) (h : same_up_to_case c d)
    (st : multipart_get_name.e_state) (vs : Option Nat) (p : Nat) :
    multipart_get_name.step st vs p c = multipart_get_name.step st vs p d := by
  rcases h with rfl | h | h
  · rfl
  · have e1 := (LOWER_eq_iff c (by omega) (by omega)).1
    have e2 := (LOWER_eq_iff d (by omega) (by omega)).1
    have hreset : multipart_get_name.reset c = multipart_get_name.reset d := by
      simp only [multipart_get_name.reset, e1, e2]
      have : (c = 110 ∨ c = 78) ↔ (d = 110 ∨ d = 78) := by omega
      simp only [this]
    cases st <;> simp only [multipart_get_name.step, hreset, QUOTE, SP, EQUALS] <;>
      (split_ifs <;> first | rfl | omega)
  · have e1 := (LOWER_eq_iff c (by omega) (by omega)).1
    have e2 := (LOWER_eq_iff d (by omega) (by omega)).1
    have hreset : multipart_get_name.reset c = multipart_get_name.reset d := by
      simp only [multipart_get_name.reset, e1, e2]
      have : (c = 110 ∨ c = 78) ↔ (d = 110 ∨ d = 78) := by omega
      simp only [this]
    cases st <;> simp only [multipart_get_name.step, hreset, QUOTE, SP, EQUALS] <;>
      (split_ifs <;> first | rfl | omega)

theorem filename_step_congr (c d : Int) (h : same_up_to_case c d)
    (st : multipart_get_filename.e_state) (vs : Option Nat) (p : Nat) :
    multipart_get_filename.step st vs p c = multipart_get_filename.step st vs p d := by
  rcases h with rfl | h | h
  · rfl
  · have e1 := (LOWER_eq_iff c (by omega) (by omega)).2
    have e2 := (LOWER_eq_iff d (by omega) (by omega)).2
    have hreset : multipart_get_filename.reset c = multipart_get_filename.reset d := by
      simp only [multipart_get_filename.reset, e1, e2]
      have : (c = 102 ∨ c = 70) ↔ (d = 102 ∨ d = 70) := by omega
      simp only [this]
    cases st <;>
      simp only [multipart_get_filename.step, multipart_get_filename.case_value, hreset, QUOTE,
        SP, EQUALS] <;>
      (split_ifs <;> first | rfl | omega)
  · have e1 := (LOWER_eq_iff c (by omega) (by omega)).2
    have e2 := (LOWER_eq_iff d (by omega) (by omega)).2
    have hreset : multipart_get_filename.reset c = multipart_get_filename.reset d := by
      simp only [multipart_get_filename.reset, e1, e2]
      have : (c = 102 ∨ c = 70) ↔ (d = 102 ∨ d = 70) := by omega
      simp only [this]
    cases st <;>
      simp only [multipart_get_filename.step, multipart_get_filename.case_value, hreset, QUOTE,
        SP, EQUALS] <;>
      (split_ifs <;> first | rfl | omega)

theorem name_loop_congr (s t : List Int) (h : List.Forall₂ same_up_to_case s t) :
    ∀ (st : multipart_get_name.e_state) (vs : Option Nat) (p : Nat),
      multipart_get_name.loop st vs p s = multipart_get_name.loop st vs p t := by
  induction h with
  | nil => intro st vs p; rfl
  | cons hcd _ ih =>
    intro st vs p
    rw [name_loop_cons, name_loop_cons, name_step_congr _ _ hcd]
    cases multipart_get_name.step st vs p _ with
    | cont st1 v1 => exact ih st1 v1 (p + 1)
    | done r => rfl

theorem filename_loop_congr (s t : List Int) (h : List.Forall₂ same_up_to_case s t) :
    ∀ (st : multipart_get_filename.e_state) (vs : Option Nat) (p : Nat),
      multipart_get_filename.loop st vs p s = multipart_get_filename.loop st vs p t := by
  induction h with
  | nil => intro st vs p; rfl
  | cons hcd _ ih =>
    intro st vs p
    rw [filename_loop_cons, filename_loop_cons, filename_step_congr _ _ hcd]
    cases multipart_get_filename.step st vs p _ with
    | cont st1 v1 => exact ih st1 v1 (p + 1)
    | done r => rfl

/-- C10: two inputs of the same length that differ only in the case of ASCII
letters get the same result from `multipart_get_name` (both not found, or the
same offset and the same length), and likewise from `multipart_get_filename`. -/
theorem extractors_ignore_case (s t : List Int) (h : List.Forall₂ same_up_to_case s t) :
    multipart_get_name s = multipart_get_name t ∧
      multipart_get_filename s = multipart_get_filename t :=
  ⟨name_loop_congr s t h _ _ _, filename_loop_congr s t h _ _ _⟩

/-- C10, witness: `NAME="x"`, `Name="x"` and `name="x"` all yield the span of `x`. -/
theorem extractors_ignore_case_witness :
    (multipart_get_name (bytes "NAME=\"x\"") = multipart_get_name (bytes "name=\"x\"") ∧
      multipart_get_filename (bytes "NAME=\"x\"") =
        multipart_get_filename (bytes "name=\"x\"")) ∧
    multipart_get_name (bytes "NAME=\"x\"") = .found 6 1 ∧
    multipart_get_name (bytes "Name=\"x\"") = .found 6 1 ∧
    multipart_get_name (bytes "name=\"x\"") = .found 6 1 :=
  ⟨extractors_ignore_case (bytes "NAME=\"x\"") (bytes "name=\"x\"") (by decide),
    by decide, by decide, by decide⟩

/-! ## What the reference extractor computes -/

theorem ref_quote_iff : ∀ (s : List Int) (n : Nat),
    ref_quote s = some n ↔
      ∃ (b : Nat) (rest : List Int), s = List.replicate b SP ++ QUOTE :: rest ∧ n = b + 1 := by
  intro s
  induction s with
  | nil =>
    intro n
    constructor
    · intro h; simp [ref_quote] at h
    · rintro ⟨b, rest, h, -⟩
      cases b <;> simp [List.replicate_succ] at h
  | cons c t ih =>
    intro n
    by_cases h1 : c = QUOTE
    · subst h1
      simp only [ref_quote, ↓reduceIte, Option.some.injEq]
      constructor
      · intro h; exact ⟨0, t, by simp, by omega⟩
      · rintro ⟨b, rest, h, hn⟩
        cases b with
        | zero => omega
        | succ b =>
          simp only [List.replicate_succ, List.cons_append, List.cons.injEq] at h
          exact absurd h.1 (by decide)
    · by_cases h2 : c = SP
      · subst h2
        simp only [ref_quote, h1, ↓reduceIte, Option.map_eq_some']
        constructor
        · rintro ⟨m, hm, rfl⟩
          obtain ⟨b, rest, hb, rfl⟩ := (ih m).mp hm
          exact ⟨b + 1, rest, by simp [List.replicate_succ, hb], rfl⟩
        · rintro ⟨b, rest, h, hn⟩
          cases b with
          | zero =>
            simp only [List.replicate_zero, List.nil_append, List.cons.injEq] at h
            exact absurd h.1 h1
          | succ b =>
            simp only [List.replicate_succ, List.cons_append, List.cons.injEq, true_and] at h
            exact ⟨b + 1, (ih (b + 1)).mpr ⟨b, rest, h, rfl⟩, by omega⟩
      · simp only [ref_quote, h1, h2, ↓reduceIte]
        constructor
        · intro h; simp at h
        · rintro ⟨b, rest, h, -⟩
          cases b with
          | zero =>
            simp only [List.replicate_zero, List.nil_append, List.cons.injEq] at h
            exact absurd h.1 h1
          | succ b =>
            simp only [List.replicate_succ, List.cons_append, List.cons.injEq] at h
            exact absurd h.1 h2

theorem ref_assign_iff : ∀ (s : List Int) (n : Nat),
    ref_assign s = some n ↔
      ∃ (a b : Nat) (rest : List Int),
        s = List.replicate a SP ++ EQUALS :: (List.replicate b SP ++ QUOTE :: rest) ∧
          n = a + 1 + b + 1 := by
  intro s
  induction s with
  | nil =>
    intro n
    constructor
    · intro h; simp [ref_assign] at h
    · rintro ⟨a, b, rest, h, -⟩
      cases a <;> simp [List.replicate_succ] at h
  | cons c t ih =>
    intro n
    by_cases h1 : c = EQUALS
    · subst h1
      simp only [ref_assign, ↓reduceIte, Option.map_eq_some']
      constructor
      · rintro ⟨m, hm, rfl⟩
        obtain ⟨b, rest, hb, rfl⟩ := (ref_quote_iff t m).mp hm
        exact ⟨0, b, rest, by simp [hb], by omega⟩
      · rintro ⟨a, b, rest, h, hn⟩
        cases a with
        | zero =>
          simp only [List.replicate_zero, List.nil_append, List.cons.injEq, true_and] at h
          exact ⟨b + 1, (ref_quote_iff t (b + 1)).mpr ⟨b, rest, h, rfl⟩, by omega⟩
        | succ a =>
          simp only [List.replicate_succ, List.cons_append, List.cons.injEq] at h
          exact absurd h.1 (by decide)
    · by_cases h2 : c = SP
      · subst h2
        simp only [ref_assign, h1, ↓reduceIte, Option.map_eq_some']
        constructor
        · rintro ⟨m, hm, rfl⟩
          obtain ⟨a, b, rest, hb, rfl⟩ := (ih m).mp hm
          exact ⟨a + 1, b, rest, by simp [List.replicate_succ, hb], by omega⟩
        · rintro ⟨a, b, rest, h, hn⟩
          cases a with
          | zero =>
            simp only [List.replicate_zero, List.nil_append, List.cons.injEq] at h
            exact absurd h.1 h1
          | succ a =>
            simp only [List.replicate_succ, List.cons_append, List.cons.injEq, true_and] at h
            exact ⟨a + 1 + b + 1, (ih _).mpr ⟨a, b, rest, h, rfl⟩, by omega⟩
      · simp only [ref_assign, h1, h2, ↓reduceIte]
        constructor
        · intro h; simp at h
        · rintro ⟨a, b, rest, h, -⟩
          cases a with
          | zero =>
            simp only [List.replicate_zero, List.nil_append, List.cons.injEq] at h
            exact absurd h.1 h1
          | succ a =>
            simp only [List.replicate_succ, List.cons_append, List.cons.injEq] at h
            exact absurd h.1 h2

/-- The function `ref_pattern` recognises exactly the occurrences of the pattern
at the head of the string. -/
theorem ref_pattern_iff : ∀ (K s : List Int) (n : Nat),
    ref_pattern K s = some n ↔ starts_with_pattern K s n := by
  intro K
  induction K with
  | nil =>
    intro s n
    simp only [ref_pattern, starts_with_pattern, ref_assign_iff]
    constructor
    · rintro ⟨a, b, rest, h, hn⟩
      exact ⟨[], a, b, rest, by simpa using h, List.Forall₂.nil, by simp; omega⟩
    · rintro ⟨k, a, b, rest, h, hk, hn⟩
      cases hk
      exact ⟨a, b, rest, by simpa using h, by simp at hn; omega⟩
  | cons x K ih =>
    intro s n
    cases s with
    | nil =>
      simp only [ref_pattern, starts_with_pattern]
      constructor
      · intro h; simp at h
      · rintro ⟨k, a, b, rest, h, hk, -⟩
        cases hk
        simp at h
    | cons c t =>
      simp only [ref_pattern, starts_with_pattern]
      by_cases hc : eq_ignore_case c x = true
      · simp only [hc, ↓reduceIte, Option.map_eq_some']
        constructor
        · rintro ⟨m, hm, rfl⟩
          obtain ⟨k, a, b, rest, h, hk, hn⟩ := (ih t m).mp hm
          exact ⟨c :: k, a, b, rest, by simp [h], List.Forall₂.cons hc hk,
            by simp only [List.length_cons]; omega⟩
        · rintro ⟨k, a, b, rest, h, hk, hn⟩
          cases hk with
          | cons h1 h2 =>
            simp only [List.cons_append, List.cons.injEq] at h
            simp only [List.length_cons] at hn
            exact ⟨n - 1, (ih t (n - 1)).mpr ⟨_, a, b, rest, h.2, h2, by omega⟩, by omega⟩
      · simp only [hc, ↓reduceIte]
        constructor
        · intro h; simp at h
        · rintro ⟨k, a, b, rest, h, hk, -⟩
          cases hk with
          | cons h1 h2 =>
            simp only [List.cons_append, List.cons.injEq] at h
            rw [← h.1] at h1
            exact absurd h1 hc

theorem not_starts_with_pattern_nil (K : List Int) (n : Nat) : ¬ starts_with_pattern K [] n := by
  rintro ⟨k, a, b, rest, h, -, -⟩
  have := congrArg List.length h
  simp at this
  omega

/-- The function `ref_leftmost` finds the occurrence of the pattern with the
least start offset `i`, and returns the offset just after it. -/
theorem ref_leftmost_iff (K : List Int) : ∀ (s : List Int) (o : Nat),
    ref_leftmost K s = some o ↔
      ∃ i n, o = i + n ∧ starts_with_pattern K (s.drop i) n ∧
        ∀ j, j < i → ∀ m, ¬ starts_with_pattern K (s.drop j) m := by
  intro s
  induction s with
  | nil =>
    intro o
    simp only [ref_leftmost, List.drop_nil]
    constructor
    · intro h; simp at h
    · rintro ⟨i, n, -, h, -⟩
      exact absurd h (not_starts_with_pattern_nil K n)
  | cons c t ih =>
    intro o
    simp only [ref_leftmost]
    cases hp : ref_pattern K (c :: t) with
    | some n =>
      simp only [Option.some.injEq]
      constructor
      · rintro rfl
        exact ⟨0, n, by omega, (ref_pattern_iff K (c :: t) n).mp hp, fun j hj => absurd hj (by omega)⟩
      · rintro ⟨i, n1, ho, h1, h2⟩
        cases i with
        | zero =>
          have := (ref_pattern_iff K (c :: t) n1).mpr h1
          rw [hp] at this
          simp only [Option.some.injEq] at this
          omega
        | succ i =>
          exact absurd ((ref_pattern_iff K (c :: t) n).mp hp) (h2 0 (by omega) n)
    | none =>
      simp only [Option.map_eq_some']
      constructor
      · rintro ⟨o1, h1, rfl⟩
        obtain ⟨i, n, ho, h2, h3⟩ := (ih o1).mp h1
        refine ⟨i + 1, n, by omega, h2, fun j hj m => ?_⟩
        cases j with
        | zero =>
          intro h
          have := (ref_pattern_iff K (c :: t) m).mpr h
          rw [hp] at this
          simp at this
        | succ j => exact h3 j (by omega) m
      · rintro ⟨i, n, ho, h1, h2⟩
        cases i with
        | zero =>
          have := (ref_pattern_iff K (c :: t) n).mpr h1
          rw [hp] at this
          simp at this
        | succ i =>
          exact ⟨i + n, (ih (i + n)).mpr ⟨i, n, rfl, h1, fun j hj m => h2 (j + 1) (by omega) m⟩,
            by omega⟩

/-- The function `ref_next_quote` returns the index of the first `"`. -/
theorem ref_next_quote_iff : ∀ (t : List Int) (l : Nat),
    ref_next_quote t = some l ↔ t[l]? = some QUOTE ∧ ∀ k, k < l → t[k]? ≠ some QUOTE := by
  intro t
  induction t with
  | nil => intro l; simp [ref_next_quote]
  | cons c t ih =>
    intro l
    by_cases hc : c = QUOTE
    · subst hc
      simp only [ref_next_quote, ↓reduceIte, Option.some.injEq]
      constructor
      · rintro rfl
        exact ⟨by simp, fun k hk => absurd hk (by omega)⟩
      · rintro ⟨-, h⟩
        by_contra hl
        exact h 0 (by omega) (by simp)
    · simp only [ref_next_quote, hc, ↓reduceIte, Option.map_eq_some']
      constructor
      · rintro ⟨m, hm, rfl⟩
        obtain ⟨h1, h2⟩ := (ih m).mp hm
        refine ⟨by simpa using h1, fun k hk => ?_⟩
        cases k with
        | zero => simpa using hc
        | succ k => simpa using h2 k (by omega)
      · rintro ⟨h1, h2⟩
        cases l with
        | zero => simp at h1; exact absurd h1 hc
        | succ l =>
          exact ⟨l, (ih l).mpr ⟨by simpa using h1, fun k hk => by simpa using h2 (k + 1) (by omega)⟩,
            rfl⟩

/-- What the reference extractor computes, in words: it returns the span
`(o, l)` exactly when some occurrence of the pattern starts at an offset `i` and
ends just before `o`, no occurrence starts before `i`, the byte at `o + l` is a
`"` and no byte of the span is; it never ends undefined, so in every other case
it returns not-found. -/
theorem ref_extract_found_iff (K s : List Int) (o l : Nat) :
    ref_extract K s = .found o l ↔
      ∃ i n, o = i + n ∧ starts_with_pattern K (s.drop i) n ∧
        (∀ j, j < i → ∀ m, ¬ starts_with_pattern K (s.drop j) m) ∧
        s[o + l]? = some QUOTE ∧ ∀ k, k < l → s[o + k]? ≠ some QUOTE := by
  unfold ref_extract
  cases h1 : ref_leftmost K s with
  | none =>
    constructor
    · intro h; simp at h
    · rintro ⟨i, n, ho, h2, h3, -⟩
      have := (ref_leftmost_iff K s o).mpr ⟨i, n, ho, h2, h3⟩
      rw [h1] at this
      simp at this
  | some o1 =>
    simp only
    cases h2 : ref_next_quote (s.drop o1) with
    | none =>
      constructor
      · intro h; simp at h
      · rintro ⟨i, n, ho, h3, h4, h5, h6⟩
        have := (ref_leftmost_iff K s o).mpr ⟨i, n, ho, h3, h4⟩
        rw [h1] at this
        simp only [Option.some.injEq] at this
        subst this
        have := (ref_next_quote_iff (s.drop o1) l).mpr
          ⟨by simpa [List.getElem?_drop] using h5, fun k hk => by
            simpa [List.getElem?_drop] using h6 k hk⟩
        rw [h2] at this
        simp at this
    | some l1 =>
      simp only [Extract.found.injEq]
      obtain ⟨i, n, ho, h3, h4⟩ := (ref_leftmost_iff K s o1).mp h1
      obtain ⟨h5, h6⟩ := (ref_next_quote_iff (s.drop o1) l1).mp h2
      constructor
      · rintro ⟨rfl, rfl⟩
        exact ⟨i, n, ho, h3, h4, by simpa [List.getElem?_drop] using h5, fun k hk => by
          simpa [List.getElem?_drop] using h6 k hk⟩
      · rintro ⟨i', n', ho', h3', h4', h5', h6'⟩
        have := (ref_leftmost_iff K s o).mpr ⟨i', n', ho', h3', h4'⟩
        rw [h1] at this
        simp only [Option.some.injEq] at this
        subst this
        have := (ref_next_quote_iff (s.drop o1) l).mpr
          ⟨by simpa [List.getElem?_drop] using h5', fun k hk => by
            simpa [List.getElem?_drop] using h6' k hk⟩
        rw [h2] at this
        simp only [Option.some.injEq] at this
        exact ⟨rfl, this⟩

theorem ref_extract_ne_undefined (K s : List Int) : ref_extract K s ≠ .undefined := by
  unfold ref_extract
  cases ref_leftmost K s with
  | none => simp
  | some o =>
    simp only
    cases ref_next_quote (s.drop o) <;> simp

/-- C3: both extractors compute the reference definition.  They return the span
`(o, l)` exactly when an occurrence of the pattern (keyword without regard to
case, spaces, `=`, spaces, `"`) ends just before offset `o`, no occurrence starts
further left, the byte at `o + l` is a `"` and no byte of the span is; otherwise
they return not-found.  The hypothesis says that `s` is a string of `char`
values. -/
theorem extractors_eq_reference (s : List Int) (hr : ∀ c ∈ s, -128 ≤ c ∧ c ≤ 255) :
    (multipart_get_name s = ref_extract kw_name s ∧
      multipart_get_filename s = ref_extract kw_filename s) ∧
    (∀ o l, multipart_get_name s = .found o l ↔
      ∃ i n, o = i + n ∧ starts_with_pattern kw_name (s.drop i) n ∧
        (∀ j, j < i → ∀ m, ¬ starts_with_pattern kw_name (s.drop j) m) ∧
        s[o + l]? = some QUOTE ∧ ∀ k, k < l → s[o + k]? ≠ some QUOTE) ∧
    (∀ o l, multipart_get_filename s = .found o l ↔
      ∃ i n, o = i + n ∧ starts_with_pattern kw_filename (s.drop i) n ∧
        (∀ j, j < i → ∀ m, ¬ starts_with_pattern kw_filename (s.drop j) m) ∧
        s[o + l]? = some QUOTE ∧ ∀ k, k < l → s[o + k]? ≠ some QUOTE) ∧
    multipart_get_name s ≠ .undefined ∧ multipart_get_filename s ≠ .undefined := by
  have h1 := get_name_eq_ref s hr
  have h2 := get_filename_eq_ref s hr
  refine ⟨⟨h1, h2⟩, fun o l => ?_, fun o l => ?_, ?_, ?_⟩
  · rw [h1]; exact ref_extract_found_iff kw_name s o l
  · rw [h2]; exact ref_extract_found_iff kw_filename s o l
  · rw [h1]; exact ref_extract_ne_undefined kw_name s
  · rw [h2]; exact ref_extract_ne_undefined kw_filename s

/-- C3, witness: on `form-data; name="file1"; filename="a.txt"` the name is the
span of `file1` and the filename the span of `a.txt`. -/
theorem extractors_eq_reference_witness :
    multipart_get_name (bytes "form-data; name=\"file1\"; filename=\"a.txt\"") =
        ref_extract kw_name (bytes "form-data; name=\"file1\"; filename=\"a.txt\"") ∧
      multipart_get_filename (bytes "form-data; name=\"file1\"; filename=\"a.txt\"") =
        ref_extract kw_filename (bytes "form-data; name=\"file1\"; filename=\"a.txt\"") ∧
    multipart_get_name (bytes "form-data; name=\"file1\"; filename=\"a.txt\"") = .found 17 5 ∧
    multipart_get_filename (bytes "form-data; name=\"file1\"; filename=\"a.txt\"") =
      .found 35 5 :=
  ⟨(extractors_eq_reference (bytes "form-data; name=\"file1\"; filename=\"a.txt\"")
      (by decide)).1.1,
    (extractors_eq_reference (bytes "form-data; name=\"file1\"; filename=\"a.txt\"")
      (by decide)).1.2, by decide, by decide⟩

/-! ## Callback veto: what the code does -/

/-- A pass goes on to the next byte only if the callback it invoked, if any,
returned 0. -/
theorem step_cont_response (settings : multipart_parser_settings) (f f1 : Frame) (p : Nat)
    (ch : Int) (h : step settings f p ch = .cont f1) :
    f1.trace = f.trace ∨
      ∃ e : Event, f1.trace = f.trace ++ [e] ∧ settings.response f.trace e = some 0 := by
  rcases f with ⟨⟨st, n, e, d, b, bl⟩, bs, be, tr⟩
  cases st <;>
    simp only [step, case_header_field_start, case_body_part] at h <;>
    (repeat' split at h) <;> (try cases h) <;>
    first
    | exact Or.inl rfl
    | (refine Or.inr ⟨_, rfl, ?_⟩
       simp only [multipart_parser_settings.response, Option.map_eq_some']
       exact ⟨_, by assumption, by assumption⟩)

/-- A pass that returns after invoking a callback returns -1, except that the
value of `on_body_parts_complete` is returned as it is. -/
theorem step_ret_response (settings : multipart_parser_settings) (f f1 : Frame) (p : Nat)
    (ch r : Int) (h : step settings f p ch = .ret r f1) :
    (f1.trace = f.trace ∧ r = -1) ∨
      ∃ e : Event, f1.trace = f.trace ++ [e] ∧
        ((e = .on_body_parts_complete ∧ settings.response f.trace e = some r) ∨
          (e ≠ .on_body_parts_complete ∧ r = -1)) := by
  rcases f with ⟨⟨st, n, e, d, b, bl⟩, bs, be, tr⟩
  cases st <;>
    simp only [step, case_header_field_start, case_body_part] at h <;>
    (repeat' split at h) <;> (try cases h) <;>
    first
    | exact Or.inl ⟨rfl, rfl⟩
    | exact Or.inr ⟨_, rfl, Or.inr ⟨by simp, rfl⟩⟩
    | (refine Or.inr ⟨_, rfl, Or.inl ⟨rfl, ?_⟩⟩
       simp only [multipart_parser_settings.response, Option.map_eq_some']
       exact ⟨_, by assumption, rfl⟩)

theorem all_accepted_nil (settings : multipart_parser_settings) : all_accepted settings [] := by
  intro i e h
  simp at h

theorem snoc_getElem?_cases (tr : List Event) (e0 e : Event) (i : Nat)
    (h : (tr ++ [e0])[i]? = some e) :
    (i < tr.length ∧ tr[i]? = some e ∧ (tr ++ [e0]).take i = tr.take i) ∨
      (i = tr.length ∧ e = e0 ∧ (tr ++ [e0]).take i = tr) := by
  rcases Nat.lt_trichotomy i tr.length with hi | hi | hi
  · left
    rw [List.getElem?_append_left hi] at h
    exact ⟨hi, h, List.take_append_of_le_length (by omega)⟩
  · right
    subst hi
    rw [List.getElem?_append_right (Nat.le_refl _)] at h
    simp at h
    exact ⟨rfl, h.symm, by simp⟩
  · rw [List.getElem?_append_right (by omega)] at h
    have : i - tr.length ≥ 1 := by omega
    rw [List.getElem?_eq_none (by simp; omega)] at h
    simp at h

theorem all_accepted_snoc (settings : multipart_parser_settings) (tr : List Event) (e0 : Event)
    (h : all_accepted settings tr) (h0 : settings.response tr e0 = some 0) :
    all_accepted settings (tr ++ [e0]) := by
  intro i e hi
  rcases snoc_getElem?_cases tr e0 e i hi with ⟨-, h1, h2⟩ | ⟨-, h1, h2⟩
  · rw [h2]; exact h i e h1
  · rw [h2, h1]; exact h0

/-- Callback veto as the code has it: when a callback returns a value `v` other
than 0, it is the last callback invoked, the loop stops before the end of the
buffer, and the call returns -1, except that for `on_body_parts_complete` it
returns `v` itself. -/
theorem run_veto (settings : multipart_parser_settings) :
    ∀ (d : List Int) (f : Frame) (p : Nat), all_accepted settings f.trace →
      ∀ (i : Nat) (e : Event) (v : Int), (run settings f p d).trace[i]? = some e →
        settings.response ((run settings f p d).trace.take i) e = some v → v ≠ 0 →
        i + 1 = (run settings f p d).trace.length ∧ (run settings f p d).pos < p + d.length ∧
          (run settings f p d).ret = some (if e = .on_body_parts_complete then v else -1) := by
  intro d
  induction d with
  | nil =>
    intro f p ha i e v h1 h2 h3
    rw [run_nil] at h1 h2
    have := ha i e h1
    rw [this] at h2
    simp only [Option.some.injEq] at h2
    exact absurd h2.symm h3
  | cons ch rest ih =>
    intro f p ha i e v h1 h2 h3
    rw [run_cons] at h1 h2 ⊢
    cases hs : step settings f p ch with
    | cont f1 =>
      rw [hs] at h1 h2
      simp only at h1 h2 ⊢
      have ha1 : all_accepted settings f1.trace := by
        rcases step_cont_response settings f f1 p ch hs with h | ⟨e0, h, h0⟩
        · rw [h]; exact ha
        · rw [h]; exact all_accepted_snoc settings f.trace e0 ha h0
      obtain ⟨a, b, c⟩ := ih f1 (p + 1) ha1 i e v h1 h2 h3
      refine ⟨a, ?_, c⟩
      simp only [List.length_cons]
      omega
    | ret r f1 =>
      rw [hs] at h1 h2
      simp only at h1 h2 ⊢
      rcases step_ret_response settings f f1 p ch r hs with ⟨h, -⟩ | ⟨e0, h, hc⟩
      · rw [h] at h1 h2
        have := ha i e h1
        rw [this] at h2
        simp only [Option.some.injEq] at h2
        exact absurd h2.symm h3
      · rw [h] at h1 h2 ⊢
        rcases snoc_getElem?_cases f.trace e0 e i h1 with ⟨-, h4, h5⟩ | ⟨h4, h5, h6⟩
        · rw [h5] at h2
          have := ha i e h4
          rw [this] at h2
          simp only [Option.some.injEq] at h2
          exact absurd h2.symm h3
        · rw [h6] at h2
          subst h5
          refine ⟨by simp [h4], by simp, ?_⟩
          rcases hc with ⟨hc1, hc2⟩ | ⟨hc1, hc2⟩
          · rw [hc2] at h2
            simp only [Option.some.injEq] at h2
            simp [hc1, h2]
          · simp [hc1, hc2]
    | ub f1 =>
      rw [hs] at h1 h2
      simp only at h1 h2
      rw [step_ub_trace settings f f1 p ch hs] at h1 h2
      have := ha i e h1
      rw [this] at h2
      simp only [Option.some.injEq] at h2
      exact absurd h2.symm h3

/-- Callback veto for a call of `multipart_parser_execute`: a callback that
returns a value `v` other than 0 is the last one invoked and the call stops
there; the call returns -1 for the five callbacks `on_boundary_begin`,
`on_header_field`, `on_header_value`, `on_headers_complete` and `on_body`, and
`v` itself for `on_body_parts_complete`. -/
theorem execute_veto (parser : multipart_parser_t) (settings : multipart_parser_settings)
    (data : List Int) (i : Nat) (e : Event) (v : Int)
    (h1 : (multipart_parser_execute parser settings data).trace[i]? = some e)
    (h2 : settings.response ((multipart_parser_execute parser settings data).trace.take i) e =
      some v)
    (h3 : v ≠ 0) :
    i + 1 = (multipart_parser_execute parser settings data).trace.length ∧
      (multipart_parser_execute parser settings data).pos < data.length ∧
      (multipart_parser_execute parser settings data).ret =
        some (if e = .on_body_parts_complete then v else -1) := by
  have := run_veto settings data (Frame.entry parser) 0 (all_accepted_nil settings) i e v h1 h2 h3
  simpa [multipart_parser_execute] using this

/-- What a call of `multipart_parser_execute` can return: -1, or the value that
`on_body_parts_complete` returned when it was invoked as the last callback of the
call.  In particular the call returns 0 only if `on_body_parts_complete` was
invoked last and returned 0. -/
theorem execute_ret_cases (parser : multipart_parser_t) (settings : multipart_parser_settings)
    (data : List Int) (r : Int)
    (h : (multipart_parser_execute parser settings data).ret = some r) :
    r = -1 ∨ ∃ cb tr, settings.on_body_parts_complete = some cb ∧ r = cb tr ∧
      (multipart_parser_execute parser settings data).trace =
        tr ++ [Event.on_body_parts_complete] :=
  run_ret_cases settings data (Frame.entry parser) 0 r h

/-- An empty buffer, and a buffer that ends inside a message, give -1. -/
theorem execute_exhausted :
    (multipart_parser_execute (multipart_parser_init (parser_for (bytes "B")))
        (settings_returning 0) []).ret = some (-1) ∧
    (multipart_parser_execute (multipart_parser_init (parser_for (bytes "B")))
        (settings_returning 0) (bytes "--B\r\nA: b\r\n\r\nhello\r\n--B-")).ret = some (-1) := by
  decide

/-! ## The length handed to `on_body`

The model computes `body_end - body_start` in the natural numbers.  Nothing is
lost by that: in every frame from which `on_body` can be called, `body_end` is
not before `body_start`. -/

theorem entry_ordered (parser : multipart_parser_t) : (Frame.entry parser).ordered := by
  intro _ bs be h
  simp [Frame.entry] at h

/-- The order of `body_start` and `body_end` is kept by every pass. -/
theorem step_cont_ordered (settings : multipart_parser_settings) (f f1 : Frame) (p : Nat)
    (ch : Int) (h : step settings f p ch = .cont f1) (hi : f.inv p) (ho : f.ordered) :
    f1.ordered := by
  rcases f with ⟨⟨st, n, e, d, b, bl⟩, bs, be, tr⟩
  obtain ⟨h1, -, -⟩ := hi
  simp only at h1
  cases st <;>
    simp only [step, case_header_field_start, case_body_part] at h <;>
    (repeat' split at h) <;> (try cases h) <;>
    simp only [Frame.ordered, Frame.goto, Frame.log, Frame.set_body_end, Frame.set_nread,
      in_candidate, Bool.false_eq_true, false_implies, true_implies, forall_const,
      Option.some.injEq] at ho ⊢ <;>
    first
    | trivial
    | exact ho
    | (intro x y hx hy
       first
       | exact ho x y hx hy
       | (subst hy; first | exact h1 x hx | (subst hx; exact Nat.le_refl _)))

/-- From a frame that satisfies the bounds, the pass that calls `on_body` hands
it the length `body_end - body_start` with `body_start ≤ body_end`. -/
theorem on_body_length (f : Frame) (ho : f.ordered)
    (hst : f.parser.state = s_body_part_boundary_compare) (bs be : Nat)
    (h1 : f.body_start = some bs) (h2 : f.body_end = some be) :
    bs ≤ be ∧ ((be - bs : Nat) : Int) = (be : Int) - (bs : Int) := by
  have := ho (by rw [hst]; rfl) bs be h1 h2
  exact ⟨this, by omega⟩

/-! ## Initialisation and the fields a call leaves alone -/

/-- C15: `multipart_parser_init` sets the state to `s_start` and leaves
`boundary`, `boundary_len`, `data`, `nread` and `multipart_errno` as they were;
applied twice it does what it does once. -/
theorem init_resets_only_state (P : multipart_parser_t) :
    (multipart_parser_init P).state = s_start ∧
      (multipart_parser_init P).boundary = P.boundary ∧
      (multipart_parser_init P).boundary_len = P.boundary_len ∧
      (multipart_parser_init P).data = P.data ∧
      (multipart_parser_init P).nread = P.nread ∧
      (multipart_parser_init P).multipart_errno = P.multipart_errno ∧
      multipart_parser_init (multipart_parser_init P) = multipart_parser_init P :=
  ⟨rfl, rfl, rfl, rfl, rfl, rfl, rfl⟩

/-- No pass writes to `multipart_errno`, `data`, `boundary` or `boundary_len`. -/
theorem step_keeps_fields (settings : multipart_parser_settings) (f : Frame) (p : Nat)
    (ch : Int) :
    (step settings f p ch).frame.parser.multipart_errno = f.parser.multipart_errno ∧
      (step settings f p ch).frame.parser.data = f.parser.data ∧
      (step settings f p ch).frame.parser.boundary = f.parser.boundary ∧
      (step settings f p ch).frame.parser.boundary_len = f.parser.boundary_len := by
  rcases f with ⟨⟨st, n, e, d, b, bl⟩, bs, be, tr⟩
  cases st <;>
    simp only [step, case_header_field_start, case_body_part] <;>
    (repeat' split) <;> exact ⟨rfl, rfl, rfl, rfl⟩

/-- A call leaves `multipart_errno`, `data`, `boundary` and `boundary_len` as they
were, however it ends. -/
theorem run_keeps_fields (settings : multipart_parser_settings) :
    ∀ (d : List Int) (f : Frame) (p : Nat),
      (run settings f p d).parser.multipart_errno = f.parser.multipart_errno ∧
        (run settings f p d).parser.data = f.parser.data ∧
        (run settings f p d).parser.boundary = f.parser.boundary ∧
        (run settings f p d).parser.boundary_len = f.parser.boundary_len := by
  intro d
  induction d with
  | nil => intro f p; exact ⟨rfl, rfl, rfl, rfl⟩
  | cons ch rest ih =>
    intro f p
    have h := step_keeps_fields settings f p ch
    rw [run_cons]
    cases hs : step settings f p ch with
    | cont f1 =>
      rw [hs] at h
      obtain ⟨a, b, c, d⟩ := ih f1 (p + 1)
      exact ⟨a.trans h.1, b.trans h.2.1, c.trans h.2.2.1, d.trans h.2.2.2⟩
    | ret r f1 => rw [hs] at h; exact h
    | ub f1 => rw [hs] at h; exact h

/-- The error code after a call of `multipart_parser_execute` is the error code
before it. -/
theorem execute_keeps_errno (parser : multipart_parser_t)
    (settings : multipart_parser_settings) (data : List Int) :
    (multipart_parser_execute parser settings data).parser.multipart_errno =
      parser.multipart_errno :=
  (run_keeps_fields settings data (Frame.entry parser) 0).1

/-- C13, evaluated where the code departs from it: with boundary `boundary` and an
error code of 0 before the call, the input `--boundarYY` (a mismatched boundary
byte) and the input `--boundary\r\n1` (a digit where a header field must start)
both return -1 and leave the error code at 0. -/
theorem errno_not_set :
    (parser_for (bytes "boundary")).multipart_errno = 0 ∧
    (multipart_parser_execute (multipart_parser_init (parser_for (bytes "boundary")))
        (settings_returning 0) (bytes "--boundarYY")).ret = some (-1) ∧
    (multipart_parser_execute (multipart_parser_init (parser_for (bytes "boundary")))
        (settings_returning 0) (bytes "--boundarYY")).parser.multipart_errno = 0 ∧
    (multipart_parser_execute (multipart_parser_init (parser_for (bytes "boundary")))
        (settings_returning 0) (bytes "--boundary\r\n1")).ret = some (-1) ∧
    (multipart_parser_execute (multipart_parser_init (parser_for (bytes "boundary")))
        (settings_returning 0) (bytes "--boundary\r\n1")).parser.multipart_errno = 0 := by
  decide

/-! ## States that can arise -/

/-- No pass moves the parser to `s_header_value_lws`. -/
theorem step_state_ne_lws (settings : multipart_parser_settings) (f : Frame) (p : Nat)
    (ch : Int) (h : f.parser.state ≠ s_header_value_lws) :
    (step settings f p ch).frame.parser.state ≠ s_header_value_lws := by
  rcases f with ⟨⟨st, n, e, d, b, bl⟩, bs, be, tr⟩
  cases st <;>
    simp only [step, case_header_field_start, case_body_part] <;>
    (repeat' split) <;>
    first
    | exact absurd rfl h
    | (simp only [Step.frame, Frame.goto, Frame.log, Frame.set_nread, Frame.set_body_end]
       intro hc
       cases hc)

theorem run_state_ne_lws (settings : multipart_parser_settings) :
    ∀ (d : List Int) (f : Frame) (p : Nat), f.parser.state ≠ s_header_value_lws →
      (run settings f p d).parser.state ≠ s_header_value_lws := by
  intro d
  induction d with
  | nil => intro f p h; exact h
  | cons ch rest ih =>
    intro f p h
    have h1 := step_state_ne_lws settings f p ch h
    rw [run_cons]
    cases hs : step settings f p ch with
    | cont f1 => rw [hs] at h1; exact ih f1 (p + 1) h1
    | ret r f1 => rw [hs] at h1; exact h1
    | ub f1 => rw [hs] at h1; exact h1

/-- A parser that can arise is never in state `s_header_value_lws`. -/
theorem reachable_state_ne_lws (P : multipart_parser_t) (h : reachable P) :
    P.state ≠ s_header_value_lws := by
  induction h with
  | init P => intro hc; cases hc
  | call P settings data _ ih => exact run_state_ne_lws settings data (Frame.entry P) 0 ih

/-- No pass of `multipart_get_name` continues in `s_NAME_EQ_QUOT` or `s_value_end`. -/
theorem name_step_state (st st1 : multipart_get_name.e_state) (vs vs1 : Option Nat) (p : Nat)
    (ch : Int) (h : multipart_get_name.step st vs p ch = .cont st1 vs1) :
    st1 ≠ .s_NAME_EQ_QUOT ∧ st1 ≠ .s_value_end := by
  cases st <;>
    simp only [multipart_get_name.step, multipart_get_name.reset] at h <;>
    (repeat' split at h) <;> cases h <;> exact ⟨by simp, by simp⟩

theorem name_reachable_state (st : multipart_get_name.e_state)
    (h : multipart_get_name.reachable st) : st ≠ .s_NAME_EQ_QUOT ∧ st ≠ .s_value_end := by
  induction h with
  | start => exact ⟨by simp, by simp⟩
  | pass st st1 vs vs1 p ch _ hs _ => exact name_step_state st st1 vs vs1 p ch hs

theorem name_step_safe (st st1 : multipart_get_name.e_state) (vs vs1 : Option Nat) (p : Nat)
    (ch : Int) (hs : multipart_get_name.safe st vs)
    (h : multipart_get_name.step st vs p ch = .cont st1 vs1) :
    multipart_get_name.safe st1 vs1 := by
  obtain ⟨h1, h2, h3⟩ := hs
  cases st <;>
    simp only [multipart_get_name.step, multipart_get_name.reset] at h <;>
    (repeat' split at h) <;> cases h <;>
    (refine ⟨by simp, by simp, ?_⟩
     first
     | (intro _; exact h3 rfl)
     | (intro _ hc; cases hc; done)
     | (intro hc; cases hc))

theorem name_step_done (st : multipart_get_name.e_state) (vs : Option Nat) (p : Nat)
    (ch : Int) (r : Extract) (hs : multipart_get_name.safe st vs)
    (h : multipart_get_name.step st vs p ch = .done r) : r ≠ .undefined := by
  obtain ⟨h1, h2, h3⟩ := hs
  cases st <;>
    simp only [multipart_get_name.step, multipart_get_name.reset] at h <;>
    (repeat' split at h) <;> (try cases h) <;>
    first
    | exact absurd rfl h1
    | exact absurd rfl h2
    | exact absurd rfl (h3 rfl)
    | (intro hc; cases hc)

/-- The loop of `multipart_get_name` never ends undefined. -/
theorem name_loop_defined : ∀ (t : List Int) (st : multipart_get_name.e_state)
    (vs : Option Nat) (p : Nat), multipart_get_name.safe st vs →
    multipart_get_name.loop st vs p t ≠ .undefined := by
  intro t
  induction t with
  | nil => intro st vs p _ hc; cases hc
  | cons c t ih =>
    intro st vs p h
    rw [name_loop_cons]
    cases hs : multipart_get_name.step st vs p c with
    | cont st1 vs1 => exact ih st1 vs1 (p + 1) (name_step_safe st st1 vs vs1 p c h hs)
    | done r => exact name_step_done st vs p c r h hs

theorem filename_step_safe (st st1 : multipart_get_filename.e_state) (vs vs1 : Option Nat)
    (p : Nat) (ch : Int) (hs : multipart_get_filename.safe st vs)
    (h : multipart_get_filename.step st vs p ch = .cont st1 vs1) :
    multipart_get_filename.safe st1 vs1 := by
  cases st <;>
    simp only [multipart_get_filename.step, multipart_get_filename.reset,
      multipart_get_filename.case_value] at h <;>
    (repeat' split at h) <;> cases h <;>
    first
    | (intro _; exact hs rfl)
    | (intro _ hc; cases hc; done)
    | (intro hc; cases hc)

theorem filename_step_done (st : multipart_get_filename.e_state) (vs : Option Nat) (p : Nat)
    (ch : Int) (r : Extract) (hs : multipart_get_filename.safe st vs)
    (h : multipart_get_filename.step st vs p ch = .done r) : r ≠ .undefined := by
  cases st <;>
    simp only [multipart_get_filename.step, multipart_get_filename.reset,
      multipart_get_filename.case_value] at h <;>
    (repeat' split at h) <;> (try cases h) <;>
    first
    | exact absurd rfl (hs rfl)
    | (intro hc; cases hc)

/-- The loop of `multipart_get_filename` never ends undefined. -/
theorem filename_loop_defined : ∀ (t : List Int) (st : multipart_get_filename.e_state)
    (vs : Option Nat) (p : Nat), multipart_get_filename.safe st vs →
    multipart_get_filename.loop st vs p t ≠ .undefined := by
  intro t
  induction t with
  | nil => intro st vs p _ hc; cases hc
  | cons c t ih =>
    intro st vs p h
    rw [filename_loop_cons]
    cases hs : multipart_get_filename.step st vs p c with
    | cont st1 vs1 => exact ih st1 vs1 (p + 1) (filename_step_safe st st1 vs vs1 p c h hs)
    | done r => exact filename_step_done st vs p c r h hs

/-- C20: starting from a parser set up by `multipart_parser_init`, after any
sequence of calls of `multipart_parser_execute` (any settings, any buffers) the
state is one of the nineteen enumerators and is never `s_header_value_lws`; the
local state of `multipart_get_name` never takes the values `s_NAME_EQ_QUOT` or
`s_value_end`; and on every input neither extractor reaches
`default: UNREACHABLE` or uses `value_start` before it is set.  (A call that ends
in undefined behaviour is taken to leave the parser as it was at that point.) -/
theorem unreachable_branches_dead (P : multipart_parser_t) (hP : reachable P)
    (st : multipart_get_name.e_state) (hst : multipart_get_name.reachable st) (s : List Int) :
    P.state ≠ s_header_value_lws ∧ P.state.code < 19 ∧
      st ≠ .s_NAME_EQ_QUOT ∧ st ≠ .s_value_end ∧
      multipart_get_name s ≠ .undefined ∧ multipart_get_filename s ≠ .undefined := by
  refine ⟨reachable_state_ne_lws P hP, ?_, (name_reachable_state st hst).1,
    (name_reachable_state st hst).2, ?_, ?_⟩
  · cases P.state <;> decide
  · exact name_loop_defined s .s_seek none 0 ⟨by simp, by simp, by simp⟩
  · exact filename_loop_defined s .s_F none 0 (by intro hc; cases hc)

/-- C20, witness: the parser left by a call that stops inside a body, the state
`s_N` reached on the byte `n`, and the input `name="x"`. -/
theorem unreachable_branches_dead_witness :
    (multipart_parser_execute (multipart_parser_init (parser_for (bytes "B")))
        (settings_returning 0) (bytes "--B\r\nA: b\r\n\r\nhel")).parser.state ≠
        s_header_value_lws ∧
      (multipart_parser_execute (multipart_parser_init (parser_for (bytes "B")))
        (settings_returning 0) (bytes "--B\r\nA: b\r\n\r\nhel")).parser.state.code < 19 ∧
      multipart_get_name.e_state.s_N ≠ .s_NAME_EQ_QUOT ∧
      multipart_get_name.e_state.s_N ≠ .s_value_end ∧
      multipart_get_name (bytes "name=\"x\"") ≠ .undefined ∧
      multipart_get_filename (bytes "name=\"x\"") ≠ .undefined :=
  unreachable_branches_dead _
    (reachable.call _ (settings_returning 0) (bytes "--B\r\nA: b\r\n\r\nhel")
      (reachable.init (parser_for (bytes "B"))))
    .s_N (multipart_get_name.reachable.pass .s_seek .s_N none none 0 110
      multipart_get_name.reachable.start rfl)
    (bytes "name=\"x\"")

/-! ## Header spans -/

/-- A header line up to its CR, read in state `s_header_field_start` or
`s_headers_almost_done` at offset `p`, when `on_header_field` returns 0:
`on_header_field` gets the span `(p, |N|)` and `on_header_value` the span
`(p + |N| + 1 + S, |V|)`; what follows depends on what `on_header_value` returns. -/
theorem run_header_to_cr (settings : multipart_parser_settings) (P : multipart_parser_t)
    (st : state) (hst : st = s_header_field_start ∨ st = s_headers_almost_done)
    (N V : List Int) (S : Nat) (hN : is_field_name N = true) (hV : is_field_value V = true)
    (h64 : N.length < 2 ^ 64 ∧ V.length < 2 ^ 64) (cbf cbv : multipart_data_cb)
    (hf : settings.on_header_field = some cbf) (hv : settings.on_header_value = some cbv)
    (n : Nat) (bs be : Option Nat) (tr : List Event) (p : Nat) (rest : List Int)
    (hf0 : cbf tr (p : Nat) N.length = 0) :
    run settings (mkF P st n bs be tr) p
        (N ++ COLON :: (List.replicate S SP ++ (V ++ CR :: rest))) =
      if cbv (tr ++ [.on_header_field (p : Nat) N.length])
          ((p + N.length + 1 + S : Nat) : Int) V.length = 0 then
        run settings
          (mkF P s_header_almost_done V.length bs be
            (tr ++ [.on_header_field (p : Nat) N.length,
              .on_header_value ((p + N.length + 1 + S : Nat) : Int) V.length]))
          (p + N.length + 1 + S + V.length + 1) rest
      else
        { ret := some (-1), pos := p + N.length + 1 + S + V.length,
          parser := (mkF P s_header_value V.length bs be tr).parser,
          trace := tr ++ [.on_header_field (p : Nat) N.length,
            .on_header_value ((p + N.length + 1 + S : Nat) : Int) V.length] } := by
  match N, hN with
  | c :: t, hn =>
  match V, hV with
  | v :: vt, hv1 =>
  simp only [is_field_name, Bool.and_eq_true, List.all_eq_true, Bool.or_eq_true,
    decide_eq_true_eq] at hn
  simp only [is_field_value, Bool.and_eq_true, List.all_eq_true, decide_eq_true_eq,
    List.mem_cons, forall_eq_or_imp] at hv1
  obtain ⟨hc, ht⟩ := hn
  obtain ⟨⟨hv1, hv2⟩, hv3, hvt⟩ := hv1
  simp only [List.length_cons] at h64 hf0 ⊢
  have s1 : step settings (mkF P st n bs be tr) p c = .cont (mkF P s_header_field 1 bs be tr) := by
    have hcr := (is_letter_ne c hc).1
    rcases hst with rfl | rfl <;>
      simp [step, mkF, case_header_field_start, hc, hcr, Frame.goto, Frame.set_nread]
  have s2 : step settings (mkF P s_header_field (1 + t.length) bs be tr) (p + 1 + t.length) COLON =
      .cont (mkF P s_header_value_discard_ws (1 + t.length) bs be
        (tr ++ [.on_header_field (p : Nat) (t.length + 1)])) := by
    have e : ((p + 1 + t.length : Nat) : Int) - ((1 + t.length : Nat) : Int) = (p : Int) := by
      push_cast; ring
    have e2 : 1 + t.length = t.length + 1 := by omega
    simp only [step, mkF, hf, e, Frame.log, Frame.goto]
    simp only [e2, hf0]
    simp [is_letter, COLON, DASH]
  have s3 : step settings (mkF P s_header_value_discard_ws (1 + t.length) bs be
        (tr ++ [.on_header_field (p : Nat) (t.length + 1)])) (p + 1 + t.length + 1 + S) v =
      .cont (mkF P s_header_value 1 bs be (tr ++ [.on_header_field (p : Nat) (t.length + 1)])) := by
    have : v > SP := by simp only [SP]; omega
    simp [step, mkF, this, Frame.goto, Frame.set_nread]
  have e : ((p + 1 + t.length + 1 + S + 1 + vt.length : Nat) : Int) -
      ((1 + vt.length : Nat) : Int) = ((p + (t.length + 1) + 1 + S : Nat) : Int) := by
    push_cast; ring
  have e2 : 1 + vt.length = vt.length + 1 := by omega
  simp only [List.cons_append]
  rw [run_of_cont settings _ _ _ _ _ s1,
    run_field_tail settings P bs be tr _ t 1 (p + 1) ht (by omega),
    run_of_cont settings _ _ _ _ _ s2, run_spaces,
    run_of_cont settings _ _ _ _ _ s3,
    run_value_tail settings P bs be _ _ vt 1 _ hvt (by omega)]
  by_cases h0 : cbv (tr ++ [.on_header_field (p : Nat) (t.length + 1)])
      ((p + (t.length + 1) + 1 + S : Nat) : Int) (vt.length + 1) = 0
  · have s4 : step settings (mkF P s_header_value (1 + vt.length) bs be
          (tr ++ [.on_header_field (p : Nat) (t.length + 1)]))
          (p + 1 + t.length + 1 + S + 1 + vt.length) CR =
        .cont (mkF P s_header_almost_done (1 + vt.length) bs be
          (tr ++ [.on_header_field (p : Nat) (t.length + 1),
            .on_header_value ((p + (t.length + 1) + 1 + S : Nat) : Int) (vt.length + 1)])) := by
      simp only [step, mkF, hv, e, Frame.log, Frame.goto]
      simp only [e2, h0]
      simp
    rw [run_of_cont settings _ _ _ _ _ s4, if_pos h0, e2]
    congr 1
    omega
  · have s4 : step settings (mkF P s_header_value (1 + vt.length) bs be
          (tr ++ [.on_header_field (p : Nat) (t.length + 1)]))
          (p + 1 + t.length + 1 + S + 1 + vt.length) CR =
        .ret (-1) (mkF P s_header_value (1 + vt.length) bs be
          (tr ++ [.on_header_field (p : Nat) (t.length + 1),
            .on_header_value ((p + (t.length + 1) + 1 + S : Nat) : Int) (vt.length + 1)])) := by
      simp only [step, mkF, hv, e, Frame.log, Frame.goto]
      simp only [e2, h0]
      simp
    rw [run_of_ret settings _ _ _ _ _ _ s4, if_neg h0, e2]
    simp only [mkF, Result.mk.injEq, and_true, true_and]
    omega

/-- C16: a header line `N ":" S V CR` that begins at offset `|pre|` of the
buffer, read in state `s_header_field_start` or `s_headers_almost_done`, with
`N` an ASCII letter followed by letters or `-`, `S` spaces, and `V` not empty,
beginning with a byte in `0x21 .. 0x7F` and without CR: `on_header_field` is
invoked with the span `(|pre|, |N|)`, whose bytes are `N`; when it returns 0,
`on_header_value` is invoked with the span `(|pre| + |N| + 1 + S, |V|)`, whose
bytes are `V`; the loop then goes on in state `s_header_almost_done`, or returns
-1 if `on_header_value` did not return 0. -/
theorem header_span_arithmetic (settings : multipart_parser_settings) (f : Frame)
    (pre N V rest : List Int) (S : Nat) (cbf cbv : multipart_data_cb)
    (hst : f.parser.state = s_header_field_start ∨ f.parser.state = s_headers_almost_done)
    (hN : is_field_name N = true) (hV : is_field_value V = true)
    (h64 : N.length < 2 ^ 64 ∧ V.length < 2 ^ 64)
    (hf : settings.on_header_field = some cbf) (hv : settings.on_header_value = some cbv)
    (hf0 : cbf f.trace (pre.length : Nat) N.length = 0) :
    run settings f pre.length (N ++ COLON :: (List.replicate S SP ++ (V ++ CR :: rest))) =
        (if cbv (f.trace ++ [.on_header_field (pre.length : Nat) N.length])
            ((pre.length + N.length + 1 + S : Nat) : Int) V.length = 0 then
          run settings
            (mkF f.parser s_header_almost_done V.length f.body_start f.body_end
              (f.trace ++ [.on_header_field (pre.length : Nat) N.length,
                .on_header_value ((pre.length + N.length + 1 + S : Nat) : Int) V.length]))
            (pre.length + N.length + 1 + S + V.length + 1) rest
        else
          { ret := some (-1), pos := pre.length + N.length + 1 + S + V.length,
            parser := (mkF f.parser s_header_value V.length f.body_start f.body_end
              f.trace).parser,
            trace := f.trace ++ [.on_header_field (pre.length : Nat) N.length,
              .on_header_value ((pre.length + N.length + 1 + S : Nat) : Int) V.length] }) ∧
      span (pre ++ (N ++ COLON :: (List.replicate S SP ++ (V ++ CR :: rest))))
        (pre.length : Nat) N.length = some N ∧
      span (pre ++ (N ++ COLON :: (List.replicate S SP ++ (V ++ CR :: rest))))
        ((pre.length + N.length + 1 + S : Nat) : Int) V.length = some V := by
  refine ⟨?_, ?_, ?_⟩
  · have := run_header_to_cr settings f.parser f.parser.state hst N V S hN hV h64 cbf cbv hf hv
      f.parser.nread f.body_start f.body_end f.trace pre.length rest hf0
    rw [mkF_self] at this
    exact this
  · exact span_mid _ pre N (COLON :: (List.replicate S SP ++ (V ++ CR :: rest))) rfl _ _ rfl rfl
  · exact span_mid _ (pre ++ N ++ COLON :: List.replicate S SP) V (CR :: rest)
      (by simp) _ _ (by simp; omega) rfl

/-- C16, witness: the line `Content-Type:  text/plain ` (two spaces before the
value, one after it) followed by CR, at offset 5 of the buffer, in state
`s_header_field_start`. -/
theorem header_span_arithmetic_witness :
    run (settings_returning 0)
        (mkF (parser_for (bytes "B")) s_header_field_start 0 none none [.on_boundary_begin])
        5 (bytes "Content-Type:  text/plain \r\n") =
      run (settings_returning 0)
        (mkF (parser_for (bytes "B")) s_header_almost_done 11 none none
          [.on_boundary_begin, .on_header_field 5 12, .on_header_value 20 11])
        32 (bytes "\n") ∧
    span (bytes "--B\r\nContent-Type:  text/plain \r\n") 5 12 = some (bytes "Content-Type") ∧
    span (bytes "--B\r\nContent-Type:  text/plain \r\n") 20 11 = some (bytes "text/plain ") :=
  header_span_arithmetic (settings_returning 0)
    (mkF (parser_for (bytes "B")) s_header_field_start 0 none none [.on_boundary_begin])
    (bytes "--B\r\n") (bytes "Content-Type") (bytes "text/plain ") (bytes "\n") 2
    (fun _ _ _ => 0) (fun _ _ _ => 0) (Or.inl rfl) (by decide) (by decide) (by decide) rfl rfl rfl

/-! ## A part without headers -/

/-- C18: on a freshly initialised parser whose `on_boundary_begin` returns 0, the
input `--` boundary CRLF CRLF followed by anything invokes `on_boundary_begin`
and nothing else, and returns -1 at the CR of the blank line. -/
theorem part_without_headers (P : multipart_parser_t) (settings : multipart_parser_settings)
    (b t : List Int) (cb : multipart_cb) (hb : P.boundary = b) (hl : P.boundary_len = b.length)
    (h64 : b.length < 2 ^ 64) (hcb : settings.on_boundary_begin = some cb) (h0 : cb [] = 0) :
    multipart_parser_execute (multipart_parser_init P) settings
        (DASH :: DASH :: (b ++ CR :: LF :: CR :: LF :: t)) =
      { ret := some (-1), pos := 2 + b.length + 2,
        parser := { P with state := s_header_field_start, nread := b.length },
        trace := [.on_boundary_begin] } := by
  subst hb
  have h1 := run_boundary settings P none none [] (CR :: LF :: CR :: LF :: t) []
    P.boundary [] (0 + 1 + 1) (by simp) (by simp [hl]) (by omega)
  simp only [List.length_nil, Nat.zero_add] at h1
  have s1 : step settings (mkF P s_boundary P.boundary.length none none [])
      (1 + 1 + P.boundary.length) CR =
      .cont (mkF P s_boundary_cr P.boundary.length none none []) := by
    simp [step, mkF, hl, Frame.goto]
  have s2 : step settings (mkF P s_boundary_cr P.boundary.length none none [])
      (1 + 1 + P.boundary.length + 1) LF =
      .cont (mkF P s_header_field_start P.boundary.length none none [.on_boundary_begin]) := by
    simp [step, mkF, hcb, h0, Frame.goto, Frame.log]
  have s3 : step settings
      (mkF P s_header_field_start P.boundary.length none none [.on_boundary_begin])
      (1 + 1 + P.boundary.length + 1 + 1) CR =
      .ret (-1) (mkF P s_header_field_start P.boundary.length none none [.on_boundary_begin]) := by
    simp [step, mkF, case_header_field_start, is_letter, CR]
  unfold multipart_parser_execute
  rw [entry_init, run_start_dashes, h1, run_of_cont settings _ _ _ _ _ s1,
    run_of_cont settings _ _ _ _ _ s2, run_of_ret settings _ _ _ _ _ _ s3]
  simp only [mkF, Result.mk.injEq, and_true, true_and]

/-- C18, witness: boundary `B`, input `--B\r\n\r\nhello\r\n--B--`. -/
theorem part_without_headers_witness :
    multipart_parser_execute (multipart_parser_init (parser_for (bytes "B")))
        (settings_returning 0) (bytes "--B\r\n\r\nhello\r\n--B--") =
      { ret := some (-1), pos := 5,
        parser := { parser_for (bytes "B") with state := s_header_field_start, nread := 1 },
        trace := [.on_boundary_begin] } :=
  part_without_headers (parser_for (bytes "B")) (settings_returning 0) (bytes "B")
    (bytes "hello\r\n--B--") (fun _ => 0) rfl rfl (by decide) rfl rfl

/-! ## Boundaries that overlap a failed match -/

/-- C17: there are a boundary and a buffer, fed while the parser scans a body,
in which the real delimiter CRLF `--` boundary followed by `--` overlaps a failed
near-match of the same delimiter and is not recognised.  With the boundary
`\rX` the buffer `\r\n--\r\n--\rX--` begins with the first five bytes of the
delimiter and has the whole delimiter at offset 4, followed by `--`; the call
invokes no callback and ends at the end of the buffer with -1.  The same happens
when the body is reached from a fresh parser through a boundary line and a
header. -/
theorem under_detection :
    ∃ (b buf : List Int),
      buf.take 5 = (delimiter b).take 5 ∧
      buf.drop 4 = delimiter b ++ [DASH, DASH] ∧
      multipart_parser_execute { parser_for b with state := s_body_part_start }
          (settings_returning 0) buf =
        { ret := some (-1), pos := buf.length,
          parser := { parser_for b with state := s_body_part, nread := 2 }, trace := [] } ∧
      multipart_parser_execute (multipart_parser_init (parser_for b)) (settings_returning 0)
          (DASH :: DASH :: (b ++ bytes "\r\nA: b\r\n\r\n" ++ buf)) =
        { ret := some (-1), pos := 14 + buf.length,
          parser := { parser_for b with state := s_body_part, nread := 2 },
          trace := [.on_boundary_begin, .on_header_field 6 1, .on_header_value 9 1,
            .on_headers_complete] } :=
  ⟨[CR, 88], bytes "\r\n--\r\n--\rX--", by decide⟩

/-! ## Absent callbacks -/

/-- A pass with absent callbacks does what it does when they are replaced by
functions that return 0, unless it runs into undefined behaviour. -/
theorem step_fill_absent (settings : multipart_parser_settings) (f : Frame) (p : Nat)
    (ch : Int) :
    step settings f p ch = step (fill_absent settings) f p ch ∨
      ∃ f1, step settings f p ch = .ub f1 := by
  rcases f with ⟨⟨st, n, e, d, b, bl⟩, bs, be, tr⟩
  rcases settings with ⟨c1, c2, c3, c4, c5, c6, c7⟩
  cases st
  case s_boundary_cr =>
    cases c1 <;> simp only [step, fill_absent, Option.getD] <;> split_ifs <;>
      first | exact Or.inl trivial | exact Or.inl rfl | exact Or.inr ⟨_, rfl⟩
  case s_boundary_almost_done =>
    cases c6 <;> simp only [step, fill_absent, Option.getD] <;> split_ifs <;>
      first | exact Or.inl trivial | exact Or.inl rfl | exact Or.inr ⟨_, rfl⟩
  case s_header_field =>
    cases c2 <;> simp only [step, fill_absent, Option.getD] <;> split_ifs <;>
      first | exact Or.inl trivial | exact Or.inl rfl | exact Or.inr ⟨_, rfl⟩
  case s_header_value =>
    cases c3 <;> simp only [step, fill_absent, Option.getD] <;> split_ifs <;>
      first | exact Or.inl trivial | exact Or.inl rfl | exact Or.inr ⟨_, rfl⟩
  case s_headers_done =>
    cases c4 <;> simp only [step, fill_absent, Option.getD] <;> split_ifs <;>
      first | exact Or.inl trivial | exact Or.inl rfl | exact Or.inr ⟨_, rfl⟩
  case s_body_part_boundary_compare =>
    cases c5 <;> cases bs <;> cases be <;> cases hb : b[n]? <;>
      simp only [step, fill_absent, Option.getD, hb] <;> split_ifs <;>
      first | exact Or.inl trivial | exact Or.inl rfl | exact Or.inr ⟨_, rfl⟩
  all_goals exact Or.inl rfl

theorem run_fill_absent (settings : multipart_parser_settings) :
    ∀ (d : List Int) (f : Frame) (p : Nat), (run settings f p d).ret ≠ none →
      run settings f p d = run (fill_absent settings) f p d := by
  intro d
  induction d with
  | nil => intro f p _; rfl
  | cons ch rest ih =>
    intro f p h
    rw [run_cons] at h ⊢
    rw [run_cons]
    rcases step_fill_absent settings f p ch with h1 | ⟨f1, h1⟩
    · rw [← h1]
      cases hs : step settings f p ch with
      | cont f1 => rw [hs] at h; exact ih f1 (p + 1) h
      | ret r f1 => rfl
      | ub f1 => rfl
    · rw [h1] at h
      exact absurd rfl h

/-- A call that does not run into undefined behaviour gives exactly the result
(return value, stopping offset, parser structure, invocations) that it gives
when each absent callback is replaced by a function that does nothing and
returns 0: the callbacks it reached were all present. -/
theorem execute_fill_absent (parser : multipart_parser_t)
    (settings : multipart_parser_settings) (data : List Int)
    (h : (multipart_parser_execute parser settings data).ret ≠ none) :
    multipart_parser_execute parser settings data =
      multipart_parser_execute parser (fill_absent settings) data :=
  run_fill_absent settings data (Frame.entry parser) 0 h

/-- C14, where the code departs from it: `multipart_parser_execute` calls
`on_boundary_begin` through its pointer without testing it. With that callback
absent (as `multipart_parser_settings_init` leaves it), whatever the other
callbacks are, a freshly initialised parser that reads `--`, the boundary and CR
LF, followed by anything, calls a null pointer at the LF: the call has no
defined result, and nothing has been invoked. With a function that does nothing
and returns 0 in its place, as the claim reads an absent callback, the same call
invokes `on_boundary_begin` at the LF and goes on with the next byte in state
`s_header_field_start`. -/
theorem absent_callback_called (P : multipart_parser_t) (settings : multipart_parser_settings)
    (b t : List Int) (hb : P.boundary = b) (hl : P.boundary_len = b.length)
    (h64 : b.length < 2 ^ 64) (hcb : settings.on_boundary_begin = none) :
    multipart_parser_execute (multipart_parser_init P) settings
        (DASH :: DASH :: (b ++ CR :: LF :: t)) =
      { ret := none, pos := 2 + b.length + 1,
        parser := { P with state := s_boundary_cr, nread := b.length },
        trace := [] } ∧
    multipart_parser_execute (multipart_parser_init P) (fill_absent settings)
        (DASH :: DASH :: (b ++ CR :: LF :: t)) =
      run (fill_absent settings)
        (mkF P s_header_field_start b.length none none [.on_boundary_begin])
        (2 + b.length + 2) t := by
  subst hb
  have h1 := fun S => run_boundary S P none none [] (CR :: LF :: t) []
    P.boundary [] (0 + 1 + 1) (by simp) (by simp [hl]) (by omega)
  simp only [List.length_nil, Nat.zero_add] at h1
  have s1 : ∀ S, step S (mkF P s_boundary P.boundary.length none none [])
      (1 + 1 + P.boundary.length) CR =
      .cont (mkF P s_boundary_cr P.boundary.length none none []) := by
    intro S
    simp [step, mkF, hl, Frame.goto]
  have s2 : step settings (mkF P s_boundary_cr P.boundary.length none none [])
      (1 + 1 + P.boundary.length + 1) LF =
      .ub (mkF P s_boundary_cr P.boundary.length none none []) := by
    simp [step, mkF, hcb]
  have s3 : step (fill_absent settings) (mkF P s_boundary_cr P.boundary.length none none [])
      (1 + 1 + P.boundary.length + 1) LF =
      .cont (mkF P s_header_field_start P.boundary.length none none [.on_boundary_begin]) := by
    simp [step, mkF, fill_absent, hcb, Frame.goto, Frame.log]
  unfold multipart_parser_execute
  constructor
  · rw [entry_init, run_start_dashes, h1, run_of_cont settings _ _ _ _ _ (s1 settings)]
    rw [run_cons, s2]
    simp only [mkF, Result.mk.injEq, and_true, true_and]
  · rw [entry_init, run_start_dashes, h1, run_of_cont _ _ _ _ _ _ (s1 (fill_absent settings)),
      run_of_cont _ _ _ _ _ _ s3]

/-- C14, the failing input: the settings left by `multipart_parser_settings_init`,
boundary `B`, input `--B\r\n`: a null call at offset 4; with callbacks that do
nothing and return 0, `on_boundary_begin` is invoked and the call ends at the end
of the buffer with -1. -/
theorem absent_callback_called_witness :
    multipart_parser_execute (multipart_parser_init (parser_for (bytes "B")))
        multipart_parser_settings_init (bytes "--B\r\n") =
      { ret := none, pos := 4,
        parser := { parser_for (bytes "B") with state := s_boundary_cr, nread := 1 },
        trace := [] } ∧
    multipart_parser_execute (multipart_parser_init (parser_for (bytes "B")))
        (fill_absent multipart_parser_settings_init) (bytes "--B\r\n") =
      { ret := some (-1), pos := 5,
        parser := { parser_for (bytes "B") with state := s_header_field_start, nread := 1 },
        trace := [.on_boundary_begin] } :=
  absent_callback_called (parser_for (bytes "B")) multipart_parser_settings_init (bytes "B") []
    rfl rfl (by decide) rfl

/-- Every one of the six call sites calls through the pointer untested: on the
well-formed message `--B\r\nA: b\r\n\r\nhello\r\n--B--`, with five callbacks
returning 0 and the sixth absent, the call has no defined result, whichever the
absent one is; with a function returning 0 in its place the call returns 0. -/
theorem absent_callback_sites :
    (multipart_parser_execute (multipart_parser_init (parser_for (bytes "B")))
      { settings_returning 0 with on_boundary_begin := none }
      (bytes "--B\r\nA: b\r\n\r\nhello\r\n--B--")).ret = none ∧
    (multipart_parser_execute (multipart_parser_init (parser_for (bytes "B")))
      { settings_returning 0 with on_header_field := none }
      (bytes "--B\r\nA: b\r\n\r\nhello\r\n--B--")).ret = none ∧
    (multipart_parser_execute (multipart_parser_init (parser_for (bytes "B")))
      { settings_returning 0 with on_header_value := none }
      (bytes "--B\r\nA: b\r\n\r\nhello\r\n--B--")).ret = none ∧
    (multipart_parser_execute (multipart_parser_init (parser_for (bytes "B")))
      { settings_returning 0 with on_headers_complete := none }
      (bytes "--B\r\nA: b\r\n\r\nhello\r\n--B--")).ret = none ∧
    (multipart_parser_execute (multipart_parser_init (parser_for (bytes "B")))
      { settings_returning 0 with on_body := none }
      (bytes "--B\r\nA: b\r\n\r\nhello\r\n--B--")).ret = none ∧
    (multipart_parser_execute (multipart_parser_init (parser_for (bytes "B")))
      { settings_returning 0 with on_body_parts_complete := none }
      (bytes "--B\r\nA: b\r\n\r\nhello\r\n--B--")).ret = none ∧
    (multipart_parser_execute (multipart_parser_init (parser_for (bytes "B")))
      (fill_absent multipart_parser_settings_init)
      (bytes "--B\r\nA: b\r\n\r\nhello\r\n--B--")).ret = some 0 := by
  decide

/-! ## The documented decoding of file names -/

/-- C12, evaluated where the code departs from it: on the header value of the
comment in the header file, `multipart_get_filename` returns the span of the
twelve raw bytes `我a私aaaa\`, cut at the quote that follows the backslash, not
the documented `我a私aaaa"xxx"abc`; and on `filename="a%22b"` it returns the span
of the raw bytes `a%22b`, the percent sequence not decoded. -/
theorem filename_not_decoded :
    multipart_get_filename doc_filename_input = .found 35 12 ∧
    span doc_filename_input 35 12 =
      some ([230, 136, 145] ++ bytes "a" ++ [231, 167, 129] ++ bytes "aaaa\\") ∧
    span doc_filename_input 35 12 ≠ some doc_filename_result ∧
    multipart_get_filename (bytes "filename=\"a%22b\"") = .found 10 5 ∧
    span (bytes "filename=\"a%22b\"") 10 5 = some (bytes "a%22b") ∧
    span (bytes "filename=\"a%22b\"") 10 5 ≠ some (bytes "a\"b") := by
  decide

/-! ## The span an extractor returns -/

/-- An occurrence of the pattern has, at each position of the keyword, the
keyword's letter in one of its two cases. -/
theorem starts_with_pattern_letter (K s : List Int) (n : Nat) (h : starts_with_pattern K s n)
    (idx : Nat) (hidx : idx < K.length) :
    ∃ c, s[idx]? = some c ∧ eq_ignore_case c K[idx] = true := by
  obtain ⟨k, a, b, rest, hs, hk, -⟩ := h
  have hlen := hk.length_eq
  have hr := hk.get (i := idx) (by omega) hidx
  refine ⟨k[idx], ?_, by simpa using hr⟩
  rw [hs, List.getElem?_append_left (by omega)]
  simp

/-- An occurrence of the pattern ends with the opening quote. -/
theorem starts_with_pattern_quote (K s : List Int) (n : Nat) (h : starts_with_pattern K s n) :
    1 ≤ n ∧ s[n - 1]? = some QUOTE := by
  obtain ⟨k, a, b, rest, hs, hk, hn⟩ := h
  have hlen := hk.length_eq
  refine ⟨by omega, ?_⟩
  rw [hs, List.getElem?_append_right (by omega),
    List.getElem?_append_right (by simp; omega)]
  have e : n - 1 - k.length - (List.replicate a SP).length = b + 1 := by
    simp only [List.length_replicate]; omega
  rw [e, List.getElem?_cons_succ, List.getElem?_append_right (by simp)]
  simp

/-- What a found span looks like in the reference extractor. -/
theorem ref_extract_span (K s : List Int) (o l : Nat) (h : ref_extract K s = .found o l) :
    1 ≤ o ∧ s[o - 1]? = some QUOTE ∧ s[o + l]? = some QUOTE ∧
      ∀ k, k < l → s[o + k]? ≠ some QUOTE := by
  obtain ⟨i, n, ho, h1, -, h3, h4⟩ := (ref_extract_found_iff K s o l).mp h
  obtain ⟨h5, h6⟩ := starts_with_pattern_quote K (s.drop i) n h1
  refine ⟨by omega, ?_, h3, h4⟩
  rw [List.getElem?_drop] at h6
  have e : o - 1 = i + (n - 1) := by omega
  rw [e]
  exact h6

/-- C11: when `multipart_get_name` or `multipart_get_filename` returns the span
`(o, l)` on a string `s` of `char` values, the byte before the span is a `"`,
the byte after it is a `"`, and no byte of the span is a `"`: the span is the
raw stretch of `s` between two quotes. -/
theorem extractors_return_raw_span (s : List Int) (hr : ∀ c ∈ s, -128 ≤ c ∧ c ≤ 255)
    (o l : Nat)
    (h : multipart_get_name s = .found o l ∨ multipart_get_filename s = .found o l) :
    1 ≤ o ∧ s[o - 1]? = some QUOTE ∧ s[o + l]? = some QUOTE ∧
      ∀ k, k < l → s[o + k]? ≠ some QUOTE := by
  rcases h with h | h
  · rw [get_name_eq_ref s hr] at h
    exact ref_extract_span kw_name s o l h
  · rw [get_filename_eq_ref s hr] at h
    exact ref_extract_span kw_filename s o l h

/-- C11, witness: on `filename="a\"b"` the span is the two bytes `a\`, between
the opening quote and the quote that follows the backslash. -/
theorem extractors_return_raw_span_witness :
    (1 ≤ 10 ∧ (bytes "filename=\"a\\\"b\"")[10 - 1]? = some QUOTE ∧
      (bytes "filename=\"a\\\"b\"")[10 + 2]? = some QUOTE ∧
      ∀ k, k < 2 → (bytes "filename=\"a\\\"b\"")[10 + k]? ≠ some QUOTE) ∧
    multipart_get_filename (bytes "filename=\"a\\\"b\"") = .found 10 2 ∧
    span (bytes "filename=\"a\\\"b\"") 10 2 = some (bytes "a\\") ∧
    multipart_get_filename (bytes "filename=\"a%22b\"") = .found 10 5 ∧
    span (bytes "filename=\"a%22b\"") 10 5 = some (bytes "a%22b") :=
  ⟨extractors_return_raw_span (bytes "filename=\"a\\\"b\"") (by decide) 10 2
      (Or.inr (by decide)), by decide, by decide, by decide, by decide⟩
/-! ## The keyword `name` inside `filename` -/

/-- Indexing into a string that holds `filename="` after a prefix. -/
theorem filename_literal_index (pre rest : List Int) (r : Nat) (hr : r < 10) :
    (pre ++ (bytes "filename=\"" ++ rest))[pre.length + r]? =
      ([102, 105, 108, 101, 110, 97, 109, 101, 61, 34] : List Int)[r]? := by
  have hlit : bytes "filename=\"" = [102, 105, 108, 101, 110, 97, 109, 101, 61, 34] := by
    decide
  rw [hlit, List.getElem?_append_right (by omega),
    List.getElem?_append_left (by simp; omega)]
  simp

/-- Indexing past `filename="` in such a string. -/
theorem filename_literal_past (pre rest : List Int) (k : Nat) :
    (pre ++ (bytes "filename=\"" ++ rest))[pre.length + 10 + k]? = rest[k]? := by
  have hlit : (bytes "filename=\"").length = 10 := by decide
  rw [List.getElem?_append_right (by omega), List.getElem?_append_right (by omega)]
  congr 1
  omega

/-- A byte that matches `n` without regard to case is `n` or `N`. -/
theorem eq_ignore_case_n (c : Int) (h : eq_ignore_case c 110 = true) : c = 110 ∨ c = 78 := by
  simp only [eq_ignore_case, Bool.or_eq_true, decide_eq_true_eq] at h
  omega

/-- Before the `n` of `filename="`, a string whose prefix has no `n` and no `N`
has no such byte. -/
theorem no_n_before (pre rest : List Int) (hpre : ∀ c ∈ pre, c ≠ 110 ∧ c ≠ 78) (j : Nat)
    (hj : j < pre.length + 4) (c : Int)
    (hc : (pre ++ (bytes "filename=\"" ++ rest))[j]? = some c) : c ≠ 110 ∧ c ≠ 78 := by
  by_cases h : j < pre.length
  · rw [List.getElem?_append_left h] at hc
    exact hpre c (List.getElem?_mem hc)
  · obtain ⟨r, rfl⟩ : ∃ r, j = pre.length + r := ⟨j - pre.length, by omega⟩
    have hr : r < 4 := by omega
    rw [filename_literal_index pre rest r (by omega)] at hc
    interval_cases r <;> simp at hc <;> subst hc <;> decide

/-- The value after `filename="` is found by the reference extractor for either
keyword, when no `n` or `N` precedes the keyword and the value has no quote. -/
theorem ref_extract_filename (pre v t : List Int) (hpre : ∀ c ∈ pre, c ≠ 110 ∧ c ≠ 78)
    (hv : QUOTE ∉ v) :
    ref_extract kw_name (pre ++ (bytes "filename=\"" ++ (v ++ QUOTE :: t))) =
        .found (pre.length + 10) v.length ∧
      ref_extract kw_filename (pre ++ (bytes "filename=\"" ++ (v ++ QUOTE :: t))) =
        .found (pre.length + 10) v.length := by
  have hq : (pre ++ (bytes "filename=\"" ++ (v ++ QUOTE :: t)))[pre.length + 10 + v.length]? =
      some QUOTE := by
    rw [filename_literal_past, List.getElem?_append_right (le_refl _)]
    simp
  have hin : ∀ k, k < v.length →
      (pre ++ (bytes "filename=\"" ++ (v ++ QUOTE :: t)))[pre.length + 10 + k]? ≠
        some QUOTE := by
    intro k hk hc
    rw [filename_literal_past, List.getElem?_append_left hk] at hc
    exact hv (List.getElem?_mem hc)
  have hlit : bytes "filename=\"" = [102, 105, 108, 101, 110, 97, 109, 101, 61, 34] := by
    decide
  constructor
  · refine (ref_extract_found_iff kw_name _ _ _).mpr
      ⟨pre.length + 4, 6, by omega, ?_, ?_, hq, hin⟩
    · refine ⟨[110, 97, 109, 101], 0, 0, v ++ QUOTE :: t, ?_, by decide, by decide⟩
      rw [hlit, show pre.length + 4 = pre.length + 4 from rfl, ← List.drop_drop,
        List.drop_left]
      rfl
    · intro j hj m hm
      obtain ⟨c, h1, h2⟩ := starts_with_pattern_letter kw_name _ m hm 0 (by decide)
      rw [List.getElem?_drop] at h1
      have h3 := no_n_before pre _ hpre (j + 0) (by omega) c h1
      have h4 := eq_ignore_case_n c h2
      omega
  · refine (ref_extract_found_iff kw_filename _ _ _).mpr
      ⟨pre.length, 10, by omega, ?_, ?_, hq, hin⟩
    · refine ⟨[102, 105, 108, 101, 110, 97, 109, 101], 0, 0, v ++ QUOTE :: t, ?_,
        by decide, by decide⟩
      rw [hlit, List.drop_left]
      rfl
    · intro j hj m hm
      obtain ⟨c, h1, h2⟩ := starts_with_pattern_letter kw_filename _ m hm 4 (by decide)
      rw [List.getElem?_drop] at h1
      have h3 := no_n_before pre _ hpre (j + 4) (by omega) c h1
      have h4 := eq_ignore_case_n c h2
      omega

/-- C19: a parameter string that holds `filename="v"` after a prefix without
`n` or `N`, with no quote in `v`, whatever follows: `multipart_get_name`
matches the `name` inside `filename` and returns the span of `v`, the same
span `multipart_get_filename` returns, and not the value of a later `name`
parameter. -/
theorem get_name_matches_inside_filename (pre v t : List Int)
    (hpre : ∀ c ∈ pre, c ≠ 110 ∧ c ≠ 78) (hv : QUOTE ∉ v)
    (hr : ∀ c ∈ pre ++ (v ++ t), -128 ≤ c ∧ c ≤ 255) :
    multipart_get_name (pre ++ (bytes "filename=\"" ++ (v ++ QUOTE :: t))) =
        .found (pre.length + 10) v.length ∧
      multipart_get_filename (pre ++ (bytes "filename=\"" ++ (v ++ QUOTE :: t))) =
        .found (pre.length + 10) v.length ∧
      span (pre ++ (bytes "filename=\"" ++ (v ++ QUOTE :: t))) ((pre.length + 10 : Nat) : Int)
        v.length = some v := by
  have hs : ∀ c ∈ pre ++ (bytes "filename=\"" ++ (v ++ QUOTE :: t)),
      -128 ≤ c ∧ c ≤ 255 := by
    intro c hc
    simp only [List.mem_append, List.mem_cons] at hc hr
    rcases hc with hc | hc | hc | hc | hc
    · exact hr c (Or.inl hc)
    · revert c; decide
    · exact hr c (Or.inr (Or.inl hc))
    · subst hc; decide
    · exact hr c (Or.inr (Or.inr hc))
  rw [get_name_eq_ref _ hs, get_filename_eq_ref _ hs]
  refine ⟨(ref_extract_filename pre v t hpre hv).1, (ref_extract_filename pre v t hpre hv).2, ?_⟩
  exact span_mid _ (pre ++ bytes "filename=\"") v (QUOTE :: t)
    (by simp only [List.append_assoc]) (pre.length + 10) v.length
    (by rw [List.length_append]; rfl) rfl

/-- C19, witness: on `form-data; filename="a.txt"; name="f"` both extractors
return the span of `a.txt`. -/
theorem get_name_matches_inside_filename_witness :
    multipart_get_name (bytes "form-data; filename=\"a.txt\"; name=\"f\"") = .found 21 5 ∧
      multipart_get_filename (bytes "form-data; filename=\"a.txt\"; name=\"f\"") =
        .found 21 5 ∧
      span (bytes "form-data; filename=\"a.txt\"; name=\"f\"") ((21 : Nat) : Int) 5 =
        some (bytes "a.txt") :=
  get_name_matches_inside_filename (bytes "form-data; ") (bytes "a.txt")
    (bytes "; name=\"f\"") (by decide) (by decide) (by decide)

end Multipart
